import Mathlib

/-!
# Verification of the mcdata flatten / dispatch / untagged-resolution core

A shallow embedding of the hand-written codec machinery of the `mcdata`
crate: the NBT value model it manipulates, the flatten engine
(`src/flatten.rs` together with the `Flatten` impls generated by
`block_entity_types!` / `entity_types!`), the per-shape deserializers
generated by those macros, and the tagged / untagged dispatch logic
generated by `block_entities!` and `entities!`.

Shapes (one struct of the generated inheritance chain each) and dispatch
tables are parameters of the embedding, exactly as they are data for the
macros; the machinery itself is translated statement by statement from
`src/block_entity/macros.rs`, `src/entity/macros.rs`, `src/flatten.rs`,
`src/block_entity.rs` and `src/entity.rs`.
-/

namespace MCData

/-! ## The tagged value model (`fastnbt::Value`)

The value tree is an external dependency of the crate.  Scalar payloads are
carried as unbounded integers; the width constraints of the wire format are
enforced where the crate's field decoding enforces them.  Floating point
payloads are carried as opaque bit patterns, since the machinery under
verification never computes with them. -/

mutual

inductive Value where
  | byte (b : Int)
  | short (s : Int)
  | int (i : Int)
  | long (l : Int)
  | float (bits : Int)
  | double (bits : Int)
  | string (s : String)
  | byteArray (xs : List Int)
  | intArray (xs : List Int)
  | longArray (xs : List Int)
  | list (xs : ValueSeq)
  | compound (m : ValueFields)
deriving DecidableEq, Repr

inductive ValueSeq where
  | nil
  | cons (hd : Value) (tl : ValueSeq)
deriving DecidableEq, Repr

inductive ValueFields where
  | nil
  | cons (key : String) (val : Value) (tl : ValueFields)
deriving DecidableEq, Repr

end

/-! ## Flat mappings

The dispatch and flatten code manipulates `HashMap<_, fastnbt::Value>`
mappings.  We model a mapping as an association list together with the
operations the source uses; `insert` replaces an existing entry in place
(like `HashMap::insert`), `removeKey` drops the entry, `lookup` finds the
entry.  A mapping built exclusively through `insert` has no duplicate keys,
mirroring the `HashMap` invariant; list order models one iteration order. -/

abbrev NbtMap := List (String × Value)

def NbtMap.lookup : NbtMap → String → Option Value
  | [], _ => none
  | (k, v) :: rest, key => if k = key then some v else NbtMap.lookup rest key

def NbtMap.containsKey (m : NbtMap) (key : String) : Bool :=
  (NbtMap.lookup m key).isSome

def NbtMap.insert : NbtMap → String → Value → NbtMap
  | [], key, v => [(key, v)]
  | (k, w) :: rest, key, v =>
    if k = key then (k, v) :: rest else (k, w) :: NbtMap.insert rest key v

def NbtMap.removeKey : NbtMap → String → NbtMap
  | [], _ => []
  | (k, w) :: rest, key =>
    if k = key then NbtMap.removeKey rest key
    else (k, w) :: NbtMap.removeKey rest key

def NbtMap.keysOf (m : NbtMap) : List String := m.map Prod.fst

/-- Collect a list of key/value pairs into a mapping the way the source
collects entries into a `HashMap`: later occurrences of a key win. -/
def mapFromPairs (pairs : List (String × Value)) : NbtMap :=
  pairs.foldl (fun acc kv => NbtMap.insert acc kv.1 kv.2) []

/-- Extensional equality of mappings: used to state order-independent
reproduction of a mapping ("up to key-insertion-order"). -/
def MapEq (m₁ m₂ : NbtMap) : Prop :=
  ∀ k, NbtMap.lookup m₁ k = NbtMap.lookup m₂ k

/-! ## Field kinds and primitive field decoding

A generated struct field carries a Rust type; its serde decoding from a
`fastnbt::Value` accepts any integral value representable in the declared
width (out of range is a failure, not a truncation) and re-encodes at the
declared width.  `decodePrim` composes that decode step with the canonical
re-encoding performed by `fastnbt::to_value` in the generated `Flatten`
impls, so a `Record` stores field values in canonical form.  `anyT` stands
for fields of type `fastnbt::Value`, which are kept verbatim; `uuidT` is
the `u128` UUID representation (an `IntArray` of four 32-bit words). -/

inductive FieldType where
  | byteT
  | shortT
  | intT
  | longT
  | boolT
  | stringT
  | uuidT
  | anyT
deriving DecidableEq, Repr

/-- The integral payload of a value, if it is one of the four integer
scalar kinds (serde integer visitors accept every integral width). -/
def intPayload : Value → Option Int
  | .byte b => some b
  | .short s => some s
  | .int i => some i
  | .long l => some l
  | _ => none

def i8Min : Int := -128
def i8Max : Int := 127
def i16Min : Int := -32768
def i16Max : Int := 32767
def i32Min : Int := -2147483648
def i32Max : Int := 2147483647

def inWidth (lo hi : Int) (v : Value) : Option Int :=
  match intPayload v with
  | some n => if lo ≤ n ∧ n ≤ hi then some n else none
  | none => none

def decodeU128 (v : Value) : Option Value :=
  match v with
  | .intArray [a, b, c, d] =>
    if i32Min ≤ a ∧ a ≤ i32Max ∧ i32Min ≤ b ∧ b ≤ i32Max ∧
        i32Min ≤ c ∧ c ≤ i32Max ∧ i32Min ≤ d ∧ d ≤ i32Max then
      some (.intArray [a, b, c, d])
    else none
  | _ => none

def decodePrim : FieldType → Value → Option Value
  | .byteT, v => (inWidth i8Min i8Max v).map Value.byte
  | .shortT, v => (inWidth i16Min i16Max v).map Value.short
  | .intT, v => (inWidth i32Min i32Max v).map Value.int
  | .longT, v => (intPayload v).map Value.long
  | .boolT, v =>
    match v with
    | .byte 0 => some (.byte 0)
    | .byte 1 => some (.byte 1)
    | _ => none
  | .stringT, v =>
    match v with
    | .string s => some (.string s)
    | _ => none
  | .uuidT, v => decodeU128 v
  | .anyT, v => some v

/-! ## Shapes and typed records

A shape is one struct generated by `block_entity_types!` /
`entity_types!`: its own serialized fields (in declared order, each with
its key, an optional flag and a value kind), an optional open-extension
bag (`with extras as ...`, absorbing unknown keys), and an optional parent
struct.  `flattened` struct fields behave like an additional parent link
and are subsumed by the parent chain of this model. -/

structure FieldSpec where
  fname : String
  optional : Bool
  fty : FieldType
deriving DecidableEq, Repr

inductive Shape where
  | root (own : List FieldSpec) (extras : Bool)
  | node (own : List FieldSpec) (extras : Bool) (parent : Shape)
deriving DecidableEq, Repr

def Shape.own : Shape → List FieldSpec
  | .root own _ => own
  | .node own _ _ => own

def Shape.extras : Shape → Bool
  | .root _ e => e
  | .node _ e _ => e

/-- All serialized field names of a shape's inheritance chain. -/
def Shape.chainNames : Shape → List String
  | .root own _ => own.map FieldSpec.fname
  | .node own _ parent => own.map FieldSpec.fname ++ Shape.chainNames parent

/-- A typed record: one decoded instance of a shape.  Own-field slots are
kept in declared order (`none` models an absent optional field, i.e. a
Rust `None`); `extra` is the open-extension bag. -/
inductive Record where
  | root (vals : List (String × Option Value)) (extra : NbtMap)
  | node (vals : List (String × Option Value)) (extra : NbtMap) (parent : Record)
deriving DecidableEq, Repr

/-! ## The flatten engine

`Flatten::flatten(&self, map)` in the generated impls inserts the own
fields in declared order (an optional field only when present), then lets
the parent flatten itself into the same map, then inserts the extras bag. -/

def insertOwnVals (vals : List (String × Option Value)) (m : NbtMap) : NbtMap :=
  vals.foldl
    (fun acc kv =>
      match kv.2 with
      | some v => NbtMap.insert acc kv.1 v
      | none => acc)
    m

def insertExtras (extra : NbtMap) (m : NbtMap) : NbtMap :=
  extra.foldl (fun acc kv => NbtMap.insert acc kv.1 kv.2) m

def Record.flattenInto : Record → NbtMap → NbtMap
  | .root vals extra, m => insertExtras extra (insertOwnVals vals m)
  | .node vals extra parent, m =>
    insertExtras extra (Record.flattenInto parent (insertOwnVals vals m))

/-- Model of `crate::flatten::flatten`: flatten into a fresh map. -/
def Record.flatten (r : Record) : NbtMap := r.flattenInto []

/-! ## The generated per-shape deserializer

`visit_map` of a generated struct scans the incoming entries once.  A key
matching an own field is decoded into its slot (a second occurrence is a
`duplicate_field` error, a value of the wrong kind an error); every other
entry is pushed onto `__collect`.  After the scan, a missing required
field is a `missing_field` error.  The parent is then deserialized from
`__collect` through `FlatMapDeserializer`, which iterates `__collect`
without consuming entries; an extras bag likewise collects all of
`__collect` into a `HashMap`.  A root struct without an extras bag simply
ignores whatever is left in `__collect`. -/

inductive DecodeErr where
  | duplicateField (name : String)
  | missingField (name : String)
  | invalidValue (name : String)
deriving DecidableEq, Repr

def initSlots (own : List FieldSpec) : List (String × Option Value) :=
  own.map (fun f => (f.fname, none))

def slotLookup : List (String × Option Value) → String → Option (Option Value)
  | [], _ => none
  | (k, v) :: rest, key => if k = key then some v else slotLookup rest key

def slotSet : List (String × Option Value) → String → Value → List (String × Option Value)
  | [], _, _ => []
  | (k, w) :: rest, key, v =>
    if k = key then (k, some v) :: rest else (k, w) :: slotSet rest key v

def findSpec (own : List FieldSpec) (key : String) : Option FieldSpec :=
  own.find? (fun f => f.fname = key)

/-- One step of the single-pass scan: how `visit_map` handles one entry.
A key matching an own field is checked against its slot (`duplicate_field`
if already filled) and decoded into it; any other entry is pushed onto
`__collect`. -/
def scanOwnStep (own : List FieldSpec) (k : String) (v : Value)
    (slots : List (String × Option Value)) (collect : List (String × Value)) :
    Except DecodeErr (List (String × Option Value) × List (String × Value)) :=
  match findSpec own k with
  | some fs =>
    match slotLookup slots k with
    | some (some _) => .error (.duplicateField k)
    | _ =>
      match decodePrim fs.fty v with
      | some cv => .ok (slotSet slots k cv, collect)
      | none => .error (.invalidValue k)
  | none => .ok (slots, collect ++ [(k, v)])

def scanOwn (own : List FieldSpec) :
    NbtMap → List (String × Option Value) → List (String × Value) →
    Except DecodeErr (List (String × Option Value) × List (String × Value))
  | [], slots, collect => .ok (slots, collect)
  | (k, v) :: rest, slots, collect =>
    match scanOwnStep own k v slots collect with
    | .ok (slots2, collect2) => scanOwn own rest slots2 collect2
    | .error e => .error e

def checkRequired : List FieldSpec → List (String × Option Value) → Except DecodeErr Unit
  | [], _ => .ok ()
  | f :: rest, slots =>
    if f.optional then checkRequired rest slots
    else
      match slotLookup slots f.fname with
      | some (some _) => checkRequired rest slots
      | _ => .error (.missingField f.fname)

/-- Deserialize one shape from a flat mapping.  The second component of a
successful result collects the entries the source silently discards at the
chain root (returned here so that theorems can speak about them; the
crate's own result is the first component alone). -/
def decodeShape : Shape → NbtMap → Except DecodeErr (Record × List (String × Value))
  | .root own extras, m =>
    match scanOwn own m (initSlots own) [] with
    | .error e => .error e
    | .ok (slots, collect) =>
      match checkRequired own slots with
      | .error e => .error e
      | .ok () =>
        if extras then .ok (.root slots (mapFromPairs collect), [])
        else .ok (.root slots [], collect)
  | .node own extras parent, m =>
    match scanOwn own m (initSlots own) [] with
    | .error e => .error e
    | .ok (slots, collect) =>
      match checkRequired own slots with
      | .error e => .error e
      | .ok () =>
        match decodeShape parent collect with
        | .error e => .error e
        | .ok (p, leftover) =>
          if extras then .ok (.node slots (mapFromPairs collect) p, [])
          else .ok (.node slots [] p, leftover)

/-! ## Block entity dispatch (`block_entities!` in `src/block_entity/macros.rs`)

`BlockEntity::deserialize`'s `visit_map` scans the compound once: `"id"`,
`"x"`, `"y"`, `"z"` go to dedicated slots (a second occurrence of one of
them is a `duplicate_field` error; `id` must be a string and the
coordinates integers in `i32` range); every other entry is inserted into a
`HashMap` (a duplicate silently replaces the earlier value).  `x`, `y`,
`z` are then required; `id` is not.  The static table maps each known id
to its shape (and, for untagged resolution, the `$fields` list generated
by the xtask: every serialized field name of the chain except the root's
`x`/`y`/`z`). -/

structure BlockPos where
  x : Int
  y : Int
  z : Int
deriving DecidableEq, Repr

structure GenericBlockEntity where
  gid : String
  pos : BlockPos
  properties : NbtMap
deriving DecidableEq, Repr

structure TableEntry where
  eid : String
  fields : List String
  shape : Shape
deriving DecidableEq, Repr

inductive BEVariant where
  | typed (tag : String) (tr : Record)
  | other (g : GenericBlockEntity)
deriving DecidableEq, Repr

structure BEScan where
  sid : Option String
  sx : Int
  sy : Int
  sz : Int
  props : NbtMap
deriving DecidableEq, Repr

def asI32 (v : Value) : Option Int := inWidth i32Min i32Max v

def asStringVal (v : Value) : Option String :=
  match v with
  | .string s => some s
  | _ => none

structure BEState where
  stId : Option String
  stX : Option Int
  stY : Option Int
  stZ : Option Int
  stProps : NbtMap
deriving DecidableEq, Repr

/-- One entry of the dispatch-layer scan, mirroring the `match key.as_str()`
arms of `BlockEntity::deserialize`'s `visit_map`: the four identity keys go
to dedicated slots with a duplicate check, everything else is inserted into
the `HashMap` (silently replacing an earlier occurrence). -/
def scanBEStep (k : String) (v : Value) (st : BEState) : Except DecodeErr BEState :=
  if k = "id" then
    if st.stId.isSome then .error (.duplicateField "id")
    else
      match asStringVal v with
      | some s => .ok { st with stId := some s }
      | none => .error (.invalidValue "id")
  else if k = "x" then
    if st.stX.isSome then .error (.duplicateField "x")
    else
      match asI32 v with
      | some n => .ok { st with stX := some n }
      | none => .error (.invalidValue "x")
  else if k = "y" then
    if st.stY.isSome then .error (.duplicateField "y")
    else
      match asI32 v with
      | some n => .ok { st with stY := some n }
      | none => .error (.invalidValue "y")
  else if k = "z" then
    if st.stZ.isSome then .error (.duplicateField "z")
    else
      match asI32 v with
      | some n => .ok { st with stZ := some n }
      | none => .error (.invalidValue "z")
  else
    .ok { st with stProps := NbtMap.insert st.stProps k v }

def scanBEAux : NbtMap → BEState → Except DecodeErr BEState
  | [], st => .ok st
  | (k, v) :: rest, st =>
    match scanBEStep k v st with
    | .ok st2 => scanBEAux rest st2
    | .error e => .error e

def scanBE (m : NbtMap) : Except DecodeErr BEScan :=
  match scanBEAux m ⟨none, none, none, none, []⟩ with
  | .error e => .error e
  | .ok st =>
    match st.stX, st.stY, st.stZ with
    | some x, some y, some z => .ok ⟨st.stId, x, y, z, st.stProps⟩
    | none, _, _ => .error (.missingField "x")
    | some _, none, _ => .error (.missingField "y")
    | some _, some _, none => .error (.missingField "z")

def insertXYZ (x y z : Int) (props : NbtMap) : NbtMap :=
  NbtMap.insert (NbtMap.insert (NbtMap.insert props "x" (.int x)) "y" (.int y)) "z" (.int z)

def removeXYZ (props : NbtMap) : NbtMap :=
  NbtMap.removeKey (NbtMap.removeKey (NbtMap.removeKey props "x") "y") "z"

def findEntry (table : List TableEntry) (tag : String) : Option TableEntry :=
  table.find? (fun e => e.eid = tag)

/-- The per-variant count of property keys the variant's field list does
not contain; the `- 3` accounts for `x`, `y`, `z`, which are present in
the properties at this point and absent from every `$fields` list, so the
count being subtracted from is at least 3 wherever the source computes it
(`usize` subtraction and truncated `Nat` subtraction agree there). -/
def unusedKeys (fields : List String) (props : NbtMap) : Nat :=
  ((NbtMap.keysOf props).filter (fun k => ¬ fields.contains k)).length - 3

/-- The untagged loop: only variants whose `unused_keys` count is zero are
attempted, in table-declared order; the first successful typed decode
wins. -/
def firstUntagged : List TableEntry → NbtMap → Option (TableEntry × Record)
  | [], _ => none
  | e :: rest, props =>
    if unusedKeys e.fields props = 0 then
      match decodeShape e.shape props with
      | .ok (r, _) => some (e, r)
      | .error _ => firstUntagged rest props
    else firstUntagged rest props

/-- The `match id.as_deref()` dispatch after the scan: a known tag gets a
typed decode with the coordinates re-inserted, falling back on failure to
a `GenericBlockEntity` with the coordinates removed again; an unknown tag
is immediately generic; a missing tag goes to untagged resolution. -/
def dispatchBE (table : List TableEntry) (s : BEScan) : BEVariant :=
  match s.sid with
  | some tag =>
    match findEntry table tag with
    | some e =>
      match decodeShape e.shape (insertXYZ s.sx s.sy s.sz s.props) with
      | .ok (r, _) => .typed e.eid r
      | .error _ =>
        .other ⟨e.eid, ⟨s.sx, s.sy, s.sz⟩, removeXYZ (insertXYZ s.sx s.sy s.sz s.props)⟩
    | none => .other ⟨tag, ⟨s.sx, s.sy, s.sz⟩, s.props⟩
  | none =>
    let props := insertXYZ s.sx s.sy s.sz s.props
    match firstUntagged table props with
    | some (e, r) => .typed e.eid r
    | none => .other ⟨"", ⟨s.sx, s.sy, s.sz⟩, removeXYZ props⟩

def decodeBlockEntity (table : List TableEntry) (m : NbtMap) : Except DecodeErr BEVariant :=
  (scanBE m).map (dispatchBE table)

/-- Model of `BlockEntity::as_generic`: flatten the typed value, pull `x`, `y`, `z`
out of the flat map (they must be present with kind `Int`, else the source
panics — modelled as `none`), and keep the rest as properties. -/
def asGenericBE : BEVariant → Option GenericBlockEntity
  | .other g => some g
  | .typed tag r =>
    let props := r.flatten
    match NbtMap.lookup props "x", NbtMap.lookup props "y", NbtMap.lookup props "z" with
    | some (.int x), some (.int y), some (.int z) =>
      some ⟨tag, ⟨x, y, z⟩, removeXYZ props⟩
    | _, _, _ => none

/-- Model of `impl Serialize for GenericBlockEntity`: the `id` entry is omitted
when the id is the empty string; `x`, `y`, `z` always follow, then the
properties. -/
def serializeGenericBE (g : GenericBlockEntity) : NbtMap :=
  (if g.gid = "" then [] else [("id", Value.string g.gid)]) ++
    [("x", Value.int g.pos.x), ("y", Value.int g.pos.y), ("z", Value.int g.pos.z)] ++
    g.properties

/-- Model of `impl Serialize for BlockEntity`: it serializes through `as_generic` (a
panic there propagates, modelled as `none`). -/
def serializeBE (v : BEVariant) : Option NbtMap :=
  (asGenericBE v).map serializeGenericBE

/-- Model of `GenericBlockEntity::deserialize`: the same scan as the dispatch
layer, except that a missing `id` becomes the empty string
(`id.unwrap_or_default()`) instead of staying optional. -/
def decodeGenericBE (m : NbtMap) : Except DecodeErr GenericBlockEntity :=
  (scanBE m).map (fun s => ⟨s.sid.getD "", ⟨s.sx, s.sy, s.sz⟩, s.props⟩)

/-- Model of `impl PartialEq for BlockEntity`: equality of the two canonicalized
generic records (the source compares `as_generic` results; a panicking
side has no canonical form and the comparison is modelled as false). -/
def GenEqBE (g₁ g₂ : GenericBlockEntity) : Prop :=
  g₁.gid = g₂.gid ∧ g₁.pos = g₂.pos ∧ MapEq g₁.properties g₂.properties

def BEVariantEq (a b : BEVariant) : Prop :=
  ∃ g₁ g₂, asGenericBE a = some g₁ ∧ asGenericBE b = some g₂ ∧ GenEqBE g₁ g₂

/-! ## Entity dispatch (`entities!` in `src/entity/macros.rs`)

Entities reserve `"id"` (required, a string) and `"UUID"` (required, a
128-bit integer stored as a four-word `IntArray`) as identity keys; there
is no untagged resolution: an unknown id is immediately generic, a missing
id is a `missing_field` error. -/

structure GenericEntity where
  egid : String
  uuid : Value
  eproperties : NbtMap
deriving DecidableEq, Repr

structure EntityTableEntry where
  eeid : String
  eshape : Shape
deriving DecidableEq, Repr

inductive EntVariant where
  | typed (tag : String) (tr : Record)
  | other (g : GenericEntity)
deriving DecidableEq, Repr

structure EntScan where
  esid : Option String
  euuid : Option Value
  eprops : NbtMap
deriving DecidableEq, Repr

/-- One entry of the entity dispatch scan, mirroring the `match key.as_str()`
arms of `Entity::deserialize`'s `visit_map`: `id` and `UUID` go to dedicated
slots with a duplicate check, everything else is inserted into the `HashMap`
(silently replacing an earlier occurrence). -/
def scanEntStep (k : String) (v : Value) (st : EntScan) : Except DecodeErr EntScan :=
  if k = "id" then
    if st.esid.isSome then .error (.duplicateField "id")
    else
      match asStringVal v with
      | some s => .ok { st with esid := some s }
      | none => .error (.invalidValue "id")
  else if k = "UUID" then
    if st.euuid.isSome then .error (.duplicateField "UUID")
    else
      match decodeU128 v with
      | some u => .ok { st with euuid := some u }
      | none => .error (.invalidValue "UUID")
  else
    .ok { st with eprops := NbtMap.insert st.eprops k v }

def scanEntAux : NbtMap → EntScan → Except DecodeErr EntScan
  | [], st => .ok st
  | (k, v) :: rest, st =>
    match scanEntStep k v st with
    | .ok st2 => scanEntAux rest st2
    | .error e => .error e

def scanEnt (m : NbtMap) : Except DecodeErr (String × Value × NbtMap) :=
  match scanEntAux m ⟨none, none, []⟩ with
  | .error e => .error e
  | .ok st =>
    match st.esid with
    | none => .error (.missingField "id")
    | some id =>
      match st.euuid with
      | none => .error (.missingField "UUID")
      | some uuid => .ok (id, uuid, st.eprops)

def findEntEntry (table : List EntityTableEntry) (tag : String) : Option EntityTableEntry :=
  table.find? (fun e => e.eeid = tag)

def dispatchEnt (table : List EntityTableEntry) (tag : String) (uuid : Value)
    (props : NbtMap) : EntVariant :=
  match findEntEntry table tag with
  | some e =>
    match decodeShape e.eshape (NbtMap.insert props "UUID" uuid) with
    | .ok (r, _) => .typed e.eeid r
    | .error _ =>
      .other ⟨e.eeid, uuid, NbtMap.removeKey (NbtMap.insert props "UUID" uuid) "UUID"⟩
  | none => .other ⟨tag, uuid, props⟩

def decodeEntity (table : List EntityTableEntry) (m : NbtMap) : Except DecodeErr EntVariant :=
  (scanEnt m).map (fun s => dispatchEnt table s.1 s.2.1 s.2.2)

/-- Model of `Entity::as_generic`: flatten, then `remove("UUID").expect(...)` and
re-decode the UUID — a missing or malformed `UUID` entry panics, modelled
as `none`. -/
def asGenericEnt : EntVariant → Option GenericEntity
  | .other g => some g
  | .typed tag r =>
    let props := r.flatten
    match NbtMap.lookup props "UUID" with
    | some v =>
      match decodeU128 v with
      | some u => some ⟨tag, u, NbtMap.removeKey props "UUID"⟩
      | none => none
    | none => none

/-! ## Derived definitions

Combinators, predicates and concrete fixtures used by the development:
the folded-insert view of the map-building steps, the lookup
characterization of the flatten engine, well-typedness of records,
canonicality of mappings, the dispatch-layer identity-key predicates, the
untagged attempt, the equality models, and small concrete shapes and
tables that instantiate the theorems. -/

def foldInsert (base : NbtMap) (pairs : List (String × Value)) : NbtMap :=
  pairs.foldl (fun acc kv => NbtMap.insert acc kv.1 kv.2) base

/-- Lookup of the latest occurrence of a key in a pair list: this is the
value a `HashMap` built from the pairs holds ("last wins"). -/
def lookupLast (m : NbtMap) (q : String) : Option Value :=
  NbtMap.lookup m.reverse q

/-- The own-field pairs a record level actually contributes when
flattened (absent optional fields are skipped). -/
def presentPairs : List (String × Option Value) → List (String × Value)
  | [] => []
  | (k, some v) :: rest => (k, v) :: presentPairs rest
  | (_, none) :: rest => presentPairs rest

def slotNames (vals : List (String × Option Value)) : List String := vals.map Prod.fst

/-- Where a key's value ends up in the flattened form of a record: the
extras bag wins over the parent chain, which wins over the own fields,
because `Flatten::flatten` inserts own fields first, the parent second and
the extras bag last. -/
def orElseV (a b : Option Value) : Option Value :=
  match a with
  | some v => some v
  | none => b

/-- The contribution of one level's own-field slots to a lookup: a filled
slot yields its value; an empty or absent slot yields nothing. -/
def slotPart (vals : List (String × Option Value)) (q : String) : Option Value :=
  match slotLookup vals q with
  | some (some v) => some v
  | _ => none

def flatLookup : Record → String → Option Value
  | .root vals extra, q => orElseV (NbtMap.lookup extra q) (slotPart vals q)
  | .node vals extra parent, q =>
    orElseV (NbtMap.lookup extra q) (orElseV (flatLookup parent q) (slotPart vals q))

/-- Name lists of every level are duplicate free (the Rust struct fields
and `HashMap` keys are distinct by construction). -/
def Record.levelsNodup : Record → Prop
  | .root vals extra => (slotNames vals).Nodup ∧ (NbtMap.keysOf extra).Nodup
  | .node vals extra parent =>
    (slotNames vals).Nodup ∧ (NbtMap.keysOf extra).Nodup ∧ Record.levelsNodup parent

def Record.contribNames : Record → List String
  | .root vals extra => NbtMap.keysOf (presentPairs vals) ++ NbtMap.keysOf extra
  | .node vals extra parent =>
    NbtMap.keysOf (presentPairs vals) ++ Record.contribNames parent ++ NbtMap.keysOf extra

def findSpecChain : Shape → String → Option FieldSpec
  | .root own _, q => findSpec own q
  | .node own _ parent, q =>
    match findSpec own q with
    | some fs => some fs
    | none => findSpecChain parent q

/-- Every value of the mapping is already in the canonical form of its
claiming field (e.g. integer entries are given at the declared width). -/
def CanonicalFor (s : Shape) (m : NbtMap) : Prop :=
  ∀ kv ∈ m, ∀ fs, findSpecChain s kv.1 = some fs → decodePrim fs.fty kv.2 = some kv.2

/-- Every key of the mapping is a field name somewhere in the chain. -/
def Covers (s : Shape) (m : NbtMap) : Prop :=
  ∀ k ∈ NbtMap.keysOf m, k ∈ s.chainNames

/-- Whether every value of the mapping is already canonical for its claiming
field of the chain, as a computable check (it implies `CanonicalFor`). -/
def CanonicalForB (s : Shape) (m : NbtMap) : Bool :=
  m.all (fun kv =>
    match findSpecChain s kv.1 with
    | some fs => decodePrim fs.fty kv.2 == some kv.2
    | none => true)

/-- Whether every key of the mapping is a field name of the chain, as a
computable check (it implies `Covers`). -/
def CoversB (s : Shape) (m : NbtMap) : Bool :=
  (NbtMap.keysOf m).all (fun k => s.chainNames.contains k)

def ValsOkB : List FieldSpec → List (String × Option Value) → Bool
  | [], [] => true
  | f :: fs, (k, ov) :: vs =>
    (k == f.fname) &&
    (f.optional || ov.isSome) &&
    (match ov with
     | some v => decodePrim f.fty v == some v
     | none => true) &&
    ValsOkB fs vs
  | _, _ => false

def WTRecordB : Shape → Record → Bool
  | .root own ex, .root vals extra => ValsOkB own vals && (ex || extra.isEmpty)
  | .node own _ parent, .node vals _ p => ValsOkB own vals && WTRecordB parent p
  | _, _ => false

/-- The source's generated chains carry an open-extension bag only on a
level whose parent chain is empty; a bag further up would also capture the
keys the parent chain claims (`FlatMapDeserializer` does not consume
entries), which breaks the typed round trip (see the counterexample). -/
def extrasAtRootOnly : Shape → Bool
  | .root _ _ => true
  | .node _ ex parent => !ex && extrasAtRootOnly parent

/-- Open-extension bags of the record: nodes carry none, and the root
level's bag has duplicate-free keys that avoid every chain field name. -/
def extrasOkB (names : List String) : Record → Bool
  | .root _ extra =>
    decide ((NbtMap.keysOf extra).Nodup) &&
      (NbtMap.keysOf extra).all (fun k => decide (k ∉ names))
  | .node _ extra p => extra.isEmpty && extrasOkB names p

/-- Open-extension bags at every level of the record have duplicate-free
keys that avoid every name of `names` (the chain's field names).  This is
what holds of any decoded bag — it collects only keys no field claims —
wherever the generator placed the bag in the chain. -/
def extrasDisjointB (names : List String) : Record → Bool
  | .root _ extra =>
    decide ((NbtMap.keysOf extra).Nodup) &&
      (NbtMap.keysOf extra).all (fun k => decide (k ∉ names))
  | .node _ extra p =>
    (decide ((NbtMap.keysOf extra).Nodup) &&
      (NbtMap.keysOf extra).all (fun k => decide (k ∉ names))) &&
    extrasDisjointB names p

def beIdent (k : String) : Bool :=
  k == "id" || k == "x" || k == "y" || k == "z"

def entIdent (k : String) : Bool :=
  k == "id" || k == "UUID"

/-- Whether the dedicated dispatch-layer slot of an identity key is filled. -/
def identSlotFilled (k : String) (st : BEState) : Bool :=
  if k = "id" then st.stId.isSome
  else if k = "x" then st.stX.isSome
  else if k = "y" then st.stY.isSome
  else if k = "z" then st.stZ.isSome
  else false

/-- Whether the dedicated entity dispatch-layer slot of an identity key is
filled. -/
def entSlotFilled (k : String) (st : EntScan) : Bool :=
  if k = "id" then st.esid.isSome
  else if k = "UUID" then st.euuid.isSome
  else false

/-- One untagged attempt, as the loop body performs it. -/
def attemptUntagged (e : TableEntry) (props : NbtMap) : Option (TableEntry × Record) :=
  if unusedKeys e.fields props = 0 then
    match decodeShape e.shape props with
    | .ok (r, _) => some (e, r)
    | .error _ => none
  else none

/-- Whether a shape's chain has at least one required (non-optional) own
field.  This is the partition criterion the specification names for
untagged resolution (spec-modelled: the generated loop has no such
partition, which the counterexample exhibits). -/
def Shape.hasRequiredChain : Shape → Bool
  | .root own _ => own.any (fun f => !f.optional)
  | .node own _ parent => own.any (fun f => !f.optional) || Shape.hasRequiredChain parent

/-- Model of `impl PartialEq for Entity`: equality of the two canonicalized
generic forms (the source compares `as_generic` results; a panicking side
has no canonical form and the comparison is modelled as false). -/
def GenEqEnt (g₁ g₂ : GenericEntity) : Prop :=
  g₁.egid = g₂.egid ∧ g₁.uuid = g₂.uuid ∧ MapEq g₁.eproperties g₂.eproperties

def EntVariantEq (a b : EntVariant) : Prop :=
  ∃ g₁ g₂, asGenericEnt a = some g₁ ∧ asGenericEnt b = some g₂ ∧ GenEqEnt g₁ g₂

/-! ### Concrete shapes and tables

Small instances of the generated data, used to instantiate the theorems at
concrete inputs: a root `BlockEntity` shape owning the three coordinates, a
sign-like shape with one required string field, a banner-like shape with two
optional string fields, a furnace-like shape with a 16-bit field, and a
pig-like entity shape with one required boolean over a root owning the
`UUID`. -/

def beRoot : Shape :=
  .root [⟨"x", false, .intT⟩, ⟨"y", false, .intT⟩, ⟨"z", false, .intT⟩] false

def signShape : Shape := .node [⟨"Text1", false, .stringT⟩] false beRoot

def signEntry : TableEntry := ⟨"minecraft:sign", ["Text1"], signShape⟩

def bannerShape : Shape :=
  .node [⟨"Text1", true, .stringT⟩, ⟨"Text2", true, .stringT⟩] false beRoot

def bannerEntry : TableEntry := ⟨"minecraft:banner", ["Text1", "Text2"], bannerShape⟩

def furnaceShape : Shape := .node [⟨"BurnTime", false, .shortT⟩] false beRoot

def furnaceEntry : TableEntry := ⟨"minecraft:furnace", ["BurnTime"], furnaceShape⟩

def entRoot : Shape := .root [⟨"UUID", false, .uuidT⟩] false

def pigShape : Shape := .node [⟨"Saddle", false, .boolT⟩] false entRoot

def pigEntry : EntityTableEntry := ⟨"minecraft:pig", pigShape⟩

/-- C5 counterexample input: a chain whose leaf level declares an
open-extension bag while the parent still has a field.  The generated
parent decode reads `__collect` without consuming entries, and the bag then
captures all of `__collect` — the parent's field included. -/
def ovShape : Shape := .node [⟨"A", false, .intT⟩] true (.root [⟨"P", false, .intT⟩] false)

def ovRecord : Record := .node [("A", some (.int 1))] [] (.root [("P", some (.int 2))] [])

/-- C9 counterexample input: a well-formed root record whose extras bag
shadows the coordinate `x` with a string.  `Flatten::flatten` inserts the
bag last, so the flattened map's `x` is no longer an `Int`. -/
def shRecord : Record :=
  .root [("x", some (.int 1)), ("y", some (.int 2)), ("z", some (.int 3))]
    [("x", .string "boom")]

/-! ## Basic lemmas about flat mappings -/

theorem lookup_insert (m : NbtMap) (key : String) (v : Value) (q : String) :
    NbtMap.lookup (NbtMap.insert m key v) q =
      if q = key then some v else NbtMap.lookup m q := by
  induction m with
  | nil =>
    simp only [NbtMap.insert, NbtMap.lookup]
    by_cases h : q = key
    · rw [if_pos h.symm, if_pos h]
    · rw [if_neg (fun hk : key = q => h hk.symm), if_neg h]
  | cons kv rest ih =>
    obtain ⟨k, w⟩ := kv
    simp only [NbtMap.insert]
    by_cases hk : k = key
    · subst hk
      simp only [if_pos rfl, NbtMap.lookup]
      by_cases hq : q = k
      · rw [if_pos hq.symm, if_pos hq.symm, if_pos hq]
      · rw [if_neg (fun h : k = q => hq h.symm), if_neg (fun h : k = q => hq h.symm),
          if_neg hq]

    · simp only [if_neg hk, NbtMap.lookup, ih]
      by_cases hq : k = q
      · subst hq
        rw [if_pos rfl, if_neg hk, if_pos rfl]
      · rw [if_neg hq]
        by_cases hqk : q = key
        · rw [if_pos hqk, if_pos hqk]
        · rw [if_neg hqk, if_neg hqk, if_neg hq]

theorem lookup_append (m₁ m₂ : NbtMap) (q : String) :
    NbtMap.lookup (m₁ ++ m₂) q =
      match NbtMap.lookup m₁ q with
      | some v => some v
      | none => NbtMap.lookup m₂ q := by
  induction m₁ with
  | nil => simp [NbtMap.lookup]
  | cons kv rest ih =>
    obtain ⟨k, w⟩ := kv
    by_cases hq : k = q
    · simp [NbtMap.lookup, hq]
    · simp [NbtMap.lookup, hq, ih]

theorem lookup_removeKey (m : NbtMap) (key : String) (q : String) :
    NbtMap.lookup (NbtMap.removeKey m key) q =
      if q = key then none else NbtMap.lookup m q := by
  induction m with
  | nil => simp [NbtMap.removeKey, NbtMap.lookup]
  | cons kv rest ih =>
    obtain ⟨k, w⟩ := kv
    simp only [NbtMap.removeKey]
    by_cases hk : k = key
    · subst hk
      rw [if_pos rfl, ih, NbtMap.lookup]
      by_cases hq : q = k
      · rw [if_pos hq, if_pos hq]
      · rw [if_neg hq, if_neg hq, if_neg (fun h : k = q => hq h.symm)]
    · rw [if_neg hk]
      simp only [NbtMap.lookup, ih]
      by_cases hq : k = q
      · subst hq
        rw [if_pos rfl, if_neg hk, if_pos rfl]
      · rw [if_neg hq, if_neg hq]

theorem lookup_eq_none_of_not_mem (m : NbtMap) (q : String)
    (h : q ∉ NbtMap.keysOf m) : NbtMap.lookup m q = none := by
  induction m with
  | nil => rfl
  | cons kv rest ih =>
    obtain ⟨k, w⟩ := kv
    simp only [NbtMap.keysOf, List.map, List.mem_cons] at h
    push_neg at h
    simp only [NbtMap.lookup, if_neg (fun hk : k = q => h.1 hk.symm)]
    exact ih (by simpa [NbtMap.keysOf] using h.2)

theorem insert_of_not_mem (m : NbtMap) (key : String) (v : Value)
    (h : key ∉ NbtMap.keysOf m) : NbtMap.insert m key v = m ++ [(key, v)] := by
  induction m with
  | nil => rfl
  | cons kv rest ih =>
    obtain ⟨k, w⟩ := kv
    simp only [NbtMap.keysOf, List.map, List.mem_cons] at h
    push_neg at h
    simp only [NbtMap.insert, if_neg (fun hk : k = key => h.1 hk.symm), List.cons_append,
      List.cons.injEq, true_and]
    exact ih (by simpa [NbtMap.keysOf] using h.2)

theorem removeKey_of_not_mem (m : NbtMap) (key : String)
    (h : key ∉ NbtMap.keysOf m) : NbtMap.removeKey m key = m := by
  induction m with
  | nil => rfl
  | cons kv rest ih =>
    obtain ⟨k, w⟩ := kv
    simp only [NbtMap.keysOf, List.map, List.mem_cons] at h
    push_neg at h
    simp only [NbtMap.removeKey, if_neg (fun hk : k = key => h.1 hk.symm),
      List.cons.injEq, true_and]
    exact ih (by simpa [NbtMap.keysOf] using h.2)

theorem removeKey_append (m₁ m₂ : NbtMap) (key : String) :
    NbtMap.removeKey (m₁ ++ m₂) key =
      NbtMap.removeKey m₁ key ++ NbtMap.removeKey m₂ key := by
  induction m₁ with
  | nil => rfl
  | cons kv rest ih =>
    obtain ⟨k, w⟩ := kv
    simp only [List.cons_append, NbtMap.removeKey, List.append_eq]
    by_cases hk : k = key
    · rw [if_pos hk, if_pos hk, ih]
    · rw [if_neg hk, if_neg hk, ih, List.cons_append]

/-- The identity-key re-insertion then removal performed by the tagged
fallback path restores the property map verbatim when the identity keys
were not present (which the dispatch scan guarantees). -/
theorem removeXYZ_insertXYZ (props : NbtMap) (x y z : Int)
    (hx : "x" ∉ NbtMap.keysOf props) (hy : "y" ∉ NbtMap.keysOf props)
    (hz : "z" ∉ NbtMap.keysOf props) :
    removeXYZ (insertXYZ x y z props) = props := by
  have h1 : NbtMap.insert props "x" (.int x) = props ++ [("x", .int x)] :=
    insert_of_not_mem _ _ _ hx
  have h2 : NbtMap.insert (props ++ [("x", Value.int x)]) "y" (.int y) =
      props ++ [("x", Value.int x)] ++ [("y", Value.int y)] := by
    apply insert_of_not_mem
    simp only [NbtMap.keysOf, List.map_append, List.mem_append] at hy ⊢
    rintro (h | h)
    · exact hy h
    · simp at h
  have h3 : NbtMap.insert (props ++ [("x", Value.int x)] ++ [("y", Value.int y)]) "z" (.int z) =
      props ++ [("x", Value.int x)] ++ [("y", Value.int y)] ++ [("z", Value.int z)] := by
    apply insert_of_not_mem
    simp only [NbtMap.keysOf, List.map_append, List.mem_append] at hz ⊢
    rintro ((h | h) | h)
    · exact hz h
    · simp at h
    · simp at h
  simp only [insertXYZ, h1, h2, h3, removeXYZ, removeKey_append]
  rw [removeKey_of_not_mem props "x" hx]
  rw [removeKey_of_not_mem props "y" hy, removeKey_of_not_mem props "z" hz]
  simp [NbtMap.removeKey, List.filter]

/-! ## Folded insertion

All three map-building steps of the source (collecting `__collect` into a
`HashMap`, inserting own fields during flattening, inserting the extras
bag) are folds of `insert`; their lookup behaviour is characterized once. -/

theorem mapFromPairs_eq_foldInsert (pairs : List (String × Value)) :
    mapFromPairs pairs = foldInsert [] pairs := rfl

theorem insertExtras_eq_foldInsert (extra : NbtMap) (m : NbtMap) :
    insertExtras extra m = foldInsert m extra := rfl

theorem lookup_foldInsert (pairs : List (String × Value)) (base : NbtMap) (q : String) :
    NbtMap.lookup (foldInsert base pairs) q =
      match lookupLast pairs q with
      | some v => some v
      | none => NbtMap.lookup base q := by
  induction pairs generalizing base with
  | nil => simp [foldInsert, lookupLast, NbtMap.lookup]
  | cons kv rest ih =>
    obtain ⟨k, v⟩ := kv
    have hfold : foldInsert base ((k, v) :: rest) = foldInsert (NbtMap.insert base k v) rest :=
      rfl
    rw [hfold, ih]
    have hlast : lookupLast ((k, v) :: rest) q =
        match lookupLast rest q with
        | some w => some w
        | none => if q = k then some v else none := by
      simp only [lookupLast, List.reverse_cons, lookup_append]
      cases NbtMap.lookup rest.reverse q with
      | none =>
        simp only [NbtMap.lookup]
        by_cases hq : q = k
        · rw [if_pos hq.symm, if_pos hq]
        · rw [if_neg (fun h : k = q => hq h.symm), if_neg hq]
      | some w => rfl
    rw [hlast]
    cases lookupLast rest q with
    | some w => rfl
    | none =>
      simp only [lookup_insert]
      by_cases hq : q = k
      · rw [if_pos hq, if_pos hq]
      · rw [if_neg hq, if_neg hq]

theorem lookupLast_eq_lookup (m : NbtMap) (h : (NbtMap.keysOf m).Nodup) (q : String) :
    lookupLast m q = NbtMap.lookup m q := by
  induction m with
  | nil => rfl
  | cons kv rest ih =>
    obtain ⟨k, v⟩ := kv
    simp only [NbtMap.keysOf, List.map, List.nodup_cons] at h
    have hrec : lookupLast ((k, v) :: rest) q =
        match lookupLast rest q with
        | some w => some w
        | none => if q = k then some v else none := by
      simp only [lookupLast, List.reverse_cons, lookup_append]
      cases NbtMap.lookup rest.reverse q with
      | none =>
        simp only [NbtMap.lookup]
        by_cases hq : q = k
        · rw [if_pos hq.symm, if_pos hq]
        · rw [if_neg (fun hh : k = q => hq hh.symm), if_neg hq]
      | some w => rfl
    rw [hrec, ih h.2]
    simp only [NbtMap.lookup]
    by_cases hq : k = q
    · subst hq
      have : NbtMap.lookup rest k = none :=
        lookup_eq_none_of_not_mem _ _ (by simpa [NbtMap.keysOf] using h.1)
      rw [this]
    · rw [if_neg hq]
      cases hr : NbtMap.lookup rest q with
      | some w => rfl
      | none => rw [if_neg (fun h : q = k => hq h.symm)]

theorem foldInsert_append_of_disjoint (pairs : List (String × Value)) (base : NbtMap)
    (hdisj : ∀ k ∈ NbtMap.keysOf pairs, k ∉ NbtMap.keysOf base)
    (hnodup : (NbtMap.keysOf pairs).Nodup) :
    foldInsert base pairs = base ++ pairs := by
  induction pairs generalizing base with
  | nil => simp [foldInsert]
  | cons kv rest ih =>
    obtain ⟨k, v⟩ := kv
    simp only [NbtMap.keysOf, List.map, List.nodup_cons] at hnodup
    have hk : k ∉ NbtMap.keysOf base :=
      hdisj k (by simp [NbtMap.keysOf])
    have hfold : foldInsert base ((k, v) :: rest) = foldInsert (NbtMap.insert base k v) rest :=
      rfl
    rw [hfold, insert_of_not_mem _ _ _ hk, ih]
    · simp
    · intro q hq
      simp only [NbtMap.keysOf, List.map_append, List.mem_append] at *
      push_neg
      constructor
      · exact hdisj q (by simp [NbtMap.keysOf]; right; simpa [NbtMap.keysOf] using hq)
      · simp only [List.map, List.mem_singleton]
        intro hcontra
        apply hnodup.1
        rw [← hcontra]
        simpa [NbtMap.keysOf] using hq
    · exact hnodup.2

theorem mapFromPairs_eq_self (pairs : List (String × Value))
    (h : (NbtMap.keysOf pairs).Nodup) : mapFromPairs pairs = pairs := by
  rw [mapFromPairs_eq_foldInsert, foldInsert_append_of_disjoint pairs [] (by simp [NbtMap.keysOf]) h]
  simp

theorem insertOwnVals_eq_foldInsert (vals : List (String × Option Value)) (m : NbtMap) :
    insertOwnVals vals m = foldInsert m (presentPairs vals) := by
  induction vals generalizing m with
  | nil => rfl
  | cons kv rest ih =>
    obtain ⟨k, ov⟩ := kv
    cases ov with
    | some v =>
      simp only [insertOwnVals, List.foldl, presentPairs] at *
      exact ih (NbtMap.insert m k v)
    | none =>
      simp only [insertOwnVals, List.foldl, presentPairs] at *
      exact ih m

/-! ## Characterizing the flatten engine -/

theorem keysOf_presentPairs_sublist (vals : List (String × Option Value)) :
    (NbtMap.keysOf (presentPairs vals)).Sublist (slotNames vals) := by
  induction vals with
  | nil => simp [presentPairs, NbtMap.keysOf, slotNames]
  | cons kv rest ih =>
    obtain ⟨k, ov⟩ := kv
    cases ov with
    | some v =>
      simpa [presentPairs, NbtMap.keysOf, slotNames] using ih.cons₂ k
    | none =>
      simpa [presentPairs, NbtMap.keysOf, slotNames] using ih.cons k

theorem slotLookup_eq_none_of_not_mem (vals : List (String × Option Value)) (q : String)
    (h : q ∉ slotNames vals) : slotLookup vals q = none := by
  induction vals with
  | nil => rfl
  | cons kv rest ih =>
    obtain ⟨k, ov⟩ := kv
    simp only [slotNames, List.map, List.mem_cons] at h
    push_neg at h
    simp only [slotLookup, if_neg (fun hc : k = q => h.1 hc.symm)]
    exact ih (by simpa [slotNames] using h.2)

theorem lookup_presentPairs (vals : List (String × Option Value)) (q : String)
    (h : (slotNames vals).Nodup) :
    NbtMap.lookup (presentPairs vals) q = slotPart vals q := by
  induction vals with
  | nil => rfl
  | cons kv rest ih =>
    obtain ⟨k, ov⟩ := kv
    simp only [slotNames, List.map, List.nodup_cons] at h
    cases ov with
    | some v =>
      simp only [presentPairs, NbtMap.lookup, slotPart, slotLookup]
      by_cases hq : k = q
      · rw [if_pos hq, if_pos hq]
      · rw [if_neg hq, if_neg hq, ih h.2]
        rfl
    | none =>
      by_cases hq : k = q
      · subst hq
        have h1 : NbtMap.lookup (presentPairs ((k, none) :: rest)) k =
            NbtMap.lookup (presentPairs rest) k := rfl
        have h2 : slotLookup ((k, none) :: rest) k = some none := by
          simp [slotLookup]
        rw [h1, ih h.2]
        simp only [slotPart, h2,
          slotLookup_eq_none_of_not_mem rest k (by simpa [slotNames] using h.1)]
      · have h1 : NbtMap.lookup (presentPairs ((k, none) :: rest)) q =
            NbtMap.lookup (presentPairs rest) q := rfl
        rw [h1, ih h.2]
        simp only [slotPart, slotLookup, if_neg hq]

theorem lookup_flattenInto (r : Record) (base : NbtMap) (q : String)
    (h : r.levelsNodup) :
    NbtMap.lookup (r.flattenInto base) q =
      match flatLookup r q with
      | some v => some v
      | none => NbtMap.lookup base q := by
  induction r generalizing base with
  | root vals extra =>
    obtain ⟨h1, h2⟩ := h
    rw [Record.flattenInto, insertExtras_eq_foldInsert, insertOwnVals_eq_foldInsert,
      lookup_foldInsert, lookupLast_eq_lookup extra h2, lookup_foldInsert,
      lookupLast_eq_lookup _ ((keysOf_presentPairs_sublist vals).nodup h1),
      lookup_presentPairs vals q h1]
    simp only [flatLookup]
    cases NbtMap.lookup extra q with
    | some v => rfl
    | none =>
      cases hs : slotLookup vals q with
      | none => rfl
      | some ov => cases ov <;> rfl
  | node vals extra parent ih =>
    obtain ⟨h1, h2, h3⟩ := h
    rw [Record.flattenInto, insertExtras_eq_foldInsert, insertOwnVals_eq_foldInsert,
      lookup_foldInsert, lookupLast_eq_lookup extra h2, ih _ h3, lookup_foldInsert,
      lookupLast_eq_lookup _ ((keysOf_presentPairs_sublist vals).nodup h1),
      lookup_presentPairs vals q h1]
    simp only [flatLookup]
    cases NbtMap.lookup extra q with
    | some v => rfl
    | none =>
      cases flatLookup parent q with
      | some v => rfl
      | none =>
        cases hs : slotLookup vals q with
        | none => rfl
        | some ov => cases ov <;> rfl

theorem lookup_flatten (r : Record) (q : String) (h : r.levelsNodup) :
    NbtMap.lookup (Record.flatten r) q = flatLookup r q := by
  rw [Record.flatten, lookup_flattenInto r [] q h]
  cases flatLookup r q <;> rfl

/-! ## The flattened form as a concrete list

Under the authoring invariants (duplicate-free field names across a chain,
extras keys disjoint from field names) every insertion performed by
`flatten` appends, so the flattened form is literally the concatenation of
the levels' contributions. -/

theorem mem_keysOf_insert (m : NbtMap) (key : String) (v : Value) (q : String)
    (h : q ∈ NbtMap.keysOf (NbtMap.insert m key v)) :
    q ∈ NbtMap.keysOf m ∨ q = key := by
  induction m with
  | nil =>
    simp only [NbtMap.insert, NbtMap.keysOf, List.map, List.mem_singleton] at h
    exact Or.inr h
  | cons kv rest ih =>
    obtain ⟨k, w⟩ := kv
    simp only [NbtMap.insert] at h
    by_cases hk : k = key
    · rw [if_pos hk] at h
      simp only [NbtMap.keysOf, List.map, List.mem_cons] at h ⊢
      rcases h with h | h
      · exact Or.inl (Or.inl h)
      · exact Or.inl (Or.inr h)
    · rw [if_neg hk] at h
      simp only [NbtMap.keysOf, List.map, List.mem_cons] at h ⊢
      rcases h with h | h
      · exact Or.inl (Or.inl h)
      · rcases ih h with h2 | h2
        · exact Or.inl (Or.inr h2)
        · exact Or.inr h2

theorem mem_keysOf_foldInsert (pairs : List (String × Value)) (base : NbtMap) (q : String)
    (h : q ∈ NbtMap.keysOf (foldInsert base pairs)) :
    q ∈ NbtMap.keysOf base ∨ q ∈ NbtMap.keysOf pairs := by
  induction pairs generalizing base with
  | nil => exact Or.inl h
  | cons kv rest ih =>
    obtain ⟨k, v⟩ := kv
    have hfold : foldInsert base ((k, v) :: rest) = foldInsert (NbtMap.insert base k v) rest :=
      rfl
    rw [hfold] at h
    rcases ih (NbtMap.insert base k v) h with h2 | h2
    · rcases mem_keysOf_insert base k v q h2 with h3 | h3
      · exact Or.inl h3
      · exact Or.inr (by simp [NbtMap.keysOf, h3])
    · exact Or.inr (by simp [NbtMap.keysOf]; right; simpa [NbtMap.keysOf] using h2)

theorem mem_keysOf_flattenInto (r : Record) (base : NbtMap) (q : String)
    (h : q ∈ NbtMap.keysOf (r.flattenInto base)) :
    q ∈ NbtMap.keysOf base ∨ q ∈ r.contribNames := by
  induction r generalizing base with
  | root vals extra =>
    rw [Record.flattenInto, insertExtras_eq_foldInsert, insertOwnVals_eq_foldInsert] at h
    rcases mem_keysOf_foldInsert _ _ _ h with h2 | h2
    · rcases mem_keysOf_foldInsert _ _ _ h2 with h3 | h3
      · exact Or.inl h3
      · exact Or.inr (by simp [Record.contribNames, h3])
    · exact Or.inr (by simp [Record.contribNames, h2])
  | node vals extra parent ih =>
    rw [Record.flattenInto, insertExtras_eq_foldInsert, insertOwnVals_eq_foldInsert] at h
    rcases mem_keysOf_foldInsert _ _ _ h with h2 | h2
    · rcases ih _ h2 with h3 | h3
      · rcases mem_keysOf_foldInsert _ _ _ h3 with h4 | h4
        · exact Or.inl h4
        · exact Or.inr (by simp [Record.contribNames, h4])
      · exact Or.inr (by simp [Record.contribNames, h3])
    · exact Or.inr (by simp [Record.contribNames, h2])

theorem flattenInto_eq_append (r : Record) (base : NbtMap)
    (hdisj : ∀ k ∈ r.contribNames, k ∉ NbtMap.keysOf base)
    (hnodup : r.contribNames.Nodup) :
    r.flattenInto base = base ++ r.flattenInto [] := by
  induction r generalizing base with
  | root vals extra =>
    simp only [Record.contribNames] at hdisj hnodup
    rw [List.nodup_append] at hnodup
    obtain ⟨hn1, hn2, hn12⟩ := hnodup
    rw [Record.flattenInto, Record.flattenInto, insertExtras_eq_foldInsert,
      insertExtras_eq_foldInsert, insertOwnVals_eq_foldInsert, insertOwnVals_eq_foldInsert]
    rw [foldInsert_append_of_disjoint (presentPairs vals) base
      (fun k hk => hdisj k (List.mem_append_left _ hk)) hn1]
    rw [foldInsert_append_of_disjoint (presentPairs vals) []
      (by simp [NbtMap.keysOf]) hn1]
    rw [foldInsert_append_of_disjoint extra (base ++ presentPairs vals) ?hd1 hn2]
    rw [foldInsert_append_of_disjoint extra ([] ++ presentPairs vals) ?hd2 hn2]
    · simp
    case hd1 =>
      intro k hk
      simp only [NbtMap.keysOf, List.map_append, List.mem_append]
      push_neg
      exact ⟨fun hm => hdisj k (List.mem_append_right _ hk) (by simpa [NbtMap.keysOf] using hm),
        fun hm => hn12 (by simpa [NbtMap.keysOf] using hm) hk⟩
    case hd2 =>
      intro k hk
      simp only [List.nil_append, NbtMap.keysOf]
      exact fun hm => hn12 (by simpa [NbtMap.keysOf] using hm) hk
  | node vals extra parent ih =>
    simp only [Record.contribNames] at hdisj hnodup
    rw [List.nodup_append] at hnodup
    obtain ⟨hn1, hn2, hn12⟩ := hnodup
    rw [List.nodup_append] at hn1
    obtain ⟨hp, hpar, hpp⟩ := hn1
    rw [Record.flattenInto, Record.flattenInto, insertExtras_eq_foldInsert,
      insertExtras_eq_foldInsert, insertOwnVals_eq_foldInsert, insertOwnVals_eq_foldInsert]
    rw [foldInsert_append_of_disjoint (presentPairs vals) base
      (fun k hk => hdisj k (by simp [hk])) hp]
    rw [foldInsert_append_of_disjoint (presentPairs vals) []
      (by simp [NbtMap.keysOf]) hp]
    have hpdisj : ∀ k ∈ parent.contribNames, k ∉ NbtMap.keysOf (base ++ presentPairs vals) := by
      intro k hk
      simp only [NbtMap.keysOf, List.map_append, List.mem_append]
      push_neg
      exact ⟨fun hm => hdisj k (by simp [hk]) (by simpa [NbtMap.keysOf] using hm),
        fun hm => hpp (by simpa [NbtMap.keysOf] using hm) hk⟩
    rw [ih (base ++ presentPairs vals) hpdisj hpar]
    have hpdisj2 : ∀ k ∈ parent.contribNames,
        k ∉ NbtMap.keysOf ([] ++ presentPairs vals) := by
      intro k hk
      simp only [List.nil_append, NbtMap.keysOf]
      exact fun hm => hpp (by simpa [NbtMap.keysOf] using hm) hk
    rw [ih ([] ++ presentPairs vals) hpdisj2 hpar]
    have hexkeys : ∀ k ∈ NbtMap.keysOf extra,
        k ∉ NbtMap.keysOf (base ++ presentPairs vals ++ parent.flattenInto []) := by
      intro k hk
      simp only [NbtMap.keysOf, List.map_append, List.mem_append]
      push_neg
      refine ⟨⟨fun hm => hdisj k (by simp [hk]) (by simpa [NbtMap.keysOf] using hm), ?_⟩, ?_⟩
      · intro hm
        exact hn12 (by simp; left; simpa [NbtMap.keysOf] using hm) hk
      · intro hm
        rcases mem_keysOf_flattenInto parent [] k (by simpa [NbtMap.keysOf] using hm) with h0 | h0
        · simp [NbtMap.keysOf] at h0
        · exact hn12 (by simp [h0]) hk
    rw [foldInsert_append_of_disjoint extra _ hexkeys hn2]
    have hexkeys2 : ∀ k ∈ NbtMap.keysOf extra,
        k ∉ NbtMap.keysOf ([] ++ presentPairs vals ++ parent.flattenInto []) := by
      intro k hk
      simp only [NbtMap.keysOf, List.map_append, List.mem_append, List.nil_append]
      push_neg
      refine ⟨?_, ?_⟩
      · intro hm
        exact hn12 (by simp; left; simpa [NbtMap.keysOf] using hm) hk
      · intro hm
        rcases mem_keysOf_flattenInto parent [] k (by simpa [NbtMap.keysOf] using hm) with h0 | h0
        · simp [NbtMap.keysOf] at h0
        · exact hn12 (by simp [h0]) hk
    rw [foldInsert_append_of_disjoint extra _ hexkeys2 hn2]
    simp

/-! ## Characterizing the generated single-pass field scan -/

theorem slotLookup_append (v₁ v₂ : List (String × Option Value)) (q : String) :
    slotLookup (v₁ ++ v₂) q =
      match slotLookup v₁ q with
      | some ov => some ov
      | none => slotLookup v₂ q := by
  induction v₁ with
  | nil => simp [slotLookup]
  | cons kv rest ih =>
    obtain ⟨k, ov⟩ := kv
    by_cases hq : k = q
    · simp [slotLookup, hq]
    · simp [slotLookup, hq, ih]

theorem slotLookup_slotSet (slots : List (String × Option Value)) (key : String)
    (v : Value) (q : String) :
    slotLookup (slotSet slots key v) q =
      if q = key then
        match slotLookup slots key with
        | some _ => some (some v)
        | none => none
      else slotLookup slots q := by
  induction slots with
  | nil =>
    simp only [slotSet, slotLookup]
    by_cases hq : q = key
    · rw [if_pos hq]
    · rw [if_neg hq]
  | cons kv rest ih =>
    obtain ⟨k, w⟩ := kv
    simp only [slotSet]
    by_cases hk : k = key
    · subst hk
      by_cases hq : q = k
      · subst hq
        simp [slotLookup]
      · have hq2 : ¬ k = q := fun h => hq h.symm
        simp [slotLookup, hq, hq2]
    · rw [if_neg hk]
      by_cases hq : q = k
      · subst hq
        have hk2 : ¬ q = key := fun h => hk h
        simp [slotLookup, hk2]
      · have hq2 : ¬ k = q := fun h => hq h.symm
        simp only [slotLookup, if_neg hq2, ih]
        by_cases hqk : q = key
        · have hk3 : ¬ k = key := hk
          simp [hqk, hk3]
        · simp [hqk]

theorem slotNames_slotSet (slots : List (String × Option Value)) (key : String) (v : Value) :
    slotNames (slotSet slots key v) = slotNames slots := by
  induction slots with
  | nil => rfl
  | cons kv rest ih =>
    obtain ⟨k, w⟩ := kv
    simp only [slotSet]
    by_cases hk : k = key
    · rw [if_pos hk]
      rfl
    · rw [if_neg hk]
      have h1 : slotNames ((k, w) :: slotSet rest key v) = k :: slotNames (slotSet rest key v) :=
        rfl
      have h2 : slotNames ((k, w) :: rest) = k :: slotNames rest := rfl
      rw [h1, h2, ih]

theorem findSpec_append (l₁ l₂ : List FieldSpec) (key : String) :
    findSpec (l₁ ++ l₂) key =
      match findSpec l₁ key with
      | some fs => some fs
      | none => findSpec l₂ key := by
  simp only [findSpec, List.find?_append]
  cases List.find? (fun f => f.fname = key) l₁ <;> rfl

theorem findSpec_eq_none_of_not_mem (own : List FieldSpec) (key : String)
    (h : key ∉ own.map FieldSpec.fname) : findSpec own key = none := by
  induction own with
  | nil => rfl
  | cons f rest ih =>
    simp only [List.map, List.mem_cons] at h
    push_neg at h
    simp only [findSpec, List.find?]
    rw [decide_eq_false (fun hc : f.fname = key => h.1 hc.symm)]
    exact ih h.2

theorem findSpec_isSome_mem (own : List FieldSpec) (key : String) (fs : FieldSpec)
    (h : findSpec own key = some fs) : fs ∈ own ∧ fs.fname = key := by
  have hmem := List.mem_of_find?_eq_some h
  have hpred := List.find?_some h
  simp only [decide_eq_true_eq] at hpred
  exact ⟨hmem, hpred⟩

/-- Case analysis of one successful scan step. -/
theorem scanOwnStep_ok (own : List FieldSpec) (k : String) (v : Value)
    (slots slots2 : List (String × Option Value)) (collect collect2 : List (String × Value))
    (h : scanOwnStep own k v slots collect = .ok (slots2, collect2)) :
    (findSpec own k = none ∧ slots2 = slots ∧ collect2 = collect ++ [(k, v)]) ∨
      (∃ fs cv, findSpec own k = some fs ∧ decodePrim fs.fty v = some cv ∧
        slots2 = slotSet slots k cv ∧ collect2 = collect ∧
        slotLookup slots k ≠ some (some cv) ∧
        (∀ w, slotLookup slots k ≠ some (some w))) := by
  simp only [scanOwnStep] at h
  cases hf : findSpec own k with
  | none =>
    simp only [hf, Except.ok.injEq, Prod.mk.injEq] at h
    exact Or.inl ⟨rfl, h.1.symm, h.2.symm⟩
  | some fs =>
    simp only [hf] at h
    cases hs : slotLookup slots k with
    | some ov =>
      cases ov with
      | some w =>
        simp only [hs] at h
        exact Except.noConfusion h
      | none =>
        simp only [hs] at h
        cases hd : decodePrim fs.fty v with
        | none =>
          simp only [hd] at h
          exact Except.noConfusion h
        | some cv =>
          simp only [hd, Except.ok.injEq, Prod.mk.injEq] at h
          exact Or.inr ⟨fs, cv, rfl, hd, h.1.symm, h.2.symm, by simp, by simp⟩
    | none =>
      simp only [hs] at h
      cases hd : decodePrim fs.fty v with
      | none =>
        simp only [hd] at h
        exact Except.noConfusion h
      | some cv =>
        simp only [hd, Except.ok.injEq, Prod.mk.injEq] at h
        exact Or.inr ⟨fs, cv, rfl, hd, h.1.symm, h.2.symm, by simp, by simp⟩

theorem scanOwnStep_unclaimed (own : List FieldSpec) (k : String) (v : Value)
    (slots : List (String × Option Value)) (collect : List (String × Value))
    (h : findSpec own k = none) :
    scanOwnStep own k v slots collect = .ok (slots, collect ++ [(k, v)]) := by
  simp [scanOwnStep, h]

theorem scanOwn_append (own : List FieldSpec) (l₁ l₂ : NbtMap)
    (slots : List (String × Option Value)) (collect : List (String × Value)) :
    scanOwn own (l₁ ++ l₂) slots collect =
      match scanOwn own l₁ slots collect with
      | .ok (s, c) => scanOwn own l₂ s c
      | .error e => .error e := by
  induction l₁ generalizing slots collect with
  | nil => simp [scanOwn]
  | cons kv rest ih =>
    obtain ⟨k, v⟩ := kv
    simp only [List.cons_append, scanOwn]
    cases scanOwnStep own k v slots collect with
    | error e => rfl
    | ok sc =>
      obtain ⟨slots2, collect2⟩ := sc
      exact ih slots2 collect2

theorem scanOwn_unclaimed (own : List FieldSpec) (l : NbtMap)
    (slots : List (String × Option Value)) (collect : List (String × Value))
    (h : ∀ kv ∈ l, findSpec own kv.1 = none) :
    scanOwn own l slots collect = .ok (slots, collect ++ l) := by
  induction l generalizing collect with
  | nil => simp [scanOwn]
  | cons kv rest ih =>
    obtain ⟨k, v⟩ := kv
    have hk : findSpec own k = none := h (k, v) (by simp)
    simp only [scanOwn, scanOwnStep_unclaimed own k v slots collect hk]
    rw [ih (collect ++ [(k, v)]) (fun kv2 hm => h kv2 (by simp [hm]))]
    simp

theorem scanOwn_collect (own : List FieldSpec) (m : NbtMap)
    (slots slots2 : List (String × Option Value)) (collect collect2 : List (String × Value))
    (h : scanOwn own m slots collect = .ok (slots2, collect2)) :
    collect2 = collect ++ m.filter (fun kv => (findSpec own kv.1).isNone) := by
  induction m generalizing slots collect with
  | nil =>
    simp only [scanOwn, Except.ok.injEq, Prod.mk.injEq] at h
    simp [h.2]
  | cons kv rest ih =>
    obtain ⟨k, v⟩ := kv
    simp only [scanOwn] at h
    cases hstep : scanOwnStep own k v slots collect with
    | error e => rw [hstep] at h; cases h
    | ok sc =>
      obtain ⟨slots3, collect3⟩ := sc
      rw [hstep] at h
      rcases scanOwnStep_ok own k v slots slots3 collect collect3 hstep with
        ⟨hf, hs, hc⟩ | ⟨fs, cv, hf, hd, hs, hc, _, _⟩
      · subst hs; subst hc
        rw [ih _ _ h, List.filter_cons]
        simp [hf, Option.isNone]
      · subst hs; subst hc
        rw [ih _ _ h, List.filter_cons]
        simp [hf, Option.isNone]

theorem findSpec_isSome_of_mem (own : List FieldSpec) (key : String)
    (h : key ∈ own.map FieldSpec.fname) : ∃ fs, findSpec own key = some fs := by
  induction own with
  | nil => simp at h
  | cons f rest ih =>
    simp only [List.map, List.mem_cons] at h
    by_cases hf : f.fname = key
    · exact ⟨f, by simp [findSpec, List.find?, hf]⟩
    · rcases h with h | h
      · exact absurd h.symm hf
      · obtain ⟨fs, hfs⟩ := ih h
        refine ⟨fs, ?_⟩
        simp only [findSpec, List.find?, decide_eq_false hf]
        exact hfs

theorem not_mem_of_findSpec_eq_none (own : List FieldSpec) (key : String)
    (h : findSpec own key = none) : key ∉ own.map FieldSpec.fname := by
  intro hmem
  obtain ⟨fs, hfs⟩ := findSpec_isSome_of_mem own key hmem
  rw [h] at hfs
  cases hfs

theorem initSlots_lookup (own : List FieldSpec) (q : String) :
    slotLookup (initSlots own) q =
      match findSpec own q with
      | some _ => some none
      | none => none := by
  induction own with
  | nil => rfl
  | cons f rest ih =>
    simp only [initSlots, List.map, slotLookup, findSpec, List.find?]
    by_cases hf : f.fname = q
    · rw [if_pos hf, decide_eq_true hf]
    · rw [if_neg hf, decide_eq_false hf]
      simpa [initSlots, findSpec] using ih

theorem initSlots_names (own : List FieldSpec) :
    slotNames (initSlots own) = own.map FieldSpec.fname := by
  induction own with
  | nil => rfl
  | cons f rest ih =>
    simp only [initSlots, slotNames, List.map] at ih ⊢
    rw [ih]

theorem scanOwn_slotNames (own : List FieldSpec) (m : NbtMap)
    (slots slots2 : List (String × Option Value)) (collect collect2 : List (String × Value))
    (h : scanOwn own m slots collect = .ok (slots2, collect2)) :
    slotNames slots2 = slotNames slots := by
  induction m generalizing slots collect with
  | nil =>
    simp only [scanOwn, Except.ok.injEq, Prod.mk.injEq] at h
    rw [h.1]
  | cons kv rest ih =>
    obtain ⟨k, v⟩ := kv
    simp only [scanOwn] at h
    cases hstep : scanOwnStep own k v slots collect with
    | error e => rw [hstep] at h; cases h
    | ok sc =>
      obtain ⟨slots3, collect3⟩ := sc
      rw [hstep] at h
      rcases scanOwnStep_ok own k v slots slots3 collect collect3 hstep with
        ⟨_, hs3, _⟩ | ⟨fs, cv, _, _, hs3, _, _, _⟩
      · subst hs3; exact ih _ _ h
      · subst hs3
        rw [ih _ _ h, slotNames_slotSet]

theorem lookup_mem (m : NbtMap) (q : String) (v : Value)
    (h : NbtMap.lookup m q = some v) : (q, v) ∈ m := by
  induction m with
  | nil => cases h
  | cons kv rest ih =>
    obtain ⟨k, w⟩ := kv
    simp only [NbtMap.lookup] at h
    by_cases hk : k = q
    · rw [if_pos hk] at h
      subst hk
      simp only [Option.some.injEq] at h
      subst h
      simp
    · rw [if_neg hk] at h
      simp [ih h]

theorem lookup_filter (m : NbtMap) (p : String × Value → Bool) (q : String)
    (hnodup : (NbtMap.keysOf m).Nodup) :
    NbtMap.lookup (m.filter p) q =
      match NbtMap.lookup m q with
      | some v => if p (q, v) then some v else none
      | none => none := by
  induction m with
  | nil => rfl
  | cons kv rest ih =>
    obtain ⟨k, v⟩ := kv
    simp only [NbtMap.keysOf, List.map, List.nodup_cons] at hnodup
    rw [List.filter_cons]
    by_cases hp : p (k, v)
    · rw [if_pos (by simpa using hp)]
      simp only [NbtMap.lookup]
      by_cases hk : k = q
      · subst hk
        rw [if_pos rfl, if_pos rfl]
        simp [hp]
      · rw [if_neg hk, if_neg hk, ih hnodup.2]
    · rw [if_neg (by simpa using hp)]
      simp only [NbtMap.lookup]
      by_cases hk : k = q
      · subst hk
        rw [ih hnodup.2, if_pos rfl,
          lookup_eq_none_of_not_mem rest k (by simpa [NbtMap.keysOf] using hnodup.1)]
        simp [hp]
      · rw [if_neg hk, ih hnodup.2]

theorem scanOwn_slots (own : List FieldSpec) (m : NbtMap)
    (slots slots2 : List (String × Option Value)) (collect collect2 : List (String × Value))
    (hscan : scanOwn own m slots collect = .ok (slots2, collect2))
    (hnodup : (NbtMap.keysOf m).Nodup)
    (hunset : ∀ kv ∈ m, (findSpec own kv.1).isSome → slotLookup slots kv.1 = some none) :
    ∀ q, slotLookup slots2 q =
      match findSpec own q with
      | none => slotLookup slots q
      | some fs =>
        match NbtMap.lookup m q with
        | some v => some (decodePrim fs.fty v)
        | none => slotLookup slots q := by
  induction m generalizing slots collect with
  | nil =>
    simp only [scanOwn, Except.ok.injEq, Prod.mk.injEq] at hscan
    intro q
    rw [hscan.1]
    cases findSpec own q <;> rfl
  | cons kv rest ih =>
    obtain ⟨k, v⟩ := kv
    simp only [NbtMap.keysOf, List.map, List.nodup_cons] at hnodup
    simp only [scanOwn] at hscan
    cases hstep : scanOwnStep own k v slots collect with
    | error e => rw [hstep] at hscan; cases hscan
    | ok sc =>
      obtain ⟨slots3, collect3⟩ := sc
      rw [hstep] at hscan
      rcases scanOwnStep_ok own k v slots slots3 collect collect3 hstep with
        ⟨hf, hs3, _⟩ | ⟨fs, cv, hf, hd, hs3, _, _, _⟩
      · subst hs3
        have ihq := ih slots3 collect3 hscan hnodup.2
          (fun kv2 hm hsome => hunset kv2 (by simp [hm]) hsome)
        intro q
        rw [ihq q]
        cases hfq : findSpec own q with
        | none => simp only [hfq]
        | some fs2 =>
          have hqk : ¬ k = q := by
            intro hc
            rw [← hc, hf] at hfq
            cases hfq
          simp only [hfq, NbtMap.lookup, if_neg hqk]
      · subst hs3
        have hkmem : slotLookup slots k = some none :=
          hunset (k, v) (by simp) (by rw [hf]; simp)
        have ihq := ih (slotSet slots k cv) collect3 hscan hnodup.2 ?hunset2
        case hunset2 =>
          intro kv2 hm hsome
          have hne : kv2.1 ≠ k := by
            intro hc
            apply hnodup.1
            rw [← hc]
            exact List.mem_map_of_mem Prod.fst hm
          rw [slotLookup_slotSet, if_neg hne]
          exact hunset kv2 (by simp [hm]) hsome
        intro q
        rw [ihq q]
        by_cases hq : q = k
        · have h1 : NbtMap.lookup ((k, v) :: rest) q = some v := by
            simp only [NbtMap.lookup]
            rw [if_pos hq.symm]
          have h2 : NbtMap.lookup rest q = none := by
            rw [hq]
            exact lookup_eq_none_of_not_mem rest k (by simpa [NbtMap.keysOf] using hnodup.1)
          have h3 : slotLookup (slotSet slots k cv) q = some (some cv) := by
            rw [slotLookup_slotSet, if_pos hq, hkmem]
          have hfq : findSpec own q = some fs := by rw [hq, hf]
          simp only [hfq, h1, h2, h3, hd]
        · cases hfq : findSpec own q with
          | none =>
            simp only [hfq]
            rw [slotLookup_slotSet, if_neg hq]
          | some fs2 =>
            simp only [hfq, NbtMap.lookup, if_neg (fun h : k = q => hq h.symm)]
            cases NbtMap.lookup rest q with
            | some w => rfl
            | none => rw [slotLookup_slotSet, if_neg hq]

theorem checkRequired_ok (own : List FieldSpec) (slots : List (String × Option Value))
    (h : ∀ f ∈ own, f.optional = false → ∃ v, slotLookup slots f.fname = some (some v)) :
    checkRequired own slots = .ok () := by
  induction own with
  | nil => rfl
  | cons f rest ih =>
    cases hopt : f.optional with
    | true =>
      simp only [checkRequired, hopt]
      rw [if_pos (by decide)]
      exact ih (fun g hg hreq => h g (by simp [hg]) hreq)
    | false =>
      obtain ⟨v, hv⟩ := h f (by simp) hopt
      simp only [checkRequired, hopt]
      rw [if_neg (by decide)]
      simp only [hv]
      exact ih (fun g hg hreq => h g (by simp [hg]) hreq)

/-! ## Reproduction of the input mapping by a successful typed decode

The claiming field of a key is the first own field with that name met
walking the chain from the leaf (the level that claims it during the
scan). -/

theorem decodeShape_reproduces (s : Shape) (m : NbtMap) (r : Record)
    (leftover : List (String × Value))
    (hchain : s.chainNames.Nodup)
    (hm : (NbtMap.keysOf m).Nodup)
    (hcanon : CanonicalFor s m)
    (hcov : Covers s m)
    (hdec : decodeShape s m = .ok (r, leftover)) :
    r.levelsNodup ∧ leftover = [] ∧ ∀ q, flatLookup r q = NbtMap.lookup m q := by
  induction s generalizing m r leftover with
  | root own extras =>
    simp only [decodeShape] at hdec
    cases hscan : scanOwn own m (initSlots own) [] with
    | error e =>
      simp only [hscan] at hdec
      exact Except.noConfusion hdec
    | ok sc =>
      obtain ⟨slots, collect⟩ := sc
      simp only [hscan] at hdec
      cases hcheck : checkRequired own slots with
      | error e =>
        simp only [hcheck] at hdec
        exact Except.noConfusion hdec
      | ok u =>
        cases u
        simp only [hcheck] at hdec
        have hclaimed : ∀ kv ∈ m, ∃ fs, findSpec own kv.1 = some fs := by
          intro kv hkv
          exact findSpec_isSome_of_mem own kv.1
            (hcov kv.1 (List.mem_map_of_mem Prod.fst hkv))
        have hcollect := scanOwn_collect own m _ _ _ _ hscan
        rw [List.nil_append] at hcollect
        have hcollect_nil : collect = [] := by
          rw [hcollect, List.filter_eq_nil_iff]
          intro kv hkv
          obtain ⟨fs, hfs⟩ := hclaimed kv hkv
          simp [hfs]
        subst hcollect_nil
        have hslots := scanOwn_slots own m _ _ _ _ hscan hm ?hunset
        case hunset =>
          intro kv hkv hsome
          rw [initSlots_lookup]
          cases hfs : findSpec own kv.1 with
          | none => rw [hfs] at hsome; cases hsome
          | some fs => rfl
        have hnames : slotNames slots = own.map FieldSpec.fname := by
          rw [scanOwn_slotNames own m _ _ _ _ hscan, initSlots_names]
        have hre : r = Record.root slots [] ∧ leftover = [] := by
          cases extras
          · rw [if_neg (by decide)] at hdec
            simp only [Except.ok.injEq, Prod.mk.injEq] at hdec
            exact ⟨hdec.1.symm, hdec.2.symm⟩
          · rw [if_pos (by decide)] at hdec
            simp only [Except.ok.injEq, Prod.mk.injEq] at hdec
            exact ⟨hdec.1.symm, hdec.2.symm⟩
        obtain ⟨hr, hlo⟩ := hre
        subst hr
        subst hlo
        refine ⟨⟨by rw [hnames]; exact hchain, List.nodup_nil⟩, rfl, ?_⟩
        intro q
        cases hfq : findSpec own q with
        | none =>
          have hqnot : q ∉ NbtMap.keysOf m := by
            intro hmem
            obtain ⟨fs, hfs⟩ := findSpec_isSome_of_mem own q (hcov q hmem)
            rw [hfs] at hfq
            cases hfq
          have hsp : slotPart slots q = none := by
            simp only [slotPart, hslots q, hfq, initSlots_lookup]
          have hm0 : NbtMap.lookup m q = none := lookup_eq_none_of_not_mem m q hqnot
          simp only [flatLookup, NbtMap.lookup, orElseV, hsp, hm0]
        | some fs =>
          cases hml : NbtMap.lookup m q with
          | some v =>
            have hcan : decodePrim fs.fty v = some v := by
              apply hcanon (q, v) (lookup_mem m q v hml) fs
              simpa [findSpecChain] using hfq
            have hsp : slotPart slots q = some v := by
              simp only [slotPart, hslots q, hfq, hml, hcan]
            simp only [flatLookup, NbtMap.lookup, orElseV, hsp, hml]
          | none =>
            have hsp : slotPart slots q = none := by
              simp only [slotPart, hslots q, hfq, hml, initSlots_lookup]
            simp only [flatLookup, NbtMap.lookup, orElseV, hsp, hml]
  | node own extras parent ih =>
    simp only [decodeShape] at hdec
    cases hscan : scanOwn own m (initSlots own) [] with
    | error e =>
      simp only [hscan] at hdec
      exact Except.noConfusion hdec
    | ok sc =>
      obtain ⟨slots, collect⟩ := sc
      simp only [hscan] at hdec
      cases hcheck : checkRequired own slots with
      | error e =>
        simp only [hcheck] at hdec
        exact Except.noConfusion hdec
      | ok u =>
        cases u
        simp only [hcheck] at hdec
        cases hpdec : decodeShape parent collect with
        | error e =>
          simp only [hpdec] at hdec
          exact Except.noConfusion hdec
        | ok pr =>
          obtain ⟨p, leftover2⟩ := pr
          simp only [hpdec] at hdec
          have hchain2 : (own.map FieldSpec.fname).Nodup ∧ parent.chainNames.Nodup ∧
              ∀ a ∈ own.map FieldSpec.fname, a ∉ parent.chainNames := by
            have hc := hchain
            simp only [Shape.chainNames] at hc
            rw [List.nodup_append] at hc
            exact hc
          have hcollect := scanOwn_collect own m _ _ _ _ hscan
          rw [List.nil_append] at hcollect
          have hsubl : (NbtMap.keysOf collect).Sublist (NbtMap.keysOf m) := by
            rw [hcollect]
            exact (List.filter_sublist m).map Prod.fst
          have hmc : (NbtMap.keysOf collect).Nodup := hsubl.nodup hm
          have hmemc : ∀ kv ∈ collect, kv ∈ m ∧ findSpec own kv.1 = none := by
            intro kv hkv
            rw [hcollect, List.mem_filter] at hkv
            refine ⟨hkv.1, ?_⟩
            cases hfs : findSpec own kv.1 with
            | none => rfl
            | some fs =>
              have h2 := hkv.2
              rw [hfs] at h2
              cases h2
          have hcanonp : CanonicalFor parent collect := by
            intro kv hkv fs hfs
            obtain ⟨hin, hnone⟩ := hmemc kv hkv
            apply hcanon kv hin
            simp only [findSpecChain, hnone]
            exact hfs
          have hcovp : Covers parent collect := by
            intro k hk
            have hkm : k ∈ NbtMap.keysOf m := hsubl.subset hk
            have hck := hcov k hkm
            simp only [Shape.chainNames, List.mem_append] at hck
            rcases hck with hin | hin
            · obtain ⟨kv, hkvmem, hkveq⟩ := List.mem_map.mp hk
              obtain ⟨fs, hfs⟩ := findSpec_isSome_of_mem own k hin
              obtain ⟨_, hnone⟩ := hmemc kv hkvmem
              rw [hkveq] at hnone
              rw [hnone] at hfs
              cases hfs
            · exact hin
          obtain ⟨hplev, hplo, hpq⟩ :=
            ih collect p leftover2 hchain2.2.1 hmc hcanonp hcovp hpdec
          subst hplo
          have hslots := scanOwn_slots own m _ _ _ _ hscan hm ?hunset
          case hunset =>
            intro kv hkv hsome
            rw [initSlots_lookup]
            cases hfs : findSpec own kv.1 with
            | none => rw [hfs] at hsome; cases hsome
            | some fs => rfl
          have hnames : slotNames slots = own.map FieldSpec.fname := by
            rw [scanOwn_slotNames own m _ _ _ _ hscan, initSlots_names]
          have hcolookup : ∀ q, NbtMap.lookup collect q =
              match findSpec own q with
              | none => NbtMap.lookup m q
              | some _ => none := by
            intro q
            rw [hcollect, lookup_filter m _ q hm]
            cases hml : NbtMap.lookup m q with
            | none => cases findSpec own q <;> rfl
            | some v =>
              cases hfq : findSpec own q with
              | none => simp [hfq]
              | some fs => simp [hfq]
          have hextra : (r = Record.node slots collect p ∧ leftover = []) ∨
              (r = Record.node slots [] p ∧ leftover = []) := by
            cases extras
            · rw [if_neg (by decide)] at hdec
              simp only [Except.ok.injEq, Prod.mk.injEq] at hdec
              exact Or.inr ⟨hdec.1.symm, hdec.2.symm⟩
            · rw [if_pos (by decide)] at hdec
              simp only [Except.ok.injEq, Prod.mk.injEq] at hdec
              rw [mapFromPairs_eq_self collect hmc] at hdec
              exact Or.inl ⟨hdec.1.symm, hdec.2.symm⟩
          rcases hextra with ⟨hr, hlo⟩ | ⟨hr, hlo⟩
          · subst hr
            subst hlo
            refine ⟨⟨by rw [hnames]; exact hchain2.1, hmc, hplev⟩, rfl, ?_⟩
            intro q
            cases hfq : findSpec own q with
            | some fs =>
              have hco2 : NbtMap.lookup collect q = none := by
                simp only [hcolookup q, hfq]
              cases hml : NbtMap.lookup m q with
              | some v =>
                have hcan : decodePrim fs.fty v = some v := by
                  apply hcanon (q, v) (lookup_mem m q v hml) fs
                  simp [findSpecChain, hfq]
                have hsp : slotPart slots q = some v := by
                  simp only [slotPart, hslots q, hfq, hml, hcan]
                simp only [flatLookup, NbtMap.lookup, orElseV, hco2, hpq q, hsp, hml]
              | none =>
                have hsp : slotPart slots q = none := by
                  simp only [slotPart, hslots q, hfq, hml, initSlots_lookup]
                simp only [flatLookup, NbtMap.lookup, orElseV, hco2, hpq q, hsp, hml]
            | none =>
              have hco2 : NbtMap.lookup collect q = NbtMap.lookup m q := by
                simp only [hcolookup q, hfq]
              have hsp : slotPart slots q = none := by
                simp only [slotPart, hslots q, hfq, initSlots_lookup]
              cases hml : NbtMap.lookup m q with
              | some v =>
                simp only [flatLookup, NbtMap.lookup, orElseV, hco2, hpq q, hsp, hml]
              | none =>
                simp only [flatLookup, NbtMap.lookup, orElseV, hco2, hpq q, hsp, hml]
          · subst hr
            subst hlo
            refine ⟨⟨by rw [hnames]; exact hchain2.1, List.nodup_nil, hplev⟩, rfl, ?_⟩
            intro q
            cases hfq : findSpec own q with
            | some fs =>
              have hco2 : NbtMap.lookup collect q = none := by
                simp only [hcolookup q, hfq]
              cases hml : NbtMap.lookup m q with
              | some v =>
                have hcan : decodePrim fs.fty v = some v := by
                  apply hcanon (q, v) (lookup_mem m q v hml) fs
                  simp [findSpecChain, hfq]
                have hsp : slotPart slots q = some v := by
                  simp only [slotPart, hslots q, hfq, hml, hcan]
                simp only [flatLookup, NbtMap.lookup, orElseV, hco2, hpq q, hsp, hml]
              | none =>
                have hsp : slotPart slots q = none := by
                  simp only [slotPart, hslots q, hfq, hml, initSlots_lookup]
                simp only [flatLookup, NbtMap.lookup, orElseV, hco2, hpq q, hsp, hml]
            | none =>
              have hco2 : NbtMap.lookup collect q = NbtMap.lookup m q := by
                simp only [hcolookup q, hfq]
              have hsp : slotPart slots q = none := by
                simp only [slotPart, hslots q, hfq, initSlots_lookup]
              cases hml : NbtMap.lookup m q with
              | some v =>
                simp only [flatLookup, NbtMap.lookup, orElseV, hco2, hpq q, hsp, hml]
              | none =>
                simp only [flatLookup, NbtMap.lookup, orElseV, hco2, hpq q, hsp, hml]

/-! ## Round trip starting from a typed record

Rust's type system guarantees that a directly constructed struct value
holds fields of the declared types; `ValsOkB` mirrors that for one level
(slot names match the declared fields pointwise, required fields are
present, present values are canonical for their declared kind), and
`WTRecordB` extends it along the chain. -/

theorem extrasOkB_mono (names names2 : List String) (r : Record)
    (hsub : ∀ k, k ∈ names2 → k ∈ names)
    (h : extrasOkB names r = true) : extrasOkB names2 r = true := by
  induction r with
  | root vals extra =>
    simp only [extrasOkB, Bool.and_eq_true, List.all_eq_true, decide_eq_true_eq] at h ⊢
    exact ⟨h.1, fun k hk hm => h.2 k hk (hsub k hm)⟩
  | node vals extra p ih =>
    simp only [extrasOkB, Bool.and_eq_true] at h ⊢
    exact ⟨h.1, ih h.2⟩

theorem valsB_names (own : List FieldSpec) (vals : List (String × Option Value))
    (h : ValsOkB own vals = true) : slotNames vals = own.map FieldSpec.fname := by
  induction own generalizing vals with
  | nil =>
    cases vals with
    | nil => rfl
    | cons kv vs => simp [ValsOkB] at h
  | cons f fs ih =>
    cases vals with
    | nil => simp [ValsOkB] at h
    | cons kv vs =>
      obtain ⟨k, ov⟩ := kv
      simp only [ValsOkB, Bool.and_eq_true, beq_iff_eq] at h
      simp only [slotNames, List.map, List.cons.injEq]
      exact ⟨h.1.1.1, by simpa [slotNames] using ih vs h.2⟩

theorem valsB_required (own : List FieldSpec) (vals : List (String × Option Value))
    (h : ValsOkB own vals = true) (hnodup : (own.map FieldSpec.fname).Nodup) :
    ∀ f ∈ own, f.optional = false → ∃ v, slotLookup vals f.fname = some (some v) := by
  induction own generalizing vals with
  | nil => intro f hf; simp at hf
  | cons g gs ih =>
    cases vals with
    | nil => simp [ValsOkB] at h
    | cons kv vs =>
      obtain ⟨k, ov⟩ := kv
      simp only [ValsOkB, Bool.and_eq_true, beq_iff_eq] at h
      obtain ⟨⟨⟨hk, hreq⟩, hcanon⟩, hrest⟩ := h
      simp only [List.map, List.nodup_cons] at hnodup
      intro f hf hfreq
      rcases List.mem_cons.mp hf with hf1 | hf2
      · subst hf1
        rw [hfreq] at hreq
        simp only [Bool.false_or] at hreq
        cases ov with
        | none => cases hreq
        | some v =>
          refine ⟨v, ?_⟩
          simp only [slotLookup, if_pos hk]
      · have hne : k ≠ f.fname := by
          rw [hk]
          intro hc
          exact hnodup.1 (hc ▸ List.mem_map_of_mem FieldSpec.fname hf2)
        obtain ⟨v, hv⟩ := ih vs hrest hnodup.2 f hf2 hfreq
        refine ⟨v, ?_⟩
        simp only [slotLookup, if_neg hne]
        exact hv

theorem slotSet_append_of_not_mem (v₁ v₂ : List (String × Option Value)) (key : String)
    (v : Value) (h : key ∉ slotNames v₁) :
    slotSet (v₁ ++ v₂) key v = v₁ ++ slotSet v₂ key v := by
  induction v₁ with
  | nil => rfl
  | cons kv rest ih =>
    obtain ⟨k, ov⟩ := kv
    simp only [slotNames, List.map, List.mem_cons] at h
    push_neg at h
    simp only [List.cons_append, slotSet, if_neg (fun hc : k = key => h.1 hc.symm),
      List.append_eq]
    rw [ih (by simpa [slotNames] using h.2)]

theorem scanOwn_presentPairs (own₂ : List FieldSpec) (own₁ : List FieldSpec)
    (vals₁ : List (String × Option Value)) (vals₂ : List (String × Option Value))
    (collect : List (String × Value))
    (hnodup : ((own₁ ++ own₂).map FieldSpec.fname).Nodup)
    (hnames : slotNames vals₁ = own₁.map FieldSpec.fname)
    (hok : ValsOkB own₂ vals₂ = true) :
    scanOwn (own₁ ++ own₂) (presentPairs vals₂) (vals₁ ++ initSlots own₂) collect =
      .ok (vals₁ ++ vals₂, collect) := by
  induction own₂ generalizing own₁ vals₁ vals₂ with
  | nil =>
    cases vals₂ with
    | nil => simp [scanOwn, presentPairs, initSlots]
    | cons kv vs => simp [ValsOkB] at hok
  | cons f fs ih =>
    cases vals₂ with
    | nil => simp [ValsOkB] at hok
    | cons kv vs =>
      obtain ⟨k, ov⟩ := kv
      simp only [ValsOkB, Bool.and_eq_true, beq_iff_eq] at hok
      obtain ⟨⟨⟨hk, hreq⟩, hcanon⟩, hrest⟩ := hok
      have hkown : k ∉ own₁.map FieldSpec.fname := by
        rw [hk]
        have h2 := hnodup
        rw [List.map_append, List.nodup_append] at h2
        intro hc
        exact h2.2.2 hc (by simp)
      have hassoc : ((own₁ ++ [f]) ++ fs).map FieldSpec.fname =
          (own₁ ++ f :: fs).map FieldSpec.fname := by
        simp
      cases ov with
      | none =>
        have hstep : vals₁ ++ initSlots (f :: fs) =
            (vals₁ ++ [(k, none)]) ++ initSlots fs := by
          simp only [initSlots, List.map, hk]
          simp
        rw [hstep]
        have happ : own₁ ++ f :: fs = (own₁ ++ [f]) ++ fs := by simp
        rw [happ]
        have hres := ih (own₁ ++ [f]) (vals₁ ++ [(k, none)]) vs
          (by simpa using hnodup)
          (by
            simp only [slotNames] at hnames ⊢
            simp [hnames, hk])
          hrest
        simpa [presentPairs] using hres
      | some v =>
        simp only [presentPairs, scanOwn]
        have hfind : findSpec (own₁ ++ f :: fs) k = some f := by
          rw [findSpec_append, findSpec_eq_none_of_not_mem own₁ k hkown]
          simp only [findSpec, List.find?]
          rw [decide_eq_true (hk ▸ rfl : f.fname = k)]
        have hslot : slotLookup (vals₁ ++ initSlots (f :: fs)) k = some none := by
          rw [slotLookup_append,
            slotLookup_eq_none_of_not_mem vals₁ k (by rw [hnames]; exact hkown)]
          simp only [initSlots, List.map, slotLookup]
          rw [if_pos (hk ▸ rfl : f.fname = k)]
        have hdec : decodePrim f.fty v = some v := by
          simp only [beq_iff_eq] at hcanon
          exact hcanon
        have hstep : scanOwnStep (own₁ ++ f :: fs) k v (vals₁ ++ initSlots (f :: fs)) collect =
            .ok (vals₁ ++ (k, some v) :: initSlots fs, collect) := by
          simp only [scanOwnStep, hfind, hslot, hdec]
          have hset : slotSet (vals₁ ++ initSlots (f :: fs)) k v =
              vals₁ ++ (k, some v) :: initSlots fs := by
            rw [slotSet_append_of_not_mem vals₁ _ k v (by rw [hnames]; exact hkown)]
            simp only [initSlots, List.map, slotSet]
            rw [if_pos (hk ▸ rfl : f.fname = k), hk]
          rw [hset]
        rw [hstep]
        have hstep2 : vals₁ ++ (k, some v) :: initSlots fs =
            (vals₁ ++ [(k, some v)]) ++ initSlots fs := by simp
        rw [hstep2]
        have happ : own₁ ++ f :: fs = (own₁ ++ [f]) ++ fs := by simp
        rw [happ]
        have hres := ih (own₁ ++ [f]) (vals₁ ++ [(k, some v)]) vs
          (by simpa using hnodup)
          (by
            simp only [slotNames] at hnames ⊢
            simp [hnames, hk])
          hrest
        simpa using hres

theorem keysOf_presentPairs_mem (vals : List (String × Option Value)) (k : String)
    (h : k ∈ NbtMap.keysOf (presentPairs vals)) : k ∈ slotNames vals :=
  (keysOf_presentPairs_sublist vals).subset h

theorem contrib_facts (s : Shape) (p : Record) (names : List String)
    (hchain : s.chainNames.Nodup)
    (hsub : ∀ k ∈ s.chainNames, k ∈ names)
    (hwt : WTRecordB s p = true)
    (hex : extrasOkB names p = true) :
    (∀ k ∈ Record.contribNames p, k ∈ s.chainNames ∨ k ∉ names) ∧
      (Record.contribNames p).Nodup := by
  induction s generalizing p with
  | root own ex =>
    cases p with
    | node vals extra pr => simp [WTRecordB] at hwt
    | root vals extra =>
      simp only [WTRecordB, Bool.and_eq_true] at hwt
      simp only [extrasOkB, Bool.and_eq_true, List.all_eq_true, decide_eq_true_eq] at hex
      have hnames := valsB_names own vals hwt.1
      have hchain2 : (own.map FieldSpec.fname).Nodup := by
        simpa [Shape.chainNames] using hchain
      have hppsub : ∀ k ∈ NbtMap.keysOf (presentPairs vals), k ∈ own.map FieldSpec.fname := by
        intro k hk
        rw [← hnames]
        exact keysOf_presentPairs_mem vals k hk
      constructor
      · intro k hk
        simp only [Record.contribNames, List.mem_append] at hk
        rcases hk with hk | hk
        · exact Or.inl (by simpa [Shape.chainNames] using hppsub k hk)
        · exact Or.inr (hex.2 k hk)
      · simp only [Record.contribNames]
        rw [List.nodup_append]
        refine ⟨(keysOf_presentPairs_sublist vals).nodup (by rw [hnames]; exact hchain2),
          hex.1, ?_⟩
        intro k hk hk2
        exact hex.2 k hk2 (hsub k (by simpa [Shape.chainNames] using hppsub k hk))
  | node own ex parent ih =>
    cases p with
    | root vals extra => simp [WTRecordB] at hwt
    | node vals extra pr =>
      simp only [WTRecordB, Bool.and_eq_true] at hwt
      simp only [extrasOkB, Bool.and_eq_true] at hex
      have hempty : extra = [] := List.isEmpty_iff.mp hex.1
      obtain ⟨hexE, hexP⟩ := hex
      have hnames := valsB_names own vals hwt.1
      have hchain2 : (own.map FieldSpec.fname).Nodup ∧ parent.chainNames.Nodup ∧
          ∀ a ∈ own.map FieldSpec.fname, a ∉ parent.chainNames := by
        have hc := hchain
        simp only [Shape.chainNames] at hc
        rw [List.nodup_append] at hc
        exact hc
      have hsubP : ∀ k ∈ parent.chainNames, k ∈ names := by
        intro k hk
        exact hsub k (by simp [Shape.chainNames, hk])
      obtain ⟨hcsub, hcnodup⟩ := ih pr hchain2.2.1 hsubP hwt.2 hexP
      have hppsub : ∀ k ∈ NbtMap.keysOf (presentPairs vals), k ∈ own.map FieldSpec.fname := by
        intro k hk
        rw [← hnames]
        exact keysOf_presentPairs_mem vals k hk
      subst hempty
      constructor
      · intro k hk
        simp only [Record.contribNames, NbtMap.keysOf, List.map, List.append_nil,
          List.mem_append] at hk
        rcases hk with hk | hk
        · exact Or.inl (by simp [Shape.chainNames, hppsub k hk])
        · rcases hcsub k hk with hin | hin
          · exact Or.inl (by simp [Shape.chainNames, hin])
          · exact Or.inr hin
      · simp only [Record.contribNames, NbtMap.keysOf, List.map, List.append_nil]
        rw [List.nodup_append]
        refine ⟨(keysOf_presentPairs_sublist vals).nodup (by rw [hnames]; exact hchain2.1),
          hcnodup, ?_⟩
        intro k hk hk2
        rcases hcsub k hk2 with hin | hin
        · exact hchain2.2.2 k (hppsub k hk) hin
        · exact hin (hsub k (by simp [Shape.chainNames, hppsub k hk]))

theorem flatten_decodeShape (s : Shape) (r : Record)
    (hchain : s.chainNames.Nodup)
    (hro : extrasAtRootOnly s = true)
    (hwt : WTRecordB s r = true)
    (hex : extrasOkB s.chainNames r = true) :
    decodeShape s (Record.flatten r) = .ok (r, []) := by
  induction s generalizing r with
  | root own ex =>
    cases r with
    | node vals extra pr => simp [WTRecordB] at hwt
    | root vals extra =>
      simp only [WTRecordB, Bool.and_eq_true] at hwt
      simp only [extrasOkB, Bool.and_eq_true, List.all_eq_true, decide_eq_true_eq] at hex
      have hv := hwt.1
      have hnames := valsB_names own vals hv
      have hchain2 : (own.map FieldSpec.fname).Nodup := by
        simpa [Shape.chainNames] using hchain
      have hppnodup : (NbtMap.keysOf (presentPairs vals)).Nodup :=
        (keysOf_presentPairs_sublist vals).nodup (by rw [hnames]; exact hchain2)
      have hdisjE : ∀ k ∈ NbtMap.keysOf extra, k ∉ NbtMap.keysOf (presentPairs vals) := by
        intro k hk hk2
        exact hex.2 k hk (by
          simp only [Shape.chainNames]
          rw [← hnames]
          exact keysOf_presentPairs_mem vals k hk2)
      have hflat : Record.flatten (Record.root vals extra) = presentPairs vals ++ extra := by
        show insertExtras extra (insertOwnVals vals []) = _
        rw [insertExtras_eq_foldInsert, insertOwnVals_eq_foldInsert]
        have h1 : foldInsert ([] : NbtMap) (presentPairs vals) = presentPairs vals := by
          rw [foldInsert_append_of_disjoint _ _ (by simp [NbtMap.keysOf]) hppnodup]
          simp
        rw [h1, foldInsert_append_of_disjoint extra (presentPairs vals) hdisjE hex.1]
      have hscan2 : scanOwn own (Record.flatten (Record.root vals extra))
          (initSlots own) [] = .ok (vals, extra) := by
        rw [hflat, scanOwn_append]
        have h2 : scanOwn own (presentPairs vals) (initSlots own) [] = .ok (vals, []) := by
          have h3 := scanOwn_presentPairs own [] [] vals []
            (by simpa using hchain2) (by simp [slotNames]) hv
          simpa using h3
        rw [h2]
        have h4 : scanOwn own extra vals [] = .ok (vals, [] ++ extra) := by
          apply scanOwn_unclaimed
          intro kv hkv
          apply findSpec_eq_none_of_not_mem
          intro hmem
          exact hex.2 kv.1 (List.mem_map_of_mem Prod.fst hkv)
            (by simpa [Shape.chainNames] using hmem)
        simpa using h4
      have hcheck : checkRequired own vals = .ok () :=
        checkRequired_ok own vals (valsB_required own vals hv hchain2)
      simp only [decodeShape, hscan2, hcheck]
      cases ex with
      | false =>
        have hempty : extra = [] := by
          have h5 := hwt.2
          simp only [Bool.false_or] at h5
          rwa [List.isEmpty_iff] at h5
        subst hempty
        rw [if_neg (by decide)]
      | true =>
        rw [if_pos (by decide), mapFromPairs_eq_self extra hex.1]
  | node own ex parent ih =>
    cases r with
    | root vals extra => simp [WTRecordB] at hwt
    | node vals extra pr =>
      simp only [WTRecordB, Bool.and_eq_true] at hwt
      simp only [extrasOkB, Bool.and_eq_true] at hex
      have hempty : extra = [] := List.isEmpty_iff.mp hex.1
      subst hempty
      simp only [extrasAtRootOnly, Bool.and_eq_true, Bool.not_eq_eq_eq_not, Bool.not_true] at hro
      have hexF : ex = false := by
        rcases hro with ⟨h1, _⟩
        simpa using h1
      have hnames := valsB_names own vals hwt.1
      have hchain2 : (own.map FieldSpec.fname).Nodup ∧ parent.chainNames.Nodup ∧
          ∀ a ∈ own.map FieldSpec.fname, a ∉ parent.chainNames := by
        have hc := hchain
        simp only [Shape.chainNames] at hc
        rw [List.nodup_append] at hc
        exact hc
      have hppnodup : (NbtMap.keysOf (presentPairs vals)).Nodup :=
        (keysOf_presentPairs_sublist vals).nodup (by rw [hnames]; exact hchain2.1)
      have hsubfull : ∀ k ∈ parent.chainNames, k ∈ (Shape.node own ex parent).chainNames := by
        intro k hk
        simp [Shape.chainNames, hk]
      obtain ⟨hcsub, hcnodup⟩ := contrib_facts parent pr
        (Shape.node own ex parent).chainNames hchain2.2.1 hsubfull hwt.2 hex.2
      have hdisjC : ∀ k ∈ Record.contribNames pr, k ∉ NbtMap.keysOf (presentPairs vals) := by
        intro k hk hk2
        have hkown : k ∈ own.map FieldSpec.fname := by
          rw [← hnames]
          exact keysOf_presentPairs_mem vals k hk2
        rcases hcsub k hk with hin | hin
        · exact hchain2.2.2 k hkown hin
        · exact hin (by simp [Shape.chainNames, hkown])
      have hflat : Record.flatten (Record.node vals [] pr) =
          presentPairs vals ++ Record.flatten pr := by
        show insertExtras [] (Record.flattenInto pr (insertOwnVals vals [])) = _
        rw [insertExtras_eq_foldInsert]
        have h0 : foldInsert (Record.flattenInto pr (insertOwnVals vals [])) [] =
            Record.flattenInto pr (insertOwnVals vals []) := rfl
        rw [h0, insertOwnVals_eq_foldInsert]
        have h1 : foldInsert ([] : NbtMap) (presentPairs vals) = presentPairs vals := by
          rw [foldInsert_append_of_disjoint _ _ (by simp [NbtMap.keysOf]) hppnodup]
          simp
        rw [h1, flattenInto_eq_append pr (presentPairs vals) hdisjC hcnodup]
        rfl
      have hscan2 : scanOwn own (Record.flatten (Record.node vals [] pr))
          (initSlots own) [] = .ok (vals, Record.flatten pr) := by
        rw [hflat, scanOwn_append]
        have h2 : scanOwn own (presentPairs vals) (initSlots own) [] = .ok (vals, []) := by
          have h3 := scanOwn_presentPairs own [] [] vals []
            (by simpa using hchain2.1) (by simp [slotNames]) hwt.1
          simpa using h3
        rw [h2]
        have h4 : scanOwn own (Record.flatten pr) vals [] =
            .ok (vals, [] ++ Record.flatten pr) := by
          apply scanOwn_unclaimed
          intro kv hkv
          apply findSpec_eq_none_of_not_mem
          intro hmem
          have hkmem : kv.1 ∈ NbtMap.keysOf (Record.flattenInto pr []) :=
            List.mem_map_of_mem Prod.fst hkv
          rcases mem_keysOf_flattenInto pr [] kv.1 hkmem with h5 | h5
          · simp [NbtMap.keysOf] at h5
          · rcases hcsub kv.1 h5 with hin | hin
            · exact hchain2.2.2 kv.1 hmem hin
            · exact hin (by simp [Shape.chainNames, hmem])
        simpa using h4
      have hcheck : checkRequired own vals = .ok () :=
        checkRequired_ok own vals (valsB_required own vals hwt.1 hchain2.1)
      have hpar : decodeShape parent (Record.flatten pr) = .ok (pr, []) := by
        apply ih pr hchain2.2.1 hro.2 hwt.2
        apply extrasOkB_mono _ _ _ hsubfull hex.2
      simp only [decodeShape, hscan2, hcheck, hpar]
      subst hexF
      rw [if_neg (by decide)]

/-! ## Duplicate own-field keys are hard errors

The generated `visit_map` checks each own-field slot before filling it; a
key whose slot is already filled is a `duplicate_field` error, so a scan
that succeeds can never have met a claimed key twice. -/

theorem scanOwn_filled_not_mem (own : List FieldSpec) (l : NbtMap) (q : String) (w : Value)
    (slots s2 : List (String × Option Value)) (collect c2 : List (String × Value))
    (hq : (findSpec own q).isSome = true)
    (hfill : slotLookup slots q = some (some w))
    (h : scanOwn own l slots collect = .ok (s2, c2)) :
    q ∉ NbtMap.keysOf l := by
  induction l generalizing slots collect with
  | nil => simp [NbtMap.keysOf]
  | cons kv rest ih =>
    obtain ⟨k, v⟩ := kv
    simp only [scanOwn] at h
    cases hstep : scanOwnStep own k v slots collect with
    | error e => rw [hstep] at h; cases h
    | ok sc =>
      obtain ⟨slots3, collect3⟩ := sc
      rw [hstep] at h
      by_cases hk : k = q
      · subst hk
        obtain ⟨fs, hfs⟩ := Option.isSome_iff_exists.mp hq
        simp only [scanOwnStep, hfs, hfill] at hstep
        exact Except.noConfusion hstep
      · have hnot : q ∉ NbtMap.keysOf rest := by
          rcases scanOwnStep_ok own k v slots slots3 collect collect3 hstep with
            ⟨_, hs3, _⟩ | ⟨fs, cv, _, _, hs3, _, _, _⟩
          · subst hs3
            exact ih _ _ hfill h
          · subst hs3
            have hfill3 : slotLookup (slotSet slots k cv) q = some (some w) := by
              rw [slotLookup_slotSet, if_neg (fun hc : q = k => hk hc.symm)]
              exact hfill
            exact ih _ _ hfill3 h
        simp only [NbtMap.keysOf, List.map, List.mem_cons]
        push_neg
        exact ⟨fun hc => hk hc.symm, by simpa [NbtMap.keysOf] using hnot⟩

theorem scanOwn_no_second (own : List FieldSpec) (l₁ l₂ : NbtMap) (q : String) (v : Value)
    (slots s2 : List (String × Option Value)) (collect c2 : List (String × Value))
    (hq : (findSpec own q).isSome = true)
    (hmem : (slotLookup slots q).isSome = true)
    (h : scanOwn own (l₁ ++ (q, v) :: l₂) slots collect = .ok (s2, c2)) :
    q ∉ NbtMap.keysOf l₂ := by
  induction l₁ generalizing slots collect with
  | nil =>
    simp only [List.nil_append, scanOwn] at h
    cases hstep : scanOwnStep own q v slots collect with
    | error e => rw [hstep] at h; cases h
    | ok sc =>
      obtain ⟨slots3, collect3⟩ := sc
      rw [hstep] at h
      rcases scanOwnStep_ok own q v slots slots3 collect collect3 hstep with
        ⟨hnone, _, _⟩ | ⟨fs, cv, _, _, hs3, _, _, _⟩
      · rw [hnone] at hq; cases hq
      · subst hs3
        have hfill : slotLookup (slotSet slots q cv) q = some (some cv) := by
          rw [slotLookup_slotSet, if_pos rfl]
          obtain ⟨ov, hov⟩ := Option.isSome_iff_exists.mp hmem
          rw [hov]
        exact scanOwn_filled_not_mem own l₂ q cv _ _ _ _ hq hfill h
  | cons kv rest ih =>
    obtain ⟨k, v'⟩ := kv
    simp only [List.cons_append, scanOwn] at h
    cases hstep : scanOwnStep own k v' slots collect with
    | error e => rw [hstep] at h; cases h
    | ok sc =>
      obtain ⟨slots3, collect3⟩ := sc
      rw [hstep] at h
      have hmem3 : (slotLookup slots3 q).isSome = true := by
        rcases scanOwnStep_ok own k v' slots slots3 collect collect3 hstep with
          ⟨_, hs3, _⟩ | ⟨fs, cv, _, _, hs3, _, _, _⟩
        · rw [hs3]; exact hmem
        · rw [hs3, slotLookup_slotSet]
          by_cases hqk : q = k
          · rw [if_pos hqk]
            obtain ⟨ov, hov⟩ := Option.isSome_iff_exists.mp hmem
            rw [hqk] at hov
            rw [hov]
            rfl
          · rw [if_neg hqk]
            exact hmem
      exact ih _ _ hmem3 h

theorem decodeShape_no_second (s : Shape) (l₁ l₂ : NbtMap) (q : String) (v : Value)
    (r : Record) (lo : List (String × Value))
    (hq : (findSpec s.own q).isSome = true)
    (hdec : decodeShape s (l₁ ++ (q, v) :: l₂) = .ok (r, lo)) :
    q ∉ NbtMap.keysOf l₂ := by
  have hmem : (slotLookup (initSlots s.own) q).isSome = true := by
    rw [initSlots_lookup]
    obtain ⟨fs, hfs⟩ := Option.isSome_iff_exists.mp hq
    rw [hfs]
    rfl
  cases s with
  | root own ex =>
    simp only [decodeShape] at hdec
    cases hscan : scanOwn own (l₁ ++ (q, v) :: l₂) (initSlots own) [] with
    | error e => rw [hscan] at hdec; cases hdec
    | ok sc =>
      obtain ⟨slots, collect⟩ := sc
      exact scanOwn_no_second own l₁ l₂ q v _ _ _ _ hq hmem hscan
  | node own ex parent =>
    simp only [decodeShape] at hdec
    cases hscan : scanOwn own (l₁ ++ (q, v) :: l₂) (initSlots own) [] with
    | error e => rw [hscan] at hdec; cases hdec
    | ok sc =>
      obtain ⟨slots, collect⟩ := sc
      exact scanOwn_no_second own l₁ l₂ q v _ _ _ _ hq hmem hscan

/-! ## Characterizing the dispatch-layer scans -/

theorem scanBEStep_ok (k : String) (v : Value) (st st2 : BEState)
    (h : scanBEStep k v st = .ok st2) :
    (k = "id" ∧ ∃ s, asStringVal v = some s ∧ st.stId = none ∧
        st2 = { st with stId := some s }) ∨
    (k = "x" ∧ ∃ n, asI32 v = some n ∧ st.stX = none ∧ st2 = { st with stX := some n }) ∨
    (k = "y" ∧ ∃ n, asI32 v = some n ∧ st.stY = none ∧ st2 = { st with stY := some n }) ∨
    (k = "z" ∧ ∃ n, asI32 v = some n ∧ st.stZ = none ∧ st2 = { st with stZ := some n }) ∨
    (beIdent k = false ∧ st2 = { st with stProps := NbtMap.insert st.stProps k v }) := by
  simp only [scanBEStep] at h
  by_cases h1 : k = "id"
  · subst h1
    rw [if_pos rfl] at h
    cases hid : st.stId with
    | some s => simp [hid] at h
    | none =>
      simp only [hid, Option.isSome_none, Bool.false_eq_true, if_false] at h
      cases hv : asStringVal v with
      | none =>
        simp only [hv] at h
        exact Except.noConfusion h
      | some s2 =>
        simp only [hv, Except.ok.injEq] at h
        exact Or.inl ⟨rfl, s2, rfl, rfl, h.symm⟩
  · rw [if_neg h1] at h
    by_cases h2 : k = "x"
    · subst h2
      rw [if_pos rfl] at h
      cases hx : st.stX with
      | some n => simp [hx] at h
      | none =>
        simp only [hx, Option.isSome_none, Bool.false_eq_true, if_false] at h
        cases hv : asI32 v with
        | none =>
          simp only [hv] at h
          exact Except.noConfusion h
        | some n2 =>
          simp only [hv, Except.ok.injEq] at h
          exact Or.inr (Or.inl ⟨rfl, n2, rfl, rfl, h.symm⟩)
    · rw [if_neg h2] at h
      by_cases h3 : k = "y"
      · subst h3
        rw [if_pos rfl] at h
        cases hy : st.stY with
        | some n => simp [hy] at h
        | none =>
          simp only [hy, Option.isSome_none, Bool.false_eq_true, if_false] at h
          cases hv : asI32 v with
          | none =>
            simp only [hv] at h
            exact Except.noConfusion h
          | some n2 =>
            simp only [hv, Except.ok.injEq] at h
            exact Or.inr (Or.inr (Or.inl ⟨rfl, n2, rfl, rfl, h.symm⟩))
      · rw [if_neg h3] at h
        by_cases h4 : k = "z"
        · subst h4
          rw [if_pos rfl] at h
          cases hz : st.stZ with
          | some n => simp [hz] at h
          | none =>
            simp only [hz, Option.isSome_none, Bool.false_eq_true, if_false] at h
            cases hv : asI32 v with
            | none =>
              simp only [hv] at h
              exact Except.noConfusion h
            | some n2 =>
              simp only [hv, Except.ok.injEq] at h
              exact Or.inr (Or.inr (Or.inr (Or.inl ⟨rfl, n2, rfl, rfl, h.symm⟩)))
        · rw [if_neg h4] at h
          simp only [Except.ok.injEq] at h
          refine Or.inr (Or.inr (Or.inr (Or.inr ⟨?_, h.symm⟩)))
          simp [beIdent, h1, h2, h3, h4]

theorem scanBEAux_props (m : NbtMap) (st st2 : BEState)
    (h : scanBEAux m st = .ok st2) :
    st2.stProps = foldInsert st.stProps (m.filter (fun kv => !beIdent kv.1)) := by
  induction m generalizing st with
  | nil =>
    simp only [scanBEAux, Except.ok.injEq] at h
    subst h
    rfl
  | cons kv rest ih =>
    obtain ⟨k, v⟩ := kv
    simp only [scanBEAux] at h
    cases hstep : scanBEStep k v st with
    | error e => rw [hstep] at h; cases h
    | ok st3 =>
      rw [hstep] at h
      rw [List.filter_cons]
      rcases scanBEStep_ok k v st st3 hstep with
        ⟨hk, s, _, _, hst3⟩ | ⟨hk, n, _, _, hst3⟩ | ⟨hk, n, _, _, hst3⟩ |
        ⟨hk, n, _, _, hst3⟩ | ⟨hk, hst3⟩
      · subst hk; subst hst3
        rw [if_neg (by simp [beIdent]), ih _ h]
      · subst hk; subst hst3
        rw [if_neg (by simp [beIdent]), ih _ h]
      · subst hk; subst hst3
        rw [if_neg (by simp [beIdent]), ih _ h]
      · subst hk; subst hst3
        rw [if_neg (by simp [beIdent]), ih _ h]
      · subst hst3
        rw [if_pos (by simp [hk]), ih _ h]
        rfl

theorem keysOf_filter_nodup (m : NbtMap) (p : String × Value → Bool)
    (h : (NbtMap.keysOf m).Nodup) : (NbtMap.keysOf (m.filter p)).Nodup :=
  ((List.filter_sublist m).map Prod.fst).nodup h

theorem foldInsert_nil_of_nodup (l : NbtMap) (h : (NbtMap.keysOf l).Nodup) :
    foldInsert [] l = l := by
  rw [foldInsert_append_of_disjoint l [] (by simp [NbtMap.keysOf]) h]
  simp

theorem scanBE_props (m : NbtMap) (s : BEScan)
    (hnodup : (NbtMap.keysOf m).Nodup)
    (h : scanBE m = .ok s) :
    ∀ q, beIdent q = false → NbtMap.lookup s.props q = NbtMap.lookup m q := by
  intro q hq
  simp only [scanBE] at h
  cases haux : scanBEAux m ⟨none, none, none, none, []⟩ with
  | error e => rw [haux] at h; cases h
  | ok st =>
    rw [haux] at h
    have hp := scanBEAux_props m _ st haux
    cases hx : st.stX with
    | none => simp only [hx] at h; exact Except.noConfusion h
    | some x =>
      cases hy : st.stY with
      | none => simp only [hx, hy] at h; exact Except.noConfusion h
      | some y =>
        cases hz : st.stZ with
        | none => simp only [hx, hy, hz] at h; exact Except.noConfusion h
        | some z =>
          simp only [hx, hy, hz, Except.ok.injEq] at h
          have hprops : s.props = st.stProps := by rw [← h]
          rw [hprops, hp,
            foldInsert_nil_of_nodup _ (keysOf_filter_nodup m _ hnodup),
            lookup_filter m _ q hnodup]
          cases hmq : NbtMap.lookup m q with
          | none => rfl
          | some w => simp [hq]

theorem scanBEStep_fills (k : String) (v : Value) (st st2 : BEState)
    (h : scanBEStep k v st = .ok st2) (hk : beIdent k = true) :
    identSlotFilled k st2 = true := by
  rcases scanBEStep_ok k v st st2 h with
    ⟨hk1, s, _, _, hst2⟩ | ⟨hk1, n, _, _, hst2⟩ | ⟨hk1, n, _, _, hst2⟩ |
    ⟨hk1, n, _, _, hst2⟩ | ⟨hk1, hst2⟩
  · subst hk1; subst hst2; rfl
  · subst hk1; subst hst2; rfl
  · subst hk1; subst hst2; rfl
  · subst hk1; subst hst2; rfl
  · rw [hk1] at hk; cases hk

theorem scanBEStep_mono (k' : String) (v : Value) (st st2 : BEState) (k : String)
    (h : scanBEStep k' v st = .ok st2)
    (hfill : identSlotFilled k st = true) :
    identSlotFilled k st2 = true := by
  rcases scanBEStep_ok k' v st st2 h with
    ⟨hk1, s, _, _, hst2⟩ | ⟨hk1, n, _, _, hst2⟩ | ⟨hk1, n, _, _, hst2⟩ |
    ⟨hk1, n, _, _, hst2⟩ | ⟨hk1, hst2⟩ <;>
    subst hst2 <;>
    · simp only [identSlotFilled] at hfill ⊢
      by_cases e1 : k = "id" <;> by_cases e2 : k = "x" <;> by_cases e3 : k = "y" <;>
        by_cases e4 : k = "z" <;> simp_all

theorem scanBEStep_dup (k : String) (v : Value) (st : BEState)
    (hk : beIdent k = true) (hfill : identSlotFilled k st = true) :
    scanBEStep k v st = .error (.duplicateField k) := by
  simp only [beIdent, Bool.or_eq_true, beq_iff_eq] at hk
  rcases hk with ((hk | hk) | hk) | hk <;> subst hk
  · have hfill2 : st.stId.isSome = true := by simpa [identSlotFilled] using hfill
    simp [scanBEStep, hfill2]
  · have hfill2 : st.stX.isSome = true := by simpa [identSlotFilled] using hfill
    simp [scanBEStep, hfill2]
  · have hfill2 : st.stY.isSome = true := by simpa [identSlotFilled] using hfill
    simp [scanBEStep, hfill2]
  · have hfill2 : st.stZ.isSome = true := by simpa [identSlotFilled] using hfill
    simp [scanBEStep, hfill2]

theorem scanBEAux_filled_not_mem (l : NbtMap) (st st2 : BEState) (k : String)
    (h : scanBEAux l st = .ok st2) (hk : beIdent k = true)
    (hfill : identSlotFilled k st = true) :
    k ∉ NbtMap.keysOf l := by
  induction l generalizing st with
  | nil => simp [NbtMap.keysOf]
  | cons kv rest ih =>
    obtain ⟨k', v⟩ := kv
    simp only [scanBEAux] at h
    cases hstep : scanBEStep k' v st with
    | error e => rw [hstep] at h; cases h
    | ok st3 =>
      rw [hstep] at h
      by_cases hkk : k' = k
      · subst hkk
        rw [scanBEStep_dup k' v st hk hfill] at hstep
        exact Except.noConfusion hstep
      · have hnot := ih st3 h (scanBEStep_mono k' v st st3 k hstep hfill)
        simp only [NbtMap.keysOf, List.map, List.mem_cons]
        push_neg
        exact ⟨fun hc => hkk hc.symm, by simpa [NbtMap.keysOf] using hnot⟩

theorem scanBEAux_append (l₁ l₂ : NbtMap) (st : BEState) :
    scanBEAux (l₁ ++ l₂) st =
      match scanBEAux l₁ st with
      | .ok st1 => scanBEAux l₂ st1
      | .error e => .error e := by
  induction l₁ generalizing st with
  | nil => simp [scanBEAux]
  | cons kv rest ih =>
    obtain ⟨k, v⟩ := kv
    simp only [List.cons_append, scanBEAux]
    cases hstep : scanBEStep k v st with
    | error e => rfl
    | ok st3 => exact ih st3

theorem scanBE_no_second (l₁ l₂ : NbtMap) (k : String) (v : Value) (s : BEScan)
    (hk : beIdent k = true)
    (h : scanBE (l₁ ++ (k, v) :: l₂) = .ok s) :
    k ∉ NbtMap.keysOf l₂ := by
  simp only [scanBE] at h
  cases haux : scanBEAux (l₁ ++ (k, v) :: l₂) ⟨none, none, none, none, []⟩ with
  | error e => rw [haux] at h; cases h
  | ok st =>
    rw [scanBEAux_append] at haux
    cases haux1 : scanBEAux l₁ ⟨none, none, none, none, []⟩ with
    | error e => rw [haux1] at haux; cases haux
    | ok st1 =>
      rw [haux1] at haux
      simp only [scanBEAux] at haux
      cases hstep : scanBEStep k v st1 with
      | error e => rw [hstep] at haux; cases haux
      | ok st2 =>
        rw [hstep] at haux
        exact scanBEAux_filled_not_mem l₂ st2 st k haux hk
          (scanBEStep_fills k v st1 st2 hstep hk)

theorem scanEntStep_ok (k : String) (v : Value) (st st2 : EntScan)
    (h : scanEntStep k v st = .ok st2) :
    (k = "id" ∧ ∃ s, asStringVal v = some s ∧ st.esid = none ∧
        st2 = { st with esid := some s }) ∨
    (k = "UUID" ∧ ∃ u, decodeU128 v = some u ∧ st.euuid = none ∧
        st2 = { st with euuid := some u }) ∨
    (entIdent k = false ∧ st2 = { st with eprops := NbtMap.insert st.eprops k v }) := by
  simp only [scanEntStep] at h
  by_cases h1 : k = "id"
  · subst h1
    rw [if_pos rfl] at h
    cases hid : st.esid with
    | some s => simp [hid] at h
    | none =>
      simp only [hid, Option.isSome_none, Bool.false_eq_true, if_false] at h
      cases hv : asStringVal v with
      | none =>
        simp only [hv] at h
        exact Except.noConfusion h
      | some s2 =>
        simp only [hv, Except.ok.injEq] at h
        exact Or.inl ⟨rfl, s2, rfl, rfl, h.symm⟩
  · rw [if_neg h1] at h
    by_cases h2 : k = "UUID"
    · subst h2
      rw [if_pos rfl] at h
      cases hu : st.euuid with
      | some u => simp [hu] at h
      | none =>
        simp only [hu, Option.isSome_none, Bool.false_eq_true, if_false] at h
        cases hv : decodeU128 v with
        | none =>
          simp only [hv] at h
          exact Except.noConfusion h
        | some u2 =>
          simp only [hv, Except.ok.injEq] at h
          exact Or.inr (Or.inl ⟨rfl, u2, rfl, rfl, h.symm⟩)
    · rw [if_neg h2] at h
      simp only [Except.ok.injEq] at h
      refine Or.inr (Or.inr ⟨?_, h.symm⟩)
      simp [entIdent, h1, h2]

theorem scanEntAux_props (m : NbtMap) (st st2 : EntScan)
    (h : scanEntAux m st = .ok st2) :
    st2.eprops = foldInsert st.eprops (m.filter (fun kv => !entIdent kv.1)) := by
  induction m generalizing st with
  | nil =>
    simp only [scanEntAux, Except.ok.injEq] at h
    subst h
    rfl
  | cons kv rest ih =>
    obtain ⟨k, v⟩ := kv
    simp only [scanEntAux] at h
    cases hstep : scanEntStep k v st with
    | error e => rw [hstep] at h; cases h
    | ok st3 =>
      rw [hstep] at h
      rw [List.filter_cons]
      rcases scanEntStep_ok k v st st3 hstep with
        ⟨hk, s, _, _, hst3⟩ | ⟨hk, u, _, _, hst3⟩ | ⟨hk, hst3⟩
      · subst hk; subst hst3
        rw [if_neg (by simp [entIdent]), ih _ h]
      · subst hk; subst hst3
        rw [if_neg (by simp [entIdent]), ih _ h]
      · subst hst3
        rw [if_pos (by simp [hk]), ih _ h]
        rfl

theorem scanEnt_props (m : NbtMap) (tag : String) (uuid : Value) (props : NbtMap)
    (hnodup : (NbtMap.keysOf m).Nodup)
    (h : scanEnt m = .ok (tag, uuid, props)) :
    ∀ q, entIdent q = false → NbtMap.lookup props q = NbtMap.lookup m q := by
  intro q hq
  simp only [scanEnt] at h
  cases haux : scanEntAux m ⟨none, none, []⟩ with
  | error e => rw [haux] at h; cases h
  | ok st =>
    rw [haux] at h
    have hp := scanEntAux_props m _ st haux
    cases hid : st.esid with
    | none => simp only [hid] at h; exact Except.noConfusion h
    | some id =>
      cases hu : st.euuid with
      | none => simp only [hid, hu] at h; exact Except.noConfusion h
      | some u =>
        simp only [hid, hu, Except.ok.injEq, Prod.mk.injEq] at h
        have hprops : props = st.eprops := h.2.2.symm
        rw [hprops, hp,
          foldInsert_nil_of_nodup _ (keysOf_filter_nodup m _ hnodup),
          lookup_filter m _ q hnodup]
        cases hmq : NbtMap.lookup m q with
        | none => rfl
        | some w => simp [hq]

theorem scanEntStep_fills (k : String) (v : Value) (st st2 : EntScan)
    (h : scanEntStep k v st = .ok st2) (hk : entIdent k = true) :
    entSlotFilled k st2 = true := by
  rcases scanEntStep_ok k v st st2 h with
    ⟨hk1, s, _, _, hst2⟩ | ⟨hk1, u, _, _, hst2⟩ | ⟨hk1, hst2⟩
  · subst hk1; subst hst2; rfl
  · subst hk1; subst hst2; rfl
  · rw [hk1] at hk; cases hk

theorem scanEntStep_mono (k' : String) (v : Value) (st st2 : EntScan) (k : String)
    (h : scanEntStep k' v st = .ok st2)
    (hfill : entSlotFilled k st = true) :
    entSlotFilled k st2 = true := by
  rcases scanEntStep_ok k' v st st2 h with
    ⟨hk1, s, _, _, hst2⟩ | ⟨hk1, u, _, _, hst2⟩ | ⟨hk1, hst2⟩ <;>
    subst hst2 <;>
    · simp only [entSlotFilled] at hfill ⊢
      by_cases e1 : k = "id" <;> by_cases e2 : k = "UUID" <;> simp_all

theorem scanEntStep_dup (k : String) (v : Value) (st : EntScan)
    (hk : entIdent k = true) (hfill : entSlotFilled k st = true) :
    scanEntStep k v st = .error (.duplicateField k) := by
  simp only [entIdent, Bool.or_eq_true, beq_iff_eq] at hk
  rcases hk with hk | hk <;> subst hk
  · have hfill2 : st.esid.isSome = true := by simpa [entSlotFilled] using hfill
    simp [scanEntStep, hfill2]
  · have hfill2 : st.euuid.isSome = true := by simpa [entSlotFilled] using hfill
    simp [scanEntStep, hfill2]

theorem scanEntAux_filled_not_mem (l : NbtMap) (st st2 : EntScan) (k : String)
    (h : scanEntAux l st = .ok st2) (hk : entIdent k = true)
    (hfill : entSlotFilled k st = true) :
    k ∉ NbtMap.keysOf l := by
  induction l generalizing st with
  | nil => simp [NbtMap.keysOf]
  | cons kv rest ih =>
    obtain ⟨k', v⟩ := kv
    simp only [scanEntAux] at h
    cases hstep : scanEntStep k' v st with
    | error e => rw [hstep] at h; cases h
    | ok st3 =>
      rw [hstep] at h
      by_cases hkk : k' = k
      · subst hkk
        rw [scanEntStep_dup k' v st hk hfill] at hstep
        exact Except.noConfusion hstep
      · have hnot := ih st3 h (scanEntStep_mono k' v st st3 k hstep hfill)
        simp only [NbtMap.keysOf, List.map, List.mem_cons]
        push_neg
        exact ⟨fun hc => hkk hc.symm, by simpa [NbtMap.keysOf] using hnot⟩

theorem scanEntAux_append (l₁ l₂ : NbtMap) (st : EntScan) :
    scanEntAux (l₁ ++ l₂) st =
      match scanEntAux l₁ st with
      | .ok st1 => scanEntAux l₂ st1
      | .error e => .error e := by
  induction l₁ generalizing st with
  | nil => simp [scanEntAux]
  | cons kv rest ih =>
    obtain ⟨k, v⟩ := kv
    simp only [List.cons_append, scanEntAux]
    cases hstep : scanEntStep k v st with
    | error e => rfl
    | ok st3 => exact ih st3

theorem scanEnt_no_second (l₁ l₂ : NbtMap) (k : String) (v : Value)
    (out : String × Value × NbtMap)
    (hk : entIdent k = true)
    (h : scanEnt (l₁ ++ (k, v) :: l₂) = .ok out) :
    k ∉ NbtMap.keysOf l₂ := by
  simp only [scanEnt] at h
  cases haux : scanEntAux (l₁ ++ (k, v) :: l₂) ⟨none, none, []⟩ with
  | error e => rw [haux] at h; cases h
  | ok st =>
    rw [scanEntAux_append] at haux
    cases haux1 : scanEntAux l₁ ⟨none, none, []⟩ with
    | error e => rw [haux1] at haux; cases haux
    | ok st1 =>
      rw [haux1] at haux
      simp only [scanEntAux] at haux
      cases hstep : scanEntStep k v st1 with
      | error e => rw [hstep] at haux; cases haux
      | ok st2 =>
        rw [hstep] at haux
        exact scanEntAux_filled_not_mem l₂ st2 st k haux hk
          (scanEntStep_fills k v st1 st2 hstep hk)

/-! ## Characterizing untagged resolution

The loop generated for a missing `id` is a single pass over the table in
declared order; a candidate is attempted exactly when its `unused_keys`
count is zero, and the first successful typed decode wins.  There is no
partition of the candidates by required fields. -/

theorem firstUntagged_eq_findSome (table : List TableEntry) (props : NbtMap) :
    firstUntagged table props = table.findSome? (fun e => attemptUntagged e props) := by
  induction table with
  | nil => rfl
  | cons e rest ih =>
    rw [List.findSome?_cons]
    by_cases hu : unusedKeys e.fields props = 0
    · simp only [firstUntagged, attemptUntagged, if_pos hu]
      cases hdec : decodeShape e.shape props with
      | ok p =>
        obtain ⟨r, lo⟩ := p
        rfl
      | error err => exact ih
    · simp only [firstUntagged, attemptUntagged, if_neg hu]
      exact ih

theorem firstUntagged_decodes (table : List TableEntry) (props : NbtMap)
    (e : TableEntry) (r : Record)
    (h : firstUntagged table props = some (e, r)) :
    e ∈ table ∧ unusedKeys e.fields props = 0 ∧
      ∃ lo, decodeShape e.shape props = .ok (r, lo) := by
  induction table with
  | nil => cases h
  | cons e2 rest ih =>
    simp only [firstUntagged] at h
    by_cases hu : unusedKeys e2.fields props = 0
    · rw [if_pos hu] at h
      cases hdec : decodeShape e2.shape props with
      | ok p =>
        obtain ⟨r2, lo2⟩ := p
        rw [hdec] at h
        simp only [Option.some.injEq, Prod.mk.injEq] at h
        obtain ⟨he, hr⟩ := h
        subst he
        subst hr
        exact ⟨by simp, hu, lo2, hdec⟩
      | error err =>
        rw [hdec] at h
        obtain ⟨hm, hu2, hd⟩ := ih h
        exact ⟨by simp [hm], hu2, hd⟩
    · rw [if_neg hu] at h
      obtain ⟨hm, hu2, hd⟩ := ih h
      exact ⟨by simp [hm], hu2, hd⟩

/-- With `x`, `y`, `z` present and outside the variant's field list, an
`unused_keys` count of zero forces every other key of the mapping into the
field list: the `- 3` exactly absorbs the three coordinates. -/
theorem unusedKeys_zero_cover (fields : List String) (props : NbtMap)
    (hx : "x" ∈ NbtMap.keysOf props) (hy : "y" ∈ NbtMap.keysOf props)
    (hz : "z" ∈ NbtMap.keysOf props)
    (hfx : "x" ∉ fields) (hfy : "y" ∉ fields) (hfz : "z" ∉ fields)
    (h0 : unusedKeys fields props = 0) :
    ∀ k ∈ NbtMap.keysOf props, k ∉ fields → k = "x" ∨ k = "y" ∨ k = "z" := by
  intro k hk hkf
  by_contra hcon
  push_neg at hcon
  obtain ⟨hk1, hk2, hk3⟩ := hcon
  have hmem : ∀ q ∈ ["x", "y", "z", k], q ∈
      (NbtMap.keysOf props).filter (fun q => ¬ fields.contains q) := by
    intro q hq
    simp only [List.mem_filter, decide_eq_true_eq]
    simp only [List.mem_cons, List.not_mem_nil, or_false] at hq
    rcases hq with hq | hq | hq | hq <;> subst hq
    · exact ⟨hx, by simpa using hfx⟩
    · exact ⟨hy, by simpa using hfy⟩
    · exact ⟨hz, by simpa using hfz⟩
    · exact ⟨hk, by simpa using hkf⟩
  have hnd : (["x", "y", "z", k] : List String).Nodup := by
    refine List.nodup_cons.mpr ⟨?_, List.nodup_cons.mpr ⟨?_,
      List.nodup_cons.mpr ⟨?_, List.nodup_singleton k⟩⟩⟩
    · intro hmem2
      simp only [List.mem_cons, List.mem_singleton, List.not_mem_nil, or_false] at hmem2
      rcases hmem2 with h | h | h
      · exact absurd h (by decide)
      · exact absurd h (by decide)
      · exact hk1 h.symm
    · intro hmem2
      simp only [List.mem_cons, List.mem_singleton, List.not_mem_nil, or_false] at hmem2
      rcases hmem2 with h | h
      · exact absurd h (by decide)
      · exact hk2 h.symm
    · intro hmem2
      simp only [List.mem_singleton] at hmem2
      exact hk3 hmem2.symm
  have hlen : 4 ≤ ((NbtMap.keysOf props).filter (fun q => ¬ fields.contains q)).length :=
    (hnd.subperm (fun q hq => hmem q hq)).length_le
  have hfil : ((NbtMap.keysOf props).filter (fun q => ¬ fields.contains q)).length - 3 = 0 :=
    h0
  omega

/-! ## Identity fields in the flattened form of a well-typed record

`as_generic` pulls the identity keys (`x`, `y`, `z` for block entities,
`UUID` for entities) back out of the flattened map and panics when one is
absent or of the wrong kind.  For a record that is well typed for a chain
claiming those keys as required fields, with extension bags that avoid the
chain's field names, the flattened form always carries them in canonical
form. -/

theorem valsB_canon (own : List FieldSpec) (vals : List (String × Option Value))
    (h : ValsOkB own vals = true) (q : String) (fs : FieldSpec) (v : Value)
    (hfs : findSpec own q = some fs)
    (hv : slotLookup vals q = some (some v)) :
    decodePrim fs.fty v = some v := by
  induction own generalizing vals with
  | nil => cases hfs
  | cons f rest ih =>
    cases vals with
    | nil => simp [ValsOkB] at h
    | cons kv vs =>
      obtain ⟨k, ov⟩ := kv
      simp only [ValsOkB, Bool.and_eq_true, beq_iff_eq] at h
      obtain ⟨⟨⟨hk, _⟩, hcanon⟩, hrest⟩ := h
      by_cases hq : f.fname = q
      · have hfs2 : fs = f := by
          simp only [findSpec, List.find?, decide_eq_true hq, Option.some.injEq] at hfs
          exact hfs.symm
        subst hfs2
        have hkq : k = q := hk.trans hq
        simp only [slotLookup, if_pos hkq, Option.some.injEq] at hv
        subst hv
        simpa using hcanon
      · have hfs2 : findSpec rest q = some fs := by
          simp only [findSpec, List.find?] at hfs ⊢
          rw [decide_eq_false hq] at hfs
          exact hfs
        have hkq : ¬ k = q := fun hc => hq (hk.symm.trans hc ▸ rfl)
        simp only [slotLookup, if_neg hkq] at hv
        exact ih vs hrest hfs2 hv

theorem extrasDisjointB_mono (names names2 : List String) (r : Record)
    (hsub : ∀ k, k ∈ names2 → k ∈ names)
    (h : extrasDisjointB names r = true) : extrasDisjointB names2 r = true := by
  induction r with
  | root vals extra =>
    simp only [extrasDisjointB, Bool.and_eq_true, List.all_eq_true,
      decide_eq_true_eq] at h ⊢
    exact ⟨h.1, fun k hk hm => h.2 k hk (hsub k hm)⟩
  | node vals extra p ih =>
    simp only [extrasDisjointB, Bool.and_eq_true, List.all_eq_true,
      decide_eq_true_eq] at h ⊢
    exact ⟨⟨h.1.1, fun k hk hm => h.1.2 k hk (hsub k hm)⟩, ih h.2⟩

theorem findSpecChain_mem (s : Shape) (q : String) (fs : FieldSpec)
    (h : findSpecChain s q = some fs) : q ∈ s.chainNames := by
  induction s with
  | root own ex =>
    simp only [findSpecChain] at h
    obtain ⟨hm, hn⟩ := findSpec_isSome_mem own q fs h
    simp only [Shape.chainNames]
    exact hn ▸ List.mem_map_of_mem FieldSpec.fname hm
  | node own ex parent ih =>
    simp only [findSpecChain] at h
    cases hfso : findSpec own q with
    | some fs2 =>
      obtain ⟨hm, hn⟩ := findSpec_isSome_mem own q fs2 hfso
      simp only [Shape.chainNames, List.mem_append]
      exact Or.inl (hn ▸ List.mem_map_of_mem FieldSpec.fname hm)
    | none =>
      rw [hfso] at h
      simp only [Shape.chainNames, List.mem_append]
      exact Or.inr (ih h)

theorem flatLookup_none (s : Shape) (r : Record) (names : List String) (q : String)
    (hwt : WTRecordB s r = true)
    (hex : extrasDisjointB names r = true)
    (hqn : q ∈ names)
    (hq : q ∉ s.chainNames) :
    flatLookup r q = none := by
  induction s generalizing r with
  | root own ex =>
    cases r with
    | node vals extra pr => simp [WTRecordB] at hwt
    | root vals extra =>
      simp only [WTRecordB, Bool.and_eq_true] at hwt
      simp only [extrasDisjointB, Bool.and_eq_true, List.all_eq_true,
        decide_eq_true_eq] at hex
      have hextra : NbtMap.lookup extra q = none := by
        apply lookup_eq_none_of_not_mem
        intro hc
        exact hex.2 q hc hqn
      have hslot : slotLookup vals q = none := by
        apply slotLookup_eq_none_of_not_mem
        rw [valsB_names own vals hwt.1]
        simpa [Shape.chainNames] using hq
      simp [flatLookup, hextra, slotPart, hslot, orElseV]
  | node own ex parent ih =>
    cases r with
    | root vals extra => simp [WTRecordB] at hwt
    | node vals extra pr =>
      simp only [WTRecordB, Bool.and_eq_true] at hwt
      simp only [extrasDisjointB, Bool.and_eq_true, List.all_eq_true,
        decide_eq_true_eq] at hex
      have hextra : NbtMap.lookup extra q = none := by
        apply lookup_eq_none_of_not_mem
        intro hc
        exact hex.1.2 q hc hqn
      have hq2 : q ∉ Shape.chainNames parent := by
        simp only [Shape.chainNames, List.mem_append] at hq
        push_neg at hq
        exact hq.2
      have hslot : slotLookup vals q = none := by
        apply slotLookup_eq_none_of_not_mem
        rw [valsB_names own vals hwt.1]
        simp only [Shape.chainNames, List.mem_append] at hq
        push_neg at hq
        exact hq.1
      simp [flatLookup, hextra, slotPart, hslot, orElseV, ih pr hwt.2 hex.2 hq2]

theorem flatLookup_required (s : Shape) (r : Record) (q : String) (fs : FieldSpec)
    (hchain : s.chainNames.Nodup)
    (hwt : WTRecordB s r = true)
    (hex : extrasDisjointB s.chainNames r = true)
    (hfs : findSpecChain s q = some fs)
    (hreq : fs.optional = false) :
    ∃ v, flatLookup r q = some v ∧ decodePrim fs.fty v = some v := by
  induction s generalizing r with
  | root own ex =>
    cases r with
    | node vals extra pr => simp [WTRecordB] at hwt
    | root vals extra =>
      simp only [WTRecordB, Bool.and_eq_true] at hwt
      simp only [extrasDisjointB, Bool.and_eq_true, List.all_eq_true,
        decide_eq_true_eq] at hex
      simp only [findSpecChain] at hfs
      obtain ⟨hfsm, hfname⟩ := findSpec_isSome_mem own q fs hfs
      have hqchain : q ∈ Shape.chainNames (Shape.root own ex) := by
        simp only [Shape.chainNames]
        exact hfname ▸ List.mem_map_of_mem FieldSpec.fname hfsm
      have hextra : NbtMap.lookup extra q = none := by
        apply lookup_eq_none_of_not_mem
        intro hc
        exact hex.2 q hc hqchain
      obtain ⟨v, hv⟩ := valsB_required own vals hwt.1
        (by simpa [Shape.chainNames] using hchain) fs hfsm hreq
      rw [hfname] at hv
      refine ⟨v, ?_, valsB_canon own vals hwt.1 q fs v hfs hv⟩
      simp [flatLookup, hextra, orElseV, slotPart, hv]
  | node own ex parent ih =>
    cases r with
    | root vals extra => simp [WTRecordB] at hwt
    | node vals extra pr =>
      simp only [WTRecordB, Bool.and_eq_true] at hwt
      simp only [extrasDisjointB, Bool.and_eq_true, List.all_eq_true,
        decide_eq_true_eq] at hex
      have hqchain : q ∈ Shape.chainNames (Shape.node own ex parent) :=
        findSpecChain_mem (Shape.node own ex parent) q fs hfs
      have hextra : NbtMap.lookup extra q = none := by
        apply lookup_eq_none_of_not_mem
        intro hc
        exact hex.1.2 q hc hqchain
      have hchain2 : (own.map FieldSpec.fname).Nodup ∧ (Shape.chainNames parent).Nodup ∧
          ∀ a, a ∈ own.map FieldSpec.fname → a ∈ Shape.chainNames parent → False := by
        have := hchain
        simp only [Shape.chainNames] at this
        rw [List.nodup_append] at this
        exact ⟨this.1, this.2.1, fun a h1 h2 => this.2.2 h1 h2⟩
      simp only [findSpecChain] at hfs
      cases hfso : findSpec own q with
      | some fs2 =>
        rw [hfso] at hfs
        simp only [Option.some.injEq] at hfs
        subst hfs
        obtain ⟨hfsm, hfname⟩ := findSpec_isSome_mem own q fs2 hfso
        have hqown : q ∈ own.map FieldSpec.fname :=
          hfname ▸ List.mem_map_of_mem FieldSpec.fname hfsm
        have hpar : flatLookup pr q = none := by
          apply flatLookup_none parent pr
            (Shape.chainNames (Shape.node own ex parent)) q hwt.2
            hex.2
          · simp [Shape.chainNames, hqown]
          · intro hc
            exact hchain2.2.2 q hqown hc
        obtain ⟨v, hv⟩ := valsB_required own vals hwt.1 hchain2.1 fs2 hfsm hreq
        rw [hfname] at hv
        refine ⟨v, ?_, valsB_canon own vals hwt.1 q fs2 v hfso hv⟩
        simp [flatLookup, hextra, orElseV, slotPart, hv, hpar]
      | none =>
        rw [hfso] at hfs
        have hexp : extrasDisjointB (Shape.chainNames parent) pr = true := by
          apply extrasDisjointB_mono _ _ _ _ hex.2
          intro a ha
          simp [Shape.chainNames, ha]
        obtain ⟨v, hv, hcanon⟩ := ih pr hchain2.2.1 hwt.2 hexp hfs
        refine ⟨v, ?_, hcanon⟩
        simp [flatLookup, hextra, orElseV, hv]

theorem levelsNodup_of_WT (s : Shape) (r : Record)
    (hchain : s.chainNames.Nodup)
    (hwt : WTRecordB s r = true)
    (hex : extrasDisjointB s.chainNames r = true) :
    r.levelsNodup := by
  induction s generalizing r with
  | root own ex =>
    cases r with
    | node vals extra pr => simp [WTRecordB] at hwt
    | root vals extra =>
      simp only [WTRecordB, Bool.and_eq_true] at hwt
      simp only [extrasDisjointB, Bool.and_eq_true, List.all_eq_true,
        decide_eq_true_eq] at hex
      constructor
      · rw [valsB_names own vals hwt.1]
        simpa [Shape.chainNames] using hchain
      · exact hex.1
  | node own ex parent ih =>
    cases r with
    | root vals extra => simp [WTRecordB] at hwt
    | node vals extra pr =>
      simp only [WTRecordB, Bool.and_eq_true] at hwt
      simp only [extrasDisjointB, Bool.and_eq_true, List.all_eq_true,
        decide_eq_true_eq] at hex
      have hchain2 := hchain
      simp only [Shape.chainNames] at hchain2
      rw [List.nodup_append] at hchain2
      refine ⟨?_, ?_, ?_⟩
      · rw [valsB_names own vals hwt.1]
        exact hchain2.1
      · exact hex.1.1
      · apply ih pr hchain2.2.1 hwt.2
        apply extrasDisjointB_mono _ _ _ _ hex.2
        intro a ha
        simp [Shape.chainNames, ha]

theorem decodePrim_intT (v : Value) (h : decodePrim .intT v = some v) :
    ∃ n, v = .int n := by
  simp only [decodePrim] at h
  cases hw : inWidth i32Min i32Max v with
  | none => rw [hw] at h; cases h
  | some n =>
    rw [hw] at h
    have h2 : Value.int n = v := by simpa using h
    exact ⟨n, h2.symm⟩

theorem decodePrim_uuidT (v : Value) (h : decodePrim .uuidT v = some v) :
    decodeU128 v = some v := h

/-! ## Small helpers for the dispatch layer -/

theorem findEntry_eid (table : List TableEntry) (tag : String) (e : TableEntry)
    (h : findEntry table tag = some e) : e.eid = tag := by
  have h2 := List.find?_some h
  simpa using h2

theorem findEntEntry_eeid (table : List EntityTableEntry) (tag : String)
    (e : EntityTableEntry) (h : findEntEntry table tag = some e) : e.eeid = tag := by
  have h2 := List.find?_some h
  simpa using h2

theorem lookup_insertXYZ (x y z : Int) (props : NbtMap) (q : String) :
    NbtMap.lookup (insertXYZ x y z props) q =
      if q = "z" then some (.int z)
      else if q = "y" then some (.int y)
      else if q = "x" then some (.int x)
      else NbtMap.lookup props q := by
  simp only [insertXYZ, lookup_insert]

theorem lookup_removeXYZ (props : NbtMap) (q : String) :
    NbtMap.lookup (removeXYZ props) q =
      if q = "x" ∨ q = "y" ∨ q = "z" then none else NbtMap.lookup props q := by
  simp only [removeXYZ, lookup_removeKey]
  by_cases h1 : q = "x" <;> by_cases h2 : q = "y" <;> by_cases h3 : q = "z" <;>
    simp [h1, h2, h3]

/-! # The claims -/

/-- C1: for a flat mapping whose tag is present in the dispatch table, decoding
never propagates a typed-decode failure past the dispatch boundary: when
`from_value` fails for any reason, the result is a `.ok` Generic value that
keeps the tag string, the identity fields, and every non-identity field of
the input verbatim.  Stated for block entities and entities together. -/
theorem c1_fallback_preserves (table : List TableEntry) (m : NbtMap) (s : BEScan)
    (tag : String) (e : TableEntry) (err : DecodeErr)
    (etable : List EntityTableEntry) (m₂ : NbtMap) (tag₂ : String) (uuid : Value)
    (props₂ : NbtMap) (ee : EntityTableEntry) (err₂ : DecodeErr)
    (hnodup : (NbtMap.keysOf m).Nodup)
    (hscan : scanBE m = .ok s)
    (hsid : s.sid = some tag)
    (hfind : findEntry table tag = some e)
    (hfail : decodeShape e.shape (insertXYZ s.sx s.sy s.sz s.props) = .error err)
    (hnodup₂ : (NbtMap.keysOf m₂).Nodup)
    (hscan₂ : scanEnt m₂ = .ok (tag₂, uuid, props₂))
    (hfind₂ : findEntEntry etable tag₂ = some ee)
    (hfail₂ : decodeShape ee.eshape (NbtMap.insert props₂ "UUID" uuid) = .error err₂) :
    (∃ g, decodeBlockEntity table m = .ok (.other g) ∧
      g.gid = tag ∧ g.pos = ⟨s.sx, s.sy, s.sz⟩ ∧
      ∀ q, beIdent q = false → NbtMap.lookup g.properties q = NbtMap.lookup m q) ∧
    (∃ g₂, decodeEntity etable m₂ = .ok (.other g₂) ∧
      g₂.egid = tag₂ ∧ g₂.uuid = uuid ∧
      ∀ q, entIdent q = false →
        NbtMap.lookup g₂.eproperties q = NbtMap.lookup m₂ q) := by
  constructor
  · refine ⟨⟨e.eid, ⟨s.sx, s.sy, s.sz⟩, removeXYZ (insertXYZ s.sx s.sy s.sz s.props)⟩,
      ?_, findEntry_eid table tag e hfind, rfl, ?_⟩
    · simp only [decodeBlockEntity, hscan, Except.map, dispatchBE, hsid, hfind, hfail]
    · intro q hq
      have hqs : ((¬ (q = "id") ∧ ¬ (q = "x")) ∧ ¬ (q = "y")) ∧ ¬ (q = "z") := by
        simpa [beIdent] using hq
      show NbtMap.lookup (removeXYZ (insertXYZ s.sx s.sy s.sz s.props)) q = _
      rw [lookup_removeXYZ,
        if_neg (by simp [hqs.1.1.2, hqs.1.2, hqs.2]),
        lookup_insertXYZ, if_neg hqs.2, if_neg hqs.1.2, if_neg hqs.1.1.2]
      exact scanBE_props m s hnodup hscan q hq
  · refine ⟨⟨ee.eeid, uuid, NbtMap.removeKey (NbtMap.insert props₂ "UUID" uuid) "UUID"⟩,
      ?_, findEntEntry_eeid etable tag₂ ee hfind₂, rfl, ?_⟩
    · simp only [decodeEntity, hscan₂, Except.map, dispatchEnt, hfind₂, hfail₂]
    · intro q hq
      have hqs : ¬ (q = "id") ∧ ¬ (q = "UUID") := by
        simpa [entIdent] using hq
      show NbtMap.lookup (NbtMap.removeKey (NbtMap.insert props₂ "UUID" uuid) "UUID") q = _
      rw [lookup_removeKey, if_neg hqs.2, lookup_insert, if_neg hqs.2]
      exact scanEnt_props m₂ tag₂ uuid props₂ hnodup₂ hscan₂ q hq

/-- C1's theorem at a concrete input: a sign missing its required `Text1`
and a pig missing its required `Saddle` both fall back to Generic values
preserving the input. -/
theorem c1_witness :
    (∃ g, decodeBlockEntity [signEntry]
        [("id", .string "minecraft:sign"), ("x", .int 1), ("y", .int 2), ("z", .int 3),
          ("CustomName", .string "n")] = .ok (.other g) ∧
      g.gid = "minecraft:sign" ∧ g.pos = ⟨1, 2, 3⟩ ∧
      ∀ q, beIdent q = false → NbtMap.lookup g.properties q =
        NbtMap.lookup [("id", .string "minecraft:sign"), ("x", .int 1), ("y", .int 2),
          ("z", .int 3), ("CustomName", .string "n")] q) ∧
    (∃ g₂, decodeEntity [pigEntry]
        [("id", .string "minecraft:pig"), ("UUID", .intArray [1, 2, 3, 4])] =
          .ok (.other g₂) ∧
      g₂.egid = "minecraft:pig" ∧ g₂.uuid = .intArray [1, 2, 3, 4] ∧
      ∀ q, entIdent q = false → NbtMap.lookup g₂.eproperties q =
        NbtMap.lookup [("id", .string "minecraft:pig"),
          ("UUID", .intArray [1, 2, 3, 4])] q) :=
  c1_fallback_preserves [signEntry] _ ⟨some "minecraft:sign", 1, 2, 3, [("CustomName", .string "n")]⟩
    "minecraft:sign" signEntry (.missingField "Text1")
    [pigEntry] _ "minecraft:pig" (.intArray [1, 2, 3, 4]) [] pigEntry (.missingField "Saddle")
    (by decide) rfl rfl rfl rfl
    (by decide) rfl rfl rfl

/-- C7: a tag string not present in the static table dispatches straight to a
Generic value carrying the unknown tag and all non-identity fields as
properties, for any table contents and without any typed decode (the result
does not depend on the shapes at all).  Stated for block entities and
entities together. -/
theorem c7_unknown_tag (table : List TableEntry) (m : NbtMap) (s : BEScan)
    (tag : String)
    (etable : List EntityTableEntry) (m₂ : NbtMap) (tag₂ : String) (uuid : Value)
    (props₂ : NbtMap)
    (hnodup : (NbtMap.keysOf m).Nodup)
    (hscan : scanBE m = .ok s)
    (hsid : s.sid = some tag)
    (hfind : findEntry table tag = none)
    (hnodup₂ : (NbtMap.keysOf m₂).Nodup)
    (hscan₂ : scanEnt m₂ = .ok (tag₂, uuid, props₂))
    (hfind₂ : findEntEntry etable tag₂ = none) :
    (decodeBlockEntity table m = .ok (.other ⟨tag, ⟨s.sx, s.sy, s.sz⟩, s.props⟩) ∧
      ∀ q, beIdent q = false → NbtMap.lookup s.props q = NbtMap.lookup m q) ∧
    (decodeEntity etable m₂ = .ok (.other ⟨tag₂, uuid, props₂⟩) ∧
      ∀ q, entIdent q = false → NbtMap.lookup props₂ q = NbtMap.lookup m₂ q) := by
  refine ⟨⟨?_, scanBE_props m s hnodup hscan⟩,
    ⟨?_, scanEnt_props m₂ tag₂ uuid props₂ hnodup₂ hscan₂⟩⟩
  · simp only [decodeBlockEntity, hscan, Except.map, dispatchBE, hsid, hfind]
  · simp only [decodeEntity, hscan₂, Except.map, dispatchEnt, hfind₂]

/-- C7's theorem at a concrete input: the spec's Scenario C, an unknown tag
with one property, plus the entity counterpart. -/
theorem c7_witness :
    (decodeBlockEntity [signEntry]
        [("id", .string "mod:custom_block"), ("x", .int 0), ("y", .int 0), ("z", .int 0),
          ("foo", .int 1)] =
        .ok (.other ⟨"mod:custom_block", ⟨0, 0, 0⟩, [("foo", .int 1)]⟩) ∧
      ∀ q, beIdent q = false →
        NbtMap.lookup [("foo", Value.int 1)] q =
          NbtMap.lookup [("id", .string "mod:custom_block"), ("x", .int 0), ("y", .int 0),
            ("z", .int 0), ("foo", .int 1)] q) ∧
    (decodeEntity [pigEntry]
        [("id", .string "mod:custom_entity"), ("UUID", .intArray [0, 0, 0, 0]),
          ("foo", .int 1)] =
        .ok (.other ⟨"mod:custom_entity", .intArray [0, 0, 0, 0], [("foo", .int 1)]⟩) ∧
      ∀ q, entIdent q = false →
        NbtMap.lookup [("foo", Value.int 1)] q =
          NbtMap.lookup [("id", .string "mod:custom_entity"),
            ("UUID", .intArray [0, 0, 0, 0]), ("foo", .int 1)] q) :=
  c7_unknown_tag [signEntry] _ ⟨some "mod:custom_block", 0, 0, 0, [("foo", .int 1)]⟩
    "mod:custom_block" [pigEntry] _ "mod:custom_entity" (.intArray [0, 0, 0, 0])
    [("foo", .int 1)]
    (by decide) rfl rfl rfl (by decide) rfl rfl

/-- C10: a block-entity compound with no `id` but with coordinates decodes to
a `GenericBlockEntity` whose id is the empty string (while a missing
coordinate is a `missing_field` error), and serializing a generic value
with an empty id omits the `id` entry entirely while always emitting the
three coordinates. -/
theorem c10_empty_id (m : NbtMap) (st : BEState) (x y z : Int) (g : GenericBlockEntity)
    (haux : scanBEAux m ⟨none, none, none, none, []⟩ = .ok st)
    (hid : st.stId = none)
    (hx : st.stX = some x) (hy : st.stY = some y) (hz : st.stZ = some z)
    (hg : g.gid = "") :
    decodeGenericBE m = .ok ⟨"", ⟨x, y, z⟩, st.stProps⟩ ∧
    serializeGenericBE g =
      ("x", Value.int g.pos.x) :: ("y", Value.int g.pos.y) :: ("z", Value.int g.pos.z) ::
        g.properties ∧
    (∀ m' st', scanBEAux m' ⟨none, none, none, none, []⟩ = .ok st' → st'.stX = none →
      scanBE m' = .error (.missingField "x")) := by
  refine ⟨?_, ?_, ?_⟩
  · simp only [decodeGenericBE, scanBE, haux, hx, hy, hz, Except.map, hid]
    rfl
  · simp only [serializeGenericBE, if_pos hg]
    simp
  · intro m' st' haux' hx'
    simp only [scanBE, haux', hx']

/-- C10's theorem at a concrete input. -/
theorem c10_witness :
    decodeGenericBE [("x", .int 5), ("y", .int 6), ("z", .int 7), ("Items", .byte 0)] =
      .ok ⟨"", ⟨5, 6, 7⟩, [("Items", .byte 0)]⟩ ∧
    serializeGenericBE ⟨"", ⟨5, 6, 7⟩, [("CustomName", .string "hi")]⟩ =
      ("x", Value.int 5) :: ("y", Value.int 6) :: ("z", Value.int 7) ::
        [("CustomName", Value.string "hi")] ∧
    (∀ m' st', scanBEAux m' ⟨none, none, none, none, []⟩ = .ok st' → st'.stX = none →
      scanBE m' = .error (.missingField "x")) :=
  c10_empty_id _ ⟨none, some 5, some 6, some 7, [("Items", .byte 0)]⟩ 5 6 7
    ⟨"", ⟨5, 6, 7⟩, [("CustomName", .string "hi")]⟩ rfl rfl rfl rfl rfl rfl

/-- C6: equality of two Variants is structural equality of their canonicalized
Generic forms, field for field, with order-independent mapping comparison
(`MapEq`), and on values that have a canonical form (where `as_generic`
does not panic) it is reflexive, symmetric and transitive; in particular a
Typed value and a Generic value with the same canonical form compare
equal.  Stated for block entities and entities together. -/
theorem c6_canonical_equality (a b : BEVariant) (g₁ g₂ : GenericBlockEntity)
    (ea eb : EntVariant) (h₁ h₂ : GenericEntity)
    (ha : asGenericBE a = some g₁) (hb : asGenericBE b = some g₂)
    (hea : asGenericEnt ea = some h₁) (heb : asGenericEnt eb = some h₂) :
    (BEVariantEq a b ↔ GenEqBE g₁ g₂) ∧
    BEVariantEq a a ∧
    (BEVariantEq a b → BEVariantEq b a) ∧
    (∀ c g₃, asGenericBE c = some g₃ → BEVariantEq a b → BEVariantEq b c →
      BEVariantEq a c) ∧
    (EntVariantEq ea eb ↔ GenEqEnt h₁ h₂) ∧
    EntVariantEq ea ea ∧
    (EntVariantEq ea eb → EntVariantEq eb ea) ∧
    (∀ ec h₃, asGenericEnt ec = some h₃ → EntVariantEq ea eb → EntVariantEq eb ec →
      EntVariantEq ea ec) := by
  refine ⟨?_, ?_, ?_, ?_, ?_, ?_, ?_, ?_⟩
  · constructor
    · rintro ⟨g₁', g₂', ha', hb', hgen⟩
      rw [ha] at ha'
      rw [hb] at hb'
      cases ha'
      cases hb'
      exact hgen
    · intro hgen
      exact ⟨g₁, g₂, ha, hb, hgen⟩
  · exact ⟨g₁, g₁, ha, ha, rfl, rfl, fun k => rfl⟩
  · rintro ⟨g₁', g₂', ha', hb', hgen⟩
    exact ⟨g₂', g₁', hb', ha', hgen.1.symm, hgen.2.1.symm, fun k => (hgen.2.2 k).symm⟩
  · rintro c g₃ hc ⟨g₁', gb', ha', hb', hab⟩ ⟨gb'', g₃', hb'', hc', hbc⟩
    rw [hb] at hb'
    rw [hb] at hb''
    cases hb'
    cases hb''
    exact ⟨g₁', g₃', ha', hc', hab.1.trans hbc.1, hab.2.1.trans hbc.2.1,
      fun k => (hab.2.2 k).trans (hbc.2.2 k)⟩
  · constructor
    · rintro ⟨h₁', h₂', hea', heb', hgen⟩
      rw [hea] at hea'
      rw [heb] at heb'
      cases hea'
      cases heb'
      exact hgen
    · intro hgen
      exact ⟨h₁, h₂, hea, heb, hgen⟩
  · exact ⟨h₁, h₁, hea, hea, rfl, rfl, fun k => rfl⟩
  · rintro ⟨h₁', h₂', hea', heb', hgen⟩
    exact ⟨h₂', h₁', heb', hea', hgen.1.symm, hgen.2.1.symm, fun k => (hgen.2.2 k).symm⟩
  · rintro ec h₃ hc ⟨h₁', hb', hea', heb', hab⟩ ⟨hb'', h₃', heb'', hc', hbc⟩
    rw [heb] at heb'
    rw [heb] at heb''
    cases heb'
    cases heb''
    exact ⟨h₁', h₃', hea', hc', hab.1.trans hbc.1, hab.2.1.trans hbc.2.1,
      fun k => (hab.2.2 k).trans (hbc.2.2 k)⟩

/-- C6's theorem at a concrete input: a Typed sign-position record and the
Generic value with the same canonical form. -/
theorem c6_witness :
    (BEVariantEq (.other ⟨"t", ⟨0, 0, 0⟩, []⟩)
        (.typed "t" (.root [("x", some (.int 0)), ("y", some (.int 0)),
          ("z", some (.int 0))] [])) ↔
      GenEqBE ⟨"t", ⟨0, 0, 0⟩, []⟩ ⟨"t", ⟨0, 0, 0⟩, []⟩) ∧
    BEVariantEq (.other ⟨"t", ⟨0, 0, 0⟩, []⟩) (.other ⟨"t", ⟨0, 0, 0⟩, []⟩) ∧
    (BEVariantEq (.other ⟨"t", ⟨0, 0, 0⟩, []⟩)
        (.typed "t" (.root [("x", some (.int 0)), ("y", some (.int 0)),
          ("z", some (.int 0))] [])) →
      BEVariantEq (.typed "t" (.root [("x", some (.int 0)), ("y", some (.int 0)),
          ("z", some (.int 0))] [])) (.other ⟨"t", ⟨0, 0, 0⟩, []⟩)) ∧
    (∀ c g₃, asGenericBE c = some g₃ →
      BEVariantEq (.other ⟨"t", ⟨0, 0, 0⟩, []⟩)
        (.typed "t" (.root [("x", some (.int 0)), ("y", some (.int 0)),
          ("z", some (.int 0))] [])) →
      BEVariantEq (.typed "t" (.root [("x", some (.int 0)), ("y", some (.int 0)),
          ("z", some (.int 0))] [])) c →
      BEVariantEq (.other ⟨"t", ⟨0, 0, 0⟩, []⟩) c) ∧
    (EntVariantEq (.other ⟨"p", .intArray [1, 2, 3, 4], []⟩)
        (.typed "p" (.root [("UUID", some (.intArray [1, 2, 3, 4]))] [])) ↔
      GenEqEnt ⟨"p", .intArray [1, 2, 3, 4], []⟩ ⟨"p", .intArray [1, 2, 3, 4], []⟩) ∧
    EntVariantEq (.other ⟨"p", .intArray [1, 2, 3, 4], []⟩)
      (.other ⟨"p", .intArray [1, 2, 3, 4], []⟩) ∧
    (EntVariantEq (.other ⟨"p", .intArray [1, 2, 3, 4], []⟩)
        (.typed "p" (.root [("UUID", some (.intArray [1, 2, 3, 4]))] [])) →
      EntVariantEq (.typed "p" (.root [("UUID", some (.intArray [1, 2, 3, 4]))] []))
        (.other ⟨"p", .intArray [1, 2, 3, 4], []⟩)) ∧
    (∀ ec h₃, asGenericEnt ec = some h₃ →
      EntVariantEq (.other ⟨"p", .intArray [1, 2, 3, 4], []⟩)
        (.typed "p" (.root [("UUID", some (.intArray [1, 2, 3, 4]))] [])) →
      EntVariantEq (.typed "p" (.root [("UUID", some (.intArray [1, 2, 3, 4]))] []))
        ec →
      EntVariantEq (.other ⟨"p", .intArray [1, 2, 3, 4], []⟩) ec) :=
  c6_canonical_equality (.other ⟨"t", ⟨0, 0, 0⟩, []⟩)
    (.typed "t" (.root [("x", some (.int 0)), ("y", some (.int 0)),
      ("z", some (.int 0))] []))
    ⟨"t", ⟨0, 0, 0⟩, []⟩ ⟨"t", ⟨0, 0, 0⟩, []⟩
    (.other ⟨"p", .intArray [1, 2, 3, 4], []⟩)
    (.typed "p" (.root [("UUID", some (.intArray [1, 2, 3, 4]))] []))
    ⟨"p", .intArray [1, 2, 3, 4], []⟩ ⟨"p", .intArray [1, 2, 3, 4], []⟩
    rfl rfl rfl rfl

/-- C5's counterexample: `ovRecord` is a Typed Record built directly from
own-field values with an empty extras bag, yet decoding its flattened form
returns a different record — the bag has absorbed the parent's field — so
`unflatten (flatten t) = t` fails as stated. -/
theorem c5_counterexample :
    decodeShape ovShape (Record.flatten ovRecord) =
      .ok (.node [("A", some (.int 1))] [("P", .int 2)]
        (.root [("P", some (.int 2))] []), []) ∧
    (Record.node [("A", some (.int 1))] [("P", Value.int 2)]
      (.root [("P", some (.int 2))] [])) ≠ ovRecord := by
  constructor
  · rfl
  · decide

/-- C5 amended: the typed round trip `unflatten (flatten t) = t` holds for
every well-typed record of a chain whose open-extension bag sits only on
the level with no parent fields left (the shapes the generator emits), with
bag keys disjoint from the chain's field names. -/
theorem c5_roundtrip (s : Shape) (r : Record)
    (hchain : s.chainNames.Nodup)
    (hro : extrasAtRootOnly s = true)
    (hwt : WTRecordB s r = true)
    (hex : extrasOkB s.chainNames r = true) :
    decodeShape s (Record.flatten r) = .ok (r, []) :=
  flatten_decodeShape s r hchain hro hwt hex

/-- C5's amended theorem at a concrete input: a two-level chain with the
extras bag on the root level round-trips, extra keys included. -/
theorem c5_witness :
    decodeShape (.node [⟨"A", false, .intT⟩] false (.root [⟨"P", false, .intT⟩] true))
        (Record.flatten (.node [("A", some (.int 1))] []
          (.root [("P", some (.int 2))] [("E", .string "e")]))) =
      .ok (.node [("A", some (.int 1))] []
        (.root [("P", some (.int 2))] [("E", .string "e")]), []) :=
  c5_roundtrip (.node [⟨"A", false, .intT⟩] false (.root [⟨"P", false, .intT⟩] true))
    (.node [("A", some (.int 1))] [] (.root [("P", some (.int 2))] [("E", .string "e")]))
    (by decide) (by decide) (by decide) (by decide)

/-- C9's counterexample: `as_generic` can panic on a typed (non-Other)
value — here modelled as `none` — when an extras bag shadows an identity
key: `x` for a block entity, `UUID` for an entity. -/
theorem c9_counterexample :
    asGenericBE (.typed "t" shRecord) = none ∧
    asGenericEnt (.typed "p"
      (.root [("UUID", some (.intArray [1, 2, 3, 4]))] [("UUID", .byte 0)])) = none := by
  constructor
  · rfl
  · rfl

/-- C9 amended: for a record well typed for a chain that claims the identity
keys as required fields of the declared kinds, with extension bags — at any
level of the chain — whose duplicate-free keys avoid the chain's field
names, `as_generic` never panics: the flattened map always carries the
identity keys in canonical form.  Stated for block entities (`x`, `y`, `z`
as `Int`) and entities (`UUID`) together. -/
theorem c9_as_generic_total (s : Shape) (r : Record) (tag : String)
    (fx fy fz : FieldSpec)
    (se : Shape) (re : Record) (tage : String) (fu : FieldSpec)
    (hchain : s.chainNames.Nodup) (hwt : WTRecordB s r = true)
    (hex : extrasDisjointB s.chainNames r = true)
    (hfx : findSpecChain s "x" = some fx) (hfxr : fx.optional = false)
    (hfxt : fx.fty = .intT)
    (hfy : findSpecChain s "y" = some fy) (hfyr : fy.optional = false)
    (hfyt : fy.fty = .intT)
    (hfz : findSpecChain s "z" = some fz) (hfzr : fz.optional = false)
    (hfzt : fz.fty = .intT)
    (hchaine : se.chainNames.Nodup) (hwte : WTRecordB se re = true)
    (hexe : extrasDisjointB se.chainNames re = true)
    (hfu : findSpecChain se "UUID" = some fu) (hfur : fu.optional = false)
    (hfut : fu.fty = .uuidT) :
    (∃ g, asGenericBE (.typed tag r) = some g) ∧
    (∃ ge, asGenericEnt (.typed tage re) = some ge) := by
  constructor
  · have hnod := levelsNodup_of_WT s r hchain hwt hex
    obtain ⟨vx, hvx, hcx⟩ := flatLookup_required s r "x" fx hchain hwt hex hfx hfxr
    obtain ⟨vy, hvy, hcy⟩ := flatLookup_required s r "y" fy hchain hwt hex hfy hfyr
    obtain ⟨vz, hvz, hcz⟩ := flatLookup_required s r "z" fz hchain hwt hex hfz hfzr
    rw [hfxt] at hcx
    rw [hfyt] at hcy
    rw [hfzt] at hcz
    obtain ⟨nx, hnx⟩ := decodePrim_intT vx hcx
    obtain ⟨ny, hny⟩ := decodePrim_intT vy hcy
    obtain ⟨nz, hnz⟩ := decodePrim_intT vz hcz
    have hx2 : NbtMap.lookup (Record.flatten r) "x" = some (.int nx) := by
      rw [lookup_flatten r _ hnod, hvx, hnx]
    have hy2 : NbtMap.lookup (Record.flatten r) "y" = some (.int ny) := by
      rw [lookup_flatten r _ hnod, hvy, hny]
    have hz2 : NbtMap.lookup (Record.flatten r) "z" = some (.int nz) := by
      rw [lookup_flatten r _ hnod, hvz, hnz]
    refine ⟨⟨tag, ⟨nx, ny, nz⟩, removeXYZ (Record.flatten r)⟩, ?_⟩
    simp only [asGenericBE, hx2, hy2, hz2]
  · have hnode := levelsNodup_of_WT se re hchaine hwte hexe
    obtain ⟨vu, hvu, hcu⟩ := flatLookup_required se re "UUID" fu hchaine hwte hexe hfu hfur
    rw [hfut] at hcu
    have hu2 : NbtMap.lookup (Record.flatten re) "UUID" = some vu := by
      rw [lookup_flatten re _ hnode, hvu]
    refine ⟨⟨tage, vu, NbtMap.removeKey (Record.flatten re) "UUID"⟩, ?_⟩
    simp only [asGenericEnt, hu2, decodePrim_uuidT vu hcu]

/-- C9's amended theorem at a concrete input: well-typed records of chains
that carry a non-empty open-extension bag above the root, with bag keys
disjoint from the chain's field names. -/
theorem c9_witness :
    (∃ g, asGenericBE (.typed "t"
      (.node [("CustomName", some (.string "n"))] [("ExtraTag", .byte 1)]
        (.root [("x", some (.int 1)), ("y", some (.int 2)),
          ("z", some (.int 3))] []))) = some g) ∧
    (∃ ge, asGenericEnt (.typed "p"
      (.node [("Saddle", some (.byte 1))] [("Owner", .string "a")]
        (.root [("UUID", some (.intArray [1, 2, 3, 4]))] []))) = some ge) :=
  c9_as_generic_total (.node [⟨"CustomName", false, .stringT⟩] true beRoot)
    (.node [("CustomName", some (.string "n"))] [("ExtraTag", .byte 1)]
      (.root [("x", some (.int 1)), ("y", some (.int 2)), ("z", some (.int 3))] []))
    "t" ⟨"x", false, .intT⟩ ⟨"y", false, .intT⟩ ⟨"z", false, .intT⟩
    (.node [⟨"Saddle", false, .boolT⟩] true entRoot)
    (.node [("Saddle", some (.byte 1))] [("Owner", .string "a")]
      (.root [("UUID", some (.intArray [1, 2, 3, 4]))] []))
    "p" ⟨"UUID", false, .uuidT⟩
    (by decide) (by decide) (by decide) rfl rfl rfl rfl rfl rfl rfl rfl rfl
    (by decide) (by decide) (by decide) rfl rfl rfl

/-- C2's counterexample: the spec's Scenario D.  Both the sign-like and the
banner-like chain carry required fields (the root coordinates), the sign
entry stands first in the table and its shape decodes the mapping, yet the
generated loop returns the banner: there is no required/optionals-only
partition and no "first successful unflatten of the required group" — the
loop filters by key coverage (`unused_keys == 0`), which skips the sign
because `Text2` is not among its fields. -/
theorem c2_counterexample :
    Shape.hasRequiredChain signShape = true ∧
    Shape.hasRequiredChain bannerShape = true ∧
    (∃ r lo, decodeShape signShape
      [("x", .int 0), ("y", .int 0), ("z", .int 0), ("Text1", .string "hi"),
        ("Text2", .string "bye")] = .ok (r, lo)) ∧
    (firstUntagged [signEntry, bannerEntry]
      [("x", .int 0), ("y", .int 0), ("z", .int 0), ("Text1", .string "hi"),
        ("Text2", .string "bye")]).map (fun p => p.1.eid) =
      some "minecraft:banner" := by
  refine ⟨rfl, rfl, ⟨_, _, rfl⟩, rfl⟩

/-- C2 amended: untagged resolution is one pass over the table in declared
order with no partition; a candidate is attempted exactly when its
`unused_keys` count is zero, an attempt succeeds exactly when the typed
decode does, and the first success wins.  Every returned candidate is a
table entry with a zero count whose shape decoded the mapping. -/
theorem c2_selection (table : List TableEntry) (props : NbtMap) :
    firstUntagged table props =
      table.findSome? (fun e => attemptUntagged e props) ∧
    ∀ e r, firstUntagged table props = some (e, r) →
      e ∈ table ∧ unusedKeys e.fields props = 0 ∧
        ∃ lo, decodeShape e.shape props = .ok (r, lo) :=
  ⟨firstUntagged_eq_findSome table props,
    fun e r h => firstUntagged_decodes table props e r h⟩

/-- C3's counterexample: untagged resolution returns a Typed Record whose
flattened form does not reproduce the input mapping — a field given at a
wider integer width than declared is accepted and re-encoded at the
declared width, so the value is silently altered. -/
theorem c3_counterexample :
    firstUntagged [furnaceEntry]
      [("x", .int 0), ("y", .int 0), ("z", .int 0), ("BurnTime", .int 5)] =
      some (furnaceEntry, .node [("BurnTime", some (.short 5))] []
        (.root [("x", some (.int 0)), ("y", some (.int 0)), ("z", some (.int 0))] [])) ∧
    NbtMap.lookup (Record.flatten (.node [("BurnTime", some (.short 5))] []
      (.root [("x", some (.int 0)), ("y", some (.int 0)), ("z", some (.int 0))] [])))
      "BurnTime" = some (.short 5) ∧
    NbtMap.lookup [("x", Value.int 0), ("y", Value.int 0), ("z", Value.int 0),
      ("BurnTime", Value.int 5)] "BurnTime" = some (.int 5) ∧
    (Value.short 5) ≠ (Value.int 5) := by
  refine ⟨rfl, rfl, rfl, by decide⟩

theorem canonicalFor_of_B (s : Shape) (m : NbtMap) (h : CanonicalForB s m = true) :
    CanonicalFor s m := by
  intro kv hkv fs hfs
  have h2 := List.all_eq_true.mp h kv hkv
  rw [hfs] at h2
  simpa using h2

theorem covers_of_B (s : Shape) (m : NbtMap) (h : CoversB s m = true) :
    Covers s m := by
  intro k hk
  have h2 := List.all_eq_true.mp h k hk
  simpa using h2

/-! ## The tagged round trip -/

theorem scanBE_props_eq (m : NbtMap) (s : BEScan)
    (hnodup : (NbtMap.keysOf m).Nodup)
    (h : scanBE m = .ok s) :
    s.props = m.filter (fun kv => !beIdent kv.1) := by
  simp only [scanBE] at h
  cases haux : scanBEAux m ⟨none, none, none, none, []⟩ with
  | error e => rw [haux] at h; cases h
  | ok st =>
    rw [haux] at h
    have hp := scanBEAux_props m _ st haux
    cases hx : st.stX with
    | none => simp only [hx] at h; exact Except.noConfusion h
    | some x =>
      cases hy : st.stY with
      | none => simp only [hx, hy] at h; exact Except.noConfusion h
      | some y =>
        cases hz : st.stZ with
        | none => simp only [hx, hy, hz] at h; exact Except.noConfusion h
        | some z =>
          simp only [hx, hy, hz, Except.ok.injEq] at h
          have hprops : s.props = st.stProps := by rw [← h]
          rw [hprops, hp, foldInsert_nil_of_nodup _ (keysOf_filter_nodup m _ hnodup)]

theorem mem_keysOf_filter (m : NbtMap) (p : String × Value → Bool) (q : String)
    (h : q ∈ NbtMap.keysOf (m.filter p)) : ∃ v, (q, v) ∈ m ∧ p (q, v) = true := by
  simp only [NbtMap.keysOf, List.mem_map] at h
  obtain ⟨kv, hkv, hq⟩ := h
  obtain ⟨k, v⟩ := kv
  subst hq
  have h2 := List.mem_filter.mp hkv
  exact ⟨v, h2.1, h2.2⟩

theorem insertXYZ_eq_append (props : NbtMap) (x y z : Int)
    (hx : "x" ∉ NbtMap.keysOf props) (hy : "y" ∉ NbtMap.keysOf props)
    (hz : "z" ∉ NbtMap.keysOf props) :
    insertXYZ x y z props =
      props ++ [("x", Value.int x), ("y", Value.int y), ("z", Value.int z)] := by
  have h1 : NbtMap.insert props "x" (.int x) = props ++ [("x", .int x)] :=
    insert_of_not_mem _ _ _ hx
  have h2 : NbtMap.insert (props ++ [("x", Value.int x)]) "y" (.int y) =
      props ++ [("x", Value.int x)] ++ [("y", Value.int y)] := by
    apply insert_of_not_mem
    simp only [NbtMap.keysOf, List.map_append, List.mem_append] at hy ⊢
    rintro (h | h)
    · exact hy h
    · simp at h
  have h3 : NbtMap.insert (props ++ [("x", Value.int x)] ++ [("y", Value.int y)]) "z"
      (.int z) =
      props ++ [("x", Value.int x)] ++ [("y", Value.int y)] ++ [("z", Value.int z)] := by
    apply insert_of_not_mem
    simp only [NbtMap.keysOf, List.map_append, List.mem_append] at hz ⊢
    rintro ((h | h) | h)
    · exact hz h
    · simp at h
    · simp at h
  show NbtMap.insert (NbtMap.insert (NbtMap.insert props "x" (.int x)) "y" (.int y)) "z"
      (.int z) = _
  rw [h1, h2, h3]
  simp

theorem props_ident_free (m : NbtMap) (s : BEScan)
    (hnodup : (NbtMap.keysOf m).Nodup)
    (h : scanBE m = .ok s) :
    ∀ q, beIdent q = true → q ∉ NbtMap.keysOf s.props := by
  intro q hq hmem
  rw [scanBE_props_eq m s hnodup h] at hmem
  obtain ⟨v, _, hp⟩ := mem_keysOf_filter m _ q hmem
  rw [Bool.not_eq_eq_eq_not] at hp
  simp only [hq] at hp
  cases hp

/-- C3 amended: when untagged resolution returns a Typed Record and the
mapping's values are already at their declared widths, the flattened form
of the record reproduces the mapping key for key — the `unused_keys == 0`
filter (with the coordinates present, outside the field list and claimed
by the chain, and the field list inside the chain) guarantees every input
key is consumed, so nothing is dropped; and when no candidate consumes
every field (the untagged loop finds none), the result is a Generic value
with the empty string as tag, preserving every non-identity field of the
input verbatim, with the coordinates stripped back into the position. -/
theorem c3_untagged_lossless (table : List TableEntry) (props : NbtMap)
    (e : TableEntry) (r : Record)
    (table₂ : List TableEntry) (m₂ : NbtMap) (s₂ : BEScan)
    (hfu : firstUntagged table props = some (e, r))
    (hchain : e.shape.chainNames.Nodup)
    (hnodup : (NbtMap.keysOf props).Nodup)
    (hcanon : CanonicalFor e.shape props)
    (hx : "x" ∈ NbtMap.keysOf props) (hy : "y" ∈ NbtMap.keysOf props)
    (hz : "z" ∈ NbtMap.keysOf props)
    (hfx : "x" ∉ e.fields) (hfy : "y" ∉ e.fields) (hfz : "z" ∉ e.fields)
    (hcx : "x" ∈ e.shape.chainNames) (hcy : "y" ∈ e.shape.chainNames)
    (hcz : "z" ∈ e.shape.chainNames)
    (hfsub : ∀ k, k ∈ e.fields → k ∈ e.shape.chainNames)
    (hnodup₂ : (NbtMap.keysOf m₂).Nodup)
    (hscan₂ : scanBE m₂ = .ok s₂)
    (hsid₂ : s₂.sid = none)
    (hnone : firstUntagged table₂ (insertXYZ s₂.sx s₂.sy s₂.sz s₂.props) = none) :
    (r.levelsNodup ∧ ∀ q, flatLookup r q = NbtMap.lookup props q) ∧
    (decodeBlockEntity table₂ m₂ = .ok (.other ⟨"", ⟨s₂.sx, s₂.sy, s₂.sz⟩, s₂.props⟩) ∧
      ∀ q, beIdent q = false →
        NbtMap.lookup s₂.props q = NbtMap.lookup m₂ q) := by
  constructor
  · obtain ⟨hmem, h0, lo, hdec⟩ := firstUntagged_decodes table props e r hfu
    have hcov : Covers e.shape props := by
      intro k hk
      by_cases hkf : k ∈ e.fields
      · exact hfsub k hkf
      · rcases unusedKeys_zero_cover e.fields props hx hy hz hfx hfy hfz h0 k hk hkf with
          hxx | hyy | hzz
        · subst hxx; exact hcx
        · subst hyy; exact hcy
        · subst hzz; exact hcz
    obtain ⟨hnod, hlo, hrepr⟩ :=
      decodeShape_reproduces e.shape props r lo hchain hnodup hcanon hcov hdec
    exact ⟨hnod, hrepr⟩
  · constructor
    · have hfree := props_ident_free m₂ s₂ hnodup₂ hscan₂
      have hrx : removeXYZ (insertXYZ s₂.sx s₂.sy s₂.sz s₂.props) = s₂.props :=
        removeXYZ_insertXYZ s₂.props s₂.sx s₂.sy s₂.sz
          (hfree "x" (by decide)) (hfree "y" (by decide)) (hfree "z" (by decide))
      simp only [decodeBlockEntity, hscan₂, Except.map, dispatchBE, hsid₂, hnone, hrx]
    · exact scanBE_props m₂ s₂ hnodup₂ hscan₂

/-- C3's amended theorem at a concrete input: the furnace-like shape with a
canonically-given 16-bit field reproduces the mapping, and a mapping no
candidate covers falls back to the empty-tag Generic value with its
property preserved. -/
theorem c3_witness :
    ((Record.node [("BurnTime", some (.short 5))] []
      (.root [("x", some (.int 0)), ("y", some (.int 0)),
        ("z", some (.int 0))] [])).levelsNodup ∧
    ∀ q, flatLookup (.node [("BurnTime", some (.short 5))] []
      (.root [("x", some (.int 0)), ("y", some (.int 0)), ("z", some (.int 0))] [])) q =
      NbtMap.lookup [("x", .int 0), ("y", .int 0), ("z", .int 0),
        ("BurnTime", .short 5)] q) ∧
    (decodeBlockEntity [furnaceEntry]
        [("x", .int 0), ("y", .int 0), ("z", .int 0), ("Weird", .int 7)] =
      .ok (.other ⟨"", ⟨0, 0, 0⟩, [("Weird", .int 7)]⟩) ∧
    ∀ q, beIdent q = false →
      NbtMap.lookup [("Weird", Value.int 7)] q =
        NbtMap.lookup [("x", .int 0), ("y", .int 0), ("z", .int 0),
          ("Weird", .int 7)] q) :=
  c3_untagged_lossless [furnaceEntry]
    [("x", .int 0), ("y", .int 0), ("z", .int 0), ("BurnTime", .short 5)]
    furnaceEntry
    (.node [("BurnTime", some (.short 5))] []
      (.root [("x", some (.int 0)), ("y", some (.int 0)), ("z", some (.int 0))] []))
    [furnaceEntry] [("x", .int 0), ("y", .int 0), ("z", .int 0), ("Weird", .int 7)]
    ⟨none, 0, 0, 0, [("Weird", .int 7)]⟩
    rfl (by decide) (by decide)
    (canonicalFor_of_B _ _ (by decide))
    (by decide) (by decide) (by decide) (by decide) (by decide) (by decide)
    (by decide) (by decide) (by decide) (by decide)
    (by decide) rfl rfl rfl

/-- C4's counterexample: a mapping that decodes to a Typed Record on the
tagged path but whose unclaimed key `Bogus` is silently dropped — the
generated root deserializer ignores whatever is left of `__collect` — so
re-encoding does not reproduce the input. -/
theorem c4_counterexample :
    decodeBlockEntity [signEntry]
      [("id", .string "minecraft:sign"), ("x", .int 1), ("y", .int 2), ("z", .int 3),
        ("Text1", .string "hi"), ("Bogus", .byte 0)] =
      .ok (.typed "minecraft:sign" (.node [("Text1", some (.string "hi"))] []
        (.root [("x", some (.int 1)), ("y", some (.int 2)),
          ("z", some (.int 3))] []))) ∧
    serializeBE (.typed "minecraft:sign" (.node [("Text1", some (.string "hi"))] []
      (.root [("x", some (.int 1)), ("y", some (.int 2)), ("z", some (.int 3))] []))) =
      some [("id", .string "minecraft:sign"), ("x", .int 1), ("y", .int 2), ("z", .int 3),
        ("Text1", .string "hi")] ∧
    NbtMap.lookup [("id", Value.string "minecraft:sign"), ("x", Value.int 1),
      ("y", Value.int 2), ("z", Value.int 3), ("Text1", Value.string "hi")] "Bogus" =
      none ∧
    NbtMap.lookup [("id", Value.string "minecraft:sign"), ("x", Value.int 1),
      ("y", Value.int 2), ("z", Value.int 3), ("Text1", Value.string "hi"),
      ("Bogus", Value.byte 0)] "Bogus" = some (.byte 0) := by
  refine ⟨rfl, rfl, rfl, rfl⟩

/-- C4 amended: when a tagged decode succeeds and the mapping's values are
canonical for the shape, with every key claimed somewhere in the chain
(nothing left over for the root to drop), re-encoding the Typed Record
reproduces the mapping up to key order (`MapEq`). -/
theorem c4_tagged_roundtrip (table : List TableEntry) (m : NbtMap) (s : BEScan)
    (tag : String) (e : TableEntry) (r : Record) (lo : List (String × Value))
    (hnodup : (NbtMap.keysOf m).Nodup)
    (hscan : scanBE m = .ok s)
    (hsid : s.sid = some tag)
    (hfind : findEntry table tag = some e)
    (hdec : decodeShape e.shape (insertXYZ s.sx s.sy s.sz s.props) = .ok (r, lo))
    (hchain : e.shape.chainNames.Nodup)
    (hcanon : CanonicalFor e.shape (insertXYZ s.sx s.sy s.sz s.props))
    (hcov : Covers e.shape (insertXYZ s.sx s.sy s.sz s.props))
    (hmx : NbtMap.lookup m "x" = some (.int s.sx))
    (hmy : NbtMap.lookup m "y" = some (.int s.sy))
    (hmz : NbtMap.lookup m "z" = some (.int s.sz))
    (hmid : NbtMap.lookup m "id" = some (.string tag))
    (htag : tag ≠ "") :
    decodeBlockEntity table m = .ok (.typed e.eid r) ∧
    ∃ out, serializeBE (.typed e.eid r) = some out ∧ MapEq out m := by
  have hfree := props_ident_free m s hnodup hscan
  have hpx : "x" ∉ NbtMap.keysOf s.props := hfree "x" (by decide)
  have hpy : "y" ∉ NbtMap.keysOf s.props := hfree "y" (by decide)
  have hpz : "z" ∉ NbtMap.keysOf s.props := hfree "z" (by decide)
  have hpnodup : (NbtMap.keysOf s.props).Nodup := by
    rw [scanBE_props_eq m s hnodup hscan]
    exact keysOf_filter_nodup m _ hnodup
  have hinodup : (NbtMap.keysOf (insertXYZ s.sx s.sy s.sz s.props)).Nodup := by
    rw [insertXYZ_eq_append s.props s.sx s.sy s.sz hpx hpy hpz]
    simp only [NbtMap.keysOf, List.map_append]
    rw [List.nodup_append]
    refine ⟨hpnodup, by simp, ?_⟩
    intro a ha hb
    simp only [List.map, List.mem_cons, List.not_mem_nil, or_false] at hb
    rcases hb with hb | hb | hb <;> subst hb
    · exact hpx ha
    · exact hpy ha
    · exact hpz ha
  obtain ⟨hnod, hlo, hrepr⟩ := decodeShape_reproduces e.shape _ r lo hchain hinodup
    hcanon hcov hdec
  have heid : e.eid = tag := findEntry_eid table tag e hfind
  have hfx : NbtMap.lookup (Record.flatten r) "x" = some (.int s.sx) := by
    rw [lookup_flatten r _ hnod, hrepr "x", lookup_insertXYZ]
    rfl
  have hfy : NbtMap.lookup (Record.flatten r) "y" = some (.int s.sy) := by
    rw [lookup_flatten r _ hnod, hrepr "y", lookup_insertXYZ]
    rfl
  have hfz : NbtMap.lookup (Record.flatten r) "z" = some (.int s.sz) := by
    rw [lookup_flatten r _ hnod, hrepr "z", lookup_insertXYZ]
    rfl
  have hg : asGenericBE (.typed e.eid r) =
      some ⟨e.eid, ⟨s.sx, s.sy, s.sz⟩, removeXYZ (Record.flatten r)⟩ := by
    simp only [asGenericBE, hfx, hfy, hfz]
  constructor
  · simp only [decodeBlockEntity, hscan, Except.map, dispatchBE, hsid, hfind, hdec]
  · refine ⟨serializeGenericBE ⟨e.eid, ⟨s.sx, s.sy, s.sz⟩, removeXYZ (Record.flatten r)⟩,
      ?_, ?_⟩
    · simp only [serializeBE, hg, Option.map]
    intro q
    simp only [serializeGenericBE]
    rw [if_neg (by simpa [heid] using htag)]
    by_cases hqid : q = "id"
    · subst hqid
      simp [NbtMap.lookup, heid, hmid]
    · by_cases hqx : q = "x"
      · subst hqx
        simp [NbtMap.lookup, hmx]
      · by_cases hqy : q = "y"
        · subst hqy
          simp [NbtMap.lookup, hmy]
        · by_cases hqz : q = "z"
          · subst hqz
            simp [NbtMap.lookup, hmz]
          · have hbq : beIdent q = false := by
              simp [beIdent, hqid, hqx, hqy, hqz]
            have hpass : NbtMap.lookup
                (([("id", Value.string e.eid)] ++
                  [("x", Value.int s.sx), ("y", Value.int s.sy), ("z", Value.int s.sz)]) ++
                  removeXYZ (Record.flatten r)) q =
                NbtMap.lookup (removeXYZ (Record.flatten r)) q := by
              simp [NbtMap.lookup, Ne.symm hqid, Ne.symm hqx, Ne.symm hqy, Ne.symm hqz]
            rw [hpass, lookup_removeXYZ, if_neg (by simp [hqx, hqy, hqz]),
              lookup_flatten r _ hnod, hrepr q, lookup_insertXYZ,
              if_neg hqz, if_neg hqy, if_neg hqx]
            exact scanBE_props m s hnodup hscan q hbq

/-- C4's amended theorem at a concrete input: the sign mapping of the spec's
Scenario A round-trips through decode and re-encode. -/
theorem c4_witness :
    decodeBlockEntity [signEntry]
      [("id", .string "minecraft:sign"), ("x", .int 1), ("y", .int 2), ("z", .int 3),
        ("Text1", .string "hi")] =
      .ok (.typed "minecraft:sign" (.node [("Text1", some (.string "hi"))] []
        (.root [("x", some (.int 1)), ("y", some (.int 2)),
          ("z", some (.int 3))] []))) ∧
    ∃ out, serializeBE (.typed "minecraft:sign"
      (.node [("Text1", some (.string "hi"))] []
        (.root [("x", some (.int 1)), ("y", some (.int 2)),
          ("z", some (.int 3))] []))) = some out ∧
      MapEq out [("id", .string "minecraft:sign"), ("x", .int 1), ("y", .int 2),
        ("z", .int 3), ("Text1", .string "hi")] :=
  c4_tagged_roundtrip [signEntry] _
    ⟨some "minecraft:sign", 1, 2, 3, [("Text1", .string "hi")]⟩
    "minecraft:sign" signEntry
    (.node [("Text1", some (.string "hi"))] []
      (.root [("x", some (.int 1)), ("y", some (.int 2)), ("z", some (.int 3))] []))
    []
    (by decide) rfl rfl rfl rfl (by decide)
    (canonicalFor_of_B _ _ (by decide)) (covers_of_B _ _ (by decide))
    rfl rfl rfl rfl (by decide)

/-- C8's counterexample: a non-identity key appearing twice at the dispatch
layer is not an error — the second occurrence silently replaces the first
in the `HashMap` (last wins), and the whole decode still succeeds. -/
theorem c8_counterexample :
    scanBE [("id", .string "t"), ("x", .int 0), ("y", .int 0), ("z", .int 0),
      ("Foo", .int 1), ("Foo", .int 2)] =
      .ok ⟨some "t", 0, 0, 0, [("Foo", .int 2)]⟩ ∧
    decodeBlockEntity [] [("id", .string "t"), ("x", .int 0), ("y", .int 0),
      ("z", .int 0), ("Foo", .int 1), ("Foo", .int 2)] =
      .ok (.other ⟨"t", ⟨0, 0, 0⟩, [("Foo", .int 2)]⟩) := by
  refine ⟨rfl, rfl⟩

/-- C8 amended: a key claimed by the shape whose own fields are being decoded
is a hard `duplicate_field` error on its second occurrence — a successful
scan implies no claimed key occurred again (first and third conjuncts), and
a second occurrence meets a filled slot, which is reported as
`duplicate_field` (second conjunct) — and the dispatch layer checks its
four dedicated identity keys the same way (third and fourth conjuncts);
but this does not extend to non-identity keys at the dispatch layer, which
go to a `HashMap` where the last occurrence silently wins (the
counterexample). -/
theorem c8_duplicate_errors (sh : Shape) (l₁ l₂ : NbtMap) (q : String) (v : Value)
    (r : Record) (lo : List (String × Value))
    (own₂ : List FieldSpec) (q₂ : String) (fs₂ : FieldSpec) (w v₂ : Value)
    (slots : List (String × Option Value)) (collect : List (String × Value))
    (l₃ l₄ : NbtMap) (k : String) (v₃ : Value) (s : BEScan)
    (l₅ l₆ : NbtMap) (k₂ : String) (v₅ : Value) (out : String × Value × NbtMap)
    (hq : (findSpec sh.own q).isSome = true)
    (hdec : decodeShape sh (l₁ ++ (q, v) :: l₂) = .ok (r, lo))
    (hq2 : findSpec own₂ q₂ = some fs₂)
    (hfill : slotLookup slots q₂ = some (some w))
    (hbk : beIdent k = true)
    (hscan : scanBE (l₃ ++ (k, v₃) :: l₄) = .ok s)
    (hek : entIdent k₂ = true)
    (hscan₂ : scanEnt (l₅ ++ (k₂, v₅) :: l₆) = .ok out) :
    q ∉ NbtMap.keysOf l₂ ∧
    scanOwnStep own₂ q₂ v₂ slots collect = .error (.duplicateField q₂) ∧
    k ∉ NbtMap.keysOf l₄ ∧
    k₂ ∉ NbtMap.keysOf l₆ :=
  ⟨decodeShape_no_second sh l₁ l₂ q v r lo hq hdec,
    by simp only [scanOwnStep, hq2, hfill],
    scanBE_no_second l₃ l₄ k v₃ s hbk hscan,
    scanEnt_no_second l₅ l₆ k₂ v₅ out hek hscan₂⟩

/-- C8's amended theorem at a concrete input. -/
theorem c8_witness :
    "Text1" ∉ NbtMap.keysOf [("x", Value.int 0), ("y", Value.int 0), ("z", Value.int 0)] ∧
    scanOwnStep [⟨"Text1", false, .stringT⟩] "Text1" (.string "again")
      [("Text1", some (.string "hi"))] [] = .error (.duplicateField "Text1") ∧
    "x" ∉ NbtMap.keysOf [("y", Value.int 0), ("z", Value.int 0)] ∧
    "UUID" ∉ NbtMap.keysOf [("Health", Value.int 1)] :=
  c8_duplicate_errors signShape [] [("x", .int 0), ("y", .int 0), ("z", .int 0)]
    "Text1" (.string "hi")
    (.node [("Text1", some (.string "hi"))] []
      (.root [("x", some (.int 0)), ("y", some (.int 0)), ("z", some (.int 0))] []))
    []
    [⟨"Text1", false, .stringT⟩] "Text1" ⟨"Text1", false, .stringT⟩ (.string "hi")
    (.string "again") [("Text1", some (.string "hi"))] []
    [("id", .string "t")] [("y", .int 0), ("z", .int 0)] "x" (.int 0)
    ⟨some "t", 0, 0, 0, []⟩
    [("id", .string "p")] [("Health", .int 1)] "UUID" (.intArray [0, 0, 0, 0])
    ("p", .intArray [0, 0, 0, 0], [("Health", .int 1)])
    (by decide) rfl rfl rfl rfl rfl rfl rfl

end MCData
